import Mathlib

/-
  Verification of the DWARF CFA register-rule stack
  (Source/dwarf_cfa_stack.cpp).

  The store is a fixed-capacity entry pool with an index-linked free list,
  one bucket-hashed table of entry-index chains per state-stack level, and a
  depth cursor.  All machine integers are modelled as Nat / Int, with the
  uint8 fields (rule storage, per-level register counts) wrapped modulo 256
  exactly where the source performs uint8 arithmetic.

  The compile-time configuration constants live in dwarf_cfa_stack.hpp,
  which is not part of the sources given; their values here are modelled
  from the spec (fixed pool capacity, fixed state-stack depth limit, fixed
  bucket count, and a sentinel index numerically greater than every valid
  entry index, as the constructor statically asserts on line 70).
-/

/-- Modelled from the spec: sentinel index denoting "no link"; entry links are
uint8, so the sentinel is 255 (UINT8_MAX), numerically greater than every
valid entry index. -/
abbrev DWARF_CFA_STACK_INVALID_ENTRY_IDX : Nat := 255

/-- Modelled from the spec: fixed entry-pool capacity, strictly smaller than
the sentinel index (statically asserted at dwarf_cfa_stack.cpp line 70). -/
abbrev DWARF_CFA_STACK_MAX_REGISTERS : Nat := 100

/-- Modelled from the spec: fixed state-stack depth limit. -/
abbrev DWARF_CFA_STACK_MAX_STATES : Nat := 6

/-- Modelled from the spec: fixed bucket count of each per-level hash table;
the source computes it as the row length of the table array (line 101). -/
abbrev DWARF_CFA_STACK_BUCKET_COUNT : Nat := 14

/- Total list access with a default, and in-bounds update.  These model the
   plain C array reads and writes of the source. -/

def lget {α : Type} : List α → Nat → α → α
  | [], _, d => d
  | a :: _, 0, _ => a
  | _ :: t, n + 1, d => lget t n d

def lset {α : Type} : List α → Nat → α → List α
  | [], _, _ => []
  | _ :: t, 0, b => b :: t
  | a :: t, n + 1, b => a :: lset t n b

/-- One register-rule record of the entry pool (struct dwarf_cfa_reg_entry).
The regnum / rule / value fields are uninitialized at construction in the
source; the model fixes them to 0 there. -/
structure dwarf_cfa_reg_entry where
  regnum : Nat
  rule : Nat
  value : Int
  next : Nat
deriving DecidableEq

/-- The whole store: entry pool, free-list head, per-level bucket tables,
per-level register counts, and the depth cursor (class dwarf_cfa_stack). -/
structure dwarf_cfa_stack where
  entries : List dwarf_cfa_reg_entry
  free_list : Nat
  table_stack : List (List Nat)
  register_count : List Nat
  table_depth : Nat
deriving DecidableEq

def entry_default : dwarf_cfa_reg_entry :=
  ⟨0, 0, 0, DWARF_CFA_STACK_INVALID_ENTRY_IDX⟩

def getEntry (s : dwarf_cfa_stack) (i : Nat) : dwarf_cfa_reg_entry :=
  lget s.entries i entry_default

def setEntry (s : dwarf_cfa_stack) (i : Nat) (e : dwarf_cfa_reg_entry) :
    dwarf_cfa_stack :=
  { s with entries := lset s.entries i e }

/-- Bucket-head index stored at level l, bucket b. -/
def slot (s : dwarf_cfa_stack) (l b : Nat) : Nat :=
  lget (lget s.table_stack l []) b DWARF_CFA_STACK_INVALID_ENTRY_IDX

def setSlot (s : dwarf_cfa_stack) (l b v : Nat) : dwarf_cfa_stack :=
  { s with table_stack := lset s.table_stack l (lset (lget s.table_stack l []) b v) }

def countAt (s : dwarf_cfa_stack) (l : Nat) : Nat :=
  lget s.register_count l 0

def setCount (s : dwarf_cfa_stack) (l n : Nat) : dwarf_cfa_stack :=
  { s with register_count := lset s.register_count l n }

/-- Constructor (lines 68-88): free list threads every slot i to i+1, the
last slot to the sentinel; depth 0; level 0 cleared.  The other levels'
rows and counts are uninitialized in the source and never read before being
cleared by push_state; the model initializes them to the cleared state. -/
def init_stack : dwarf_cfa_stack :=
  { entries :=
      (List.range DWARF_CFA_STACK_MAX_REGISTERS).map (fun i =>
        if i + 1 = DWARF_CFA_STACK_MAX_REGISTERS then
          ⟨0, 0, 0, DWARF_CFA_STACK_INVALID_ENTRY_IDX⟩
        else ⟨0, 0, 0, i + 1⟩)
    free_list := 0
    table_stack :=
      List.replicate DWARF_CFA_STACK_MAX_STATES
        (List.replicate DWARF_CFA_STACK_BUCKET_COUNT
          DWARF_CFA_STACK_INVALID_ENTRY_IDX)
    register_count := List.replicate DWARF_CFA_STACK_MAX_STATES 0
    table_depth := 0 }

/-- push_state (lines 38-49). -/
def push_state (s : dwarf_cfa_stack) : Bool × dwarf_cfa_stack :=
  if s.table_depth + 1 = DWARF_CFA_STACK_MAX_STATES then (false, s)
  else
    let d := s.table_depth + 1
    (true,
      { s with
        table_depth := d
        register_count := lset s.register_count d 0
        table_stack :=
          lset s.table_stack d
            (List.replicate DWARF_CFA_STACK_BUCKET_COUNT
              DWARF_CFA_STACK_INVALID_ENTRY_IDX) })

/-- pop_state (lines 57-63). -/
def pop_state (s : dwarf_cfa_stack) : Bool × dwarf_cfa_stack :=
  if s.table_depth = 0 then (false, s)
  else (true, { s with table_depth := s.table_depth - 1 })

/-- get_register_count (lines 220-222). -/
def get_register_count (s : dwarf_cfa_stack) : Nat :=
  countAt s s.table_depth

/-- The chain walk of set_register (lines 104-117): returns the index of the
matching entry (Sum.inl), or the parent off which to chain a new entry
(Sum.inr; none when the bucket was empty).  The source loop terminates by
match, by break at the last element, or by the guard on the initial head;
fuel exhaustion (none) models a walk that does not terminate. -/
def set_find (regnum : Nat) :
    Nat → dwarf_cfa_stack → Nat → Option Nat → Option (Nat ⊕ Option Nat)
  | 0, _, _, _ => none
  | fuel + 1, s, idx, parent =>
    if idx = DWARF_CFA_STACK_INVALID_ENTRY_IDX then some (Sum.inr parent)
    else
      let e := getEntry s idx
      if e.regnum = regnum then some (Sum.inl idx)
      else if e.next = DWARF_CFA_STACK_INVALID_ENTRY_IDX then
        some (Sum.inr (some idx))
      else set_find regnum fuel s e.next (some idx)

/-- In-place overwrite of an existing entry by set_register (lines 109-110):
value and rule only, count and links untouched. -/
def set_update (ru : Nat) (v : Int) (m : Nat) (s : dwarf_cfa_stack) :
    dwarf_cfa_stack :=
  setEntry s m { getEntry s m with rule := ru % 256, value := v }

/-- Allocation path of set_register (lines 129-147): pop the free-list head,
initialize it, link it as bucket head or behind the last chain element, and
increment the level's uint8 register count. -/
def set_alloc (regnum ru : Nat) (v : Int) (parent : Option Nat)
    (s : dwarf_cfa_stack) : dwarf_cfa_stack :=
  let bucket := regnum % DWARF_CFA_STACK_BUCKET_COUNT
  let eidx := s.free_list
  let s1 := { s with free_list := (getEntry s eidx).next }
  let s2 := setEntry s1 eidx
    ⟨regnum, ru % 256, v, DWARF_CFA_STACK_INVALID_ENTRY_IDX⟩
  let s3 :=
    match parent with
    | none => setSlot s2 s2.table_depth bucket eidx
    | some p => setEntry s2 p { getEntry s2 p with next := eidx }
  setCount s3 s3.table_depth ((countAt s3 s3.table_depth + 1) % 256)

/-- set_register (lines 97-148).  The rule argument is stored in a uint8
field (asserted rule <= UINT8_MAX on line 98), modelled as reduction mod
256.  Returns none on fuel exhaustion of the chain walk. -/
def set_register (regnum ru : Nat) (v : Int) (fuel : Nat)
    (s : dwarf_cfa_stack) : Option (Bool × dwarf_cfa_stack) :=
  let bucket := regnum % DWARF_CFA_STACK_BUCKET_COUNT
  match set_find regnum fuel s (slot s s.table_depth bucket) none with
  | none => none
  | some (Sum.inl m) => some (true, set_update ru v m s)
  | some (Sum.inr parent) =>
      if s.free_list = DWARF_CFA_STACK_INVALID_ENTRY_IDX then some (false, s)
      else some (true, set_alloc regnum ru v parent s)

/-- The chain walk of get_register_rule (lines 163-177): returns the stored
(rule, value) pair on a regnum match, none-inner when not found. -/
def get_find (regnum : Nat) :
    Nat → dwarf_cfa_stack → Nat → Option (Option (Nat × Int))
  | 0, _, _ => none
  | fuel + 1, s, idx =>
    if idx = DWARF_CFA_STACK_INVALID_ENTRY_IDX then some none
    else
      let e := getEntry s idx
      if e.regnum = regnum then some (some (e.rule, e.value))
      else if e.next = DWARF_CFA_STACK_INVALID_ENTRY_IDX then some none
      else get_find regnum fuel s e.next

/-- get_register_rule (lines 158-181). -/
def get_register_rule (regnum : Nat) (fuel : Nat) (s : dwarf_cfa_stack) :
    Option (Option (Nat × Int)) :=
  get_find regnum fuel s
    (slot s s.table_depth (regnum % DWARF_CFA_STACK_BUCKET_COUNT))

/-- The mutation performed by one matching iteration of remove_register
(lines 201-213): unlink from the bucket chain (through prev, or the bucket
head), push the entry onto the free list, decrement the level's uint8
register count. -/
def remove_step (regnum : Nat) (s : dwarf_cfa_stack) (prev : Option Nat)
    (idx : Nat) : dwarf_cfa_stack :=
  let bucket := regnum % DWARF_CFA_STACK_BUCKET_COUNT
  let e := getEntry s idx
  let s1 :=
    match prev with
    | none => setSlot s s.table_depth bucket e.next
    | some p => setEntry s p { getEntry s p with next := e.next }
  let s2 := setEntry s1 idx { getEntry s1 idx with next := s1.free_list }
  let s3 := { s2 with free_list := idx }
  setCount s3 s3.table_depth ((countAt s3 s3.table_depth + 255) % 256)

/-- The loop of remove_register (lines 194-214).  The source has no break
after a removal: the loop continuation entry_idx = entry->next reads the
next field just overwritten with the old free-list head, so the traversal
continues into the free list.  Fuel exhaustion (none) models a walk that
does not terminate. -/
def remove_loop (regnum : Nat) :
    Nat → dwarf_cfa_stack → Nat → Option Nat → Option dwarf_cfa_stack
  | 0, _, _, _ => none
  | fuel + 1, s, idx, prev =>
    if idx = DWARF_CFA_STACK_INVALID_ENTRY_IDX then some s
    else
      let e := getEntry s idx
      if e.regnum = regnum then
        remove_loop regnum fuel (remove_step regnum s prev idx)
          s.free_list (some idx)
      else remove_loop regnum fuel s e.next (some idx)

/-- remove_register (lines 188-215). -/
def remove_register (regnum fuel : Nat) (s : dwarf_cfa_stack) :
    Option dwarf_cfa_stack :=
  remove_loop regnum fuel s
    (slot s s.table_depth (regnum % DWARF_CFA_STACK_BUCKET_COUNT)) none

/-- Iterator state (class dwarf_cfa_stack_iterator, lines 230-234). -/
structure dwarf_cfa_stack_iterator where
  bucket_idx : Nat
  cur_entry_idx : Nat
deriving DecidableEq

def iter_init : dwarf_cfa_stack_iterator :=
  ⟨0, DWARF_CFA_STACK_INVALID_ENTRY_IDX⟩

/-- The bucket scan of the iterator (lines 258-263): advance bucket_idx to
the first non-empty bucket at the current level, or to the bucket count. -/
def find_bucket (s : dwarf_cfa_stack) (bi : Nat) : Nat × Option Nat :=
  if h : bi < DWARF_CFA_STACK_BUCKET_COUNT then
    let hd := slot s s.table_depth bi
    if hd ≠ DWARF_CFA_STACK_INVALID_ENTRY_IDX then (bi, some hd)
    else find_bucket s (bi + 1)
  else (bi, none)
termination_by DWARF_CFA_STACK_BUCKET_COUNT - bi

/-- Iterator next (lines 243-276). -/
def iter_next (s : dwarf_cfa_stack) (it : dwarf_cfa_stack_iterator) :
    Option (Nat × Nat × Int) × dwarf_cfa_stack_iterator :=
  let st1 : Nat × Nat :=
    if it.cur_entry_idx ≠ DWARF_CFA_STACK_INVALID_ENTRY_IDX then
      let n := (getEntry s it.cur_entry_idx).next
      if n = DWARF_CFA_STACK_INVALID_ENTRY_IDX then (it.bucket_idx + 1, n)
      else (it.bucket_idx, n)
    else (it.bucket_idx, it.cur_entry_idx)
  if st1.2 = DWARF_CFA_STACK_INVALID_ENTRY_IDX then
    match find_bucket s st1.1 with
    | (bi2, none) => (none, ⟨bi2, DWARF_CFA_STACK_INVALID_ENTRY_IDX⟩)
    | (bi2, some hd) =>
        let e := getEntry s hd
        (some (e.regnum, e.rule, e.value), ⟨bi2, hd⟩)
  else
    let e := getEntry s st1.2
    (some (e.regnum, e.rule, e.value), ⟨st1.1, st1.2⟩)

/- Public operation sequences and reachability. -/

inductive cfa_op where
  | push : cfa_op
  | pop : cfa_op
  | set : Nat → Nat → Int → cfa_op
  | remove : Nat → cfa_op
deriving DecidableEq

def step (fuel : Nat) (op : cfa_op) (s : dwarf_cfa_stack) :
    Option dwarf_cfa_stack :=
  match op with
  | .push => some (push_state s).2
  | .pop => some (pop_state s).2
  | .set r ru v => (set_register r ru v fuel s).map (·.2)
  | .remove r => remove_register r fuel s

def run (fuel : Nat) : List cfa_op → dwarf_cfa_stack → Option dwarf_cfa_stack
  | [], s => some s
  | op :: rest, s =>
    match step fuel op s with
    | none => none
    | some t => run fuel rest t

/-- A state is reachable when some sequence of public operations, each
completing, produces it from the freshly constructed store. -/
def Reachable (s : dwarf_cfa_stack) : Prop :=
  ∃ fuel ops, run fuel ops init_stack = some s

/- Chains as lists of entry indices.  chain_list walks next links from idx
   until the sentinel, with fuel bounding the walk. -/

def chain_list (s : dwarf_cfa_stack) : Nat → Nat → Option (List Nat)
  | 0, idx => if idx = DWARF_CFA_STACK_INVALID_ENTRY_IDX then some [] else none
  | fuel + 1, idx =>
    if idx = DWARF_CFA_STACK_INVALID_ENTRY_IDX then some []
    else (chain_list s fuel (getEntry s idx).next).map (idx :: ·)

def chainOf (s : dwarf_cfa_stack) (l b : Nat) : List Nat :=
  (chain_list s DWARF_CFA_STACK_MAX_REGISTERS (slot s l b)).getD []

def freeOf (s : dwarf_cfa_stack) : List Nat :=
  (chain_list s DWARF_CFA_STACK_MAX_REGISTERS s.free_list).getD []

/-- Fuel-free description of a chain segment: walking next links from idx
visits exactly the indices of c, in order, and ends at nxt. -/
def chain_seg (t : dwarf_cfa_stack) : Nat → Nat → List Nat → Prop
  | idx, nxt, [] => idx = nxt
  | idx, nxt, x :: xs =>
    idx = x ∧ x ≠ DWARF_CFA_STACK_INVALID_ENTRY_IDX ∧
    chain_seg t (getEntry t x).next nxt xs

/-- Shape of the arrays and the depth bound, preserved by every operation. -/
structure Shape (s : dwarf_cfa_stack) : Prop where
  entries_len : s.entries.length = DWARF_CFA_STACK_MAX_REGISTERS
  table_len : s.table_stack.length = DWARF_CFA_STACK_MAX_STATES
  row_len : ∀ l, l < DWARF_CFA_STACK_MAX_STATES →
    (lget s.table_stack l []).length = DWARF_CFA_STACK_BUCKET_COUNT
  count_len : s.register_count.length = DWARF_CFA_STACK_MAX_STATES
  depth_lt : s.table_depth < DWARF_CFA_STACK_MAX_STATES

/-- An index is safe when it is the sentinel or a valid pool index. -/
def idxOk (i : Nat) : Prop :=
  i = DWARF_CFA_STACK_INVALID_ENTRY_IDX ∨ i < DWARF_CFA_STACK_MAX_REGISTERS

instance (i : Nat) : Decidable (idxOk i) := by
  unfold idxOk
  exact inferInstance

/-- Index safety of every stored link: bucket heads of every level, every
entry's next link, and the free-list head. -/
structure IndexSafe (s : dwarf_cfa_stack) : Prop where
  free_ok : idxOk s.free_list
  next_ok : ∀ j, idxOk (getEntry s j).next
  slot_ok : ∀ l b, idxOk (slot s l b)

/-- Well-formedness invariant of reachable states: shape of the arrays,
bounded depth, both the free list and every bucket chain a terminating
duplicate-free walk over valid indices, bucket consistency and per-chain
register uniqueness, and exclusive ownership (free list and chains pairwise
disjoint). -/
structure WF (s : dwarf_cfa_stack) : Prop where
  shape : Shape s
  free_def : (chain_list s DWARF_CFA_STACK_MAX_REGISTERS s.free_list).isSome
  free_nodup : (freeOf s).Nodup
  free_lt : ∀ i ∈ freeOf s, i < DWARF_CFA_STACK_MAX_REGISTERS
  chain_def : ∀ l b,
    (chain_list s DWARF_CFA_STACK_MAX_REGISTERS (slot s l b)).isSome
  chain_nodup : ∀ l b, (chainOf s l b).Nodup
  chain_lt : ∀ l b, ∀ i ∈ chainOf s l b, i < DWARF_CFA_STACK_MAX_REGISTERS
  chain_bucket : ∀ l b, ∀ i ∈ chainOf s l b,
    (getEntry s i).regnum % DWARF_CFA_STACK_BUCKET_COUNT = b
  chain_reg_nodup : ∀ l b,
    ((chainOf s l b).map (fun i => (getEntry s i).regnum)).Nodup
  free_chain_disj : ∀ l b, ∀ i ∈ freeOf s, i ∉ chainOf s l b
  chain_chain_disj : ∀ l b l' b', (l, b) ≠ (l', b') →
    ∀ i ∈ chainOf s l b, i ∉ chainOf s l' b'

/-- True when some entry for register r is reachable from the current
level's table. -/
def reg_present (s : dwarf_cfa_stack) (r : Nat) : Bool :=
  (List.range DWARF_CFA_STACK_BUCKET_COUNT).any (fun b =>
    (chainOf s s.table_depth b).any (fun i => (getEntry s i).regnum == r))

def lflat {α : Type} : List (List α) → List α
  | [] => []
  | l :: ls => l ++ lflat ls

/-- The observable (regnum, rule, value) triple of pool entry i. -/
def entryTriple (s : dwarf_cfa_stack) (i : Nat) : Nat × Nat × Int :=
  ((getEntry s i).regnum, (getEntry s i).rule, (getEntry s i).value)

/-- All triples visible at the current level, bucket index ascending and in
chain order within a bucket. -/
def allTriples (s : dwarf_cfa_stack) : List (Nat × Nat × Int) :=
  lflat ((List.range DWARF_CFA_STACK_BUCKET_COUNT).map (fun b =>
    (chainOf s s.table_depth b).map (entryTriple s)))

/-- The triples of the given buckets, bucket order then chain order. -/
def triplesFrom (s : dwarf_cfa_stack) (bs : List Nat) :
    List (Nat × Nat × Int) :=
  lflat (bs.map (fun b => (chainOf s s.table_depth b).map (entryTriple s)))

/-- The entry indices of the given buckets, bucket order then chain order. -/
def catChains (s : dwarf_cfa_stack) (bs : List Nat) : List Nat :=
  lflat (bs.map (fun b => chainOf s s.table_depth b))

/-- Drive the iterator until it reports exhaustion (or fuel runs out),
collecting the emitted triples and the final iterator state. -/
def iter_run (s : dwarf_cfa_stack) :
    Nat → dwarf_cfa_stack_iterator →
    List (Nat × Nat × Int) × dwarf_cfa_stack_iterator
  | 0, it => ([], it)
  | fuel + 1, it =>
    match iter_next s it with
    | (none, it2) => ([], it2)
    | (some tr, it2) =>
        let rest := iter_run s fuel it2
        (tr :: rest.1, rest.2)

/-- First matching entry of a chain, as the (rule, value) pair stored. -/
def lookupChain (s : dwarf_cfa_stack) (r : Nat) : List Nat → Option (Nat × Int)
  | [] => none
  | i :: t =>
    if (getEntry s i).regnum = r then
      some ((getEntry s i).rule, (getEntry s i).value)
    else lookupChain s r t

/-- True when every state produced along the run keeps its depth above d. -/
def stays_above (d fuel : Nat) : List cfa_op → dwarf_cfa_stack → Bool
  | [], _ => true
  | op :: rest, s =>
    match step fuel op s with
    | none => false
    | some t => decide (d < t.table_depth) && stays_above d fuel rest t

/-- Equality of everything observable at level d: bucket heads, register
count, chain walks, and the entries reachable from them. -/
def FrameEq (d : Nat) (s t : dwarf_cfa_stack) : Prop :=
  (∀ b, slot s d b = slot t d b) ∧
  countAt s d = countAt t d ∧
  (∀ b, chain_list s DWARF_CFA_STACK_MAX_REGISTERS (slot s d b) =
    chain_list t DWARF_CFA_STACK_MAX_REGISTERS (slot t d b)) ∧
  (∀ b, ∀ i ∈ chainOf s d b, getEntry s i = getEntry t i)

/-- Every (level, bucket) coordinate of the table. -/
def allLB : List (Nat × Nat) :=
  lflat ((List.range DWARF_CFA_STACK_MAX_STATES).map (fun l =>
    (List.range DWARF_CFA_STACK_BUCKET_COUNT).map (fun b => (l, b))))

/-- Number of the given coordinates whose chain reaches index i. -/
def chainOwn (s : dwarf_cfa_stack) (i : Nat) : List (Nat × Nat) → Nat
  | [] => 0
  | p :: rest =>
    (if i ∈ chainOf s p.1 p.2 then 1 else 0) + chainOwn s i rest

/-- Number of owners of pool index i: one for free-list membership plus one
for each bucket chain (over every level) reaching it. -/
def ownCount (s : dwarf_cfa_stack) (i : Nat) : Nat :=
  (if i ∈ freeOf s then 1 else 0) + chainOwn s i allLB

/- Concrete states used by the counterexamples and witnesses. -/

/-- Operations whose final set leaves a stale duplicate of register 5 buried
in the free list: the remove of 6 pushes entry 1 onto the free list ahead
of the stale entry 0 (regnum still 5), and the last set re-allocates entry
1 for register 5 while entry 0 keeps its stale regnum. -/
def bug_pre_ops : List cfa_op :=
  [cfa_op.set 5 1 10, cfa_op.set 6 1 11, cfa_op.remove 5, cfa_op.remove 6]

def bug_pre_state : dwarf_cfa_stack :=
  (run 256 bug_pre_ops init_stack).getD init_stack

def bug_state_5 : dwarf_cfa_stack :=
  (run 256 (bug_pre_ops ++ [cfa_op.set 5 2 12]) init_stack).getD init_stack

/-- Operations that leak entry 0: it is set at depth 1, abandoned by pop,
and orphaned when the second push clears the depth-1 bucket heads. -/
def leak_ops : List cfa_op :=
  [cfa_op.push, cfa_op.set 1 3 7, cfa_op.pop, cfa_op.push]

def leak_state : dwarf_cfa_stack :=
  (run 256 leak_ops init_stack).getD init_stack

/- Concrete save/restore round trip used as a witness. -/

def w1_s1 : dwarf_cfa_stack := (push_state init_stack).2

def w1_s2 : dwarf_cfa_stack :=
  (run 256 [cfa_op.set 1 3 7] w1_s1).getD init_stack

def w1_s3 : dwarf_cfa_stack := (pop_state w1_s2).2

/- Basic facts about the list access helpers. -/

theorem length_lset {α : Type} (l : List α) (i : Nat) (a : α) :
    (lset l i a).length = l.length := by
  induction l generalizing i with
  | nil => rfl
  | cons x t ih =>
    cases i with
    | zero => rfl
    | succ n => simp [lset, ih]

theorem lget_lset_self {α : Type} (l : List α) (i : Nat) (a d : α)
    (h : i < l.length) : lget (lset l i a) i d = a := by
  induction l generalizing i with
  | nil => simp at h
  | cons x t ih =>
    cases i with
    | zero => rfl
    | succ n => exact ih n (by simpa using h)

theorem lget_lset_ne {α : Type} (l : List α) (i j : Nat) (a : α) (d : α)
    (h : i ≠ j) : lget (lset l i a) j d = lget l j d := by
  induction l generalizing i j with
  | nil => rfl
  | cons x t ih =>
    cases i with
    | zero =>
      cases j with
      | zero => exact absurd rfl h
      | succ m => rfl
    | succ n =>
      cases j with
      | zero => rfl
      | succ m => exact ih n m (fun hnm => h (by rw [hnm]))

theorem lget_oob {α : Type} (l : List α) (i : Nat) (d : α)
    (h : l.length ≤ i) : lget l i d = d := by
  induction l generalizing i with
  | nil => cases i <;> rfl
  | cons x t ih =>
    cases i with
    | zero => simp at h
    | succ n => exact ih n (by simpa using h)

theorem lget_mem {α : Type} (l : List α) (i : Nat) (d : α)
    (h : i < l.length) : lget l i d ∈ l := by
  induction l generalizing i with
  | nil => simp at h
  | cons x t ih =>
    cases i with
    | zero => exact List.mem_cons_self x t
    | succ n => exact List.mem_cons_of_mem x (ih n (by simpa using h))

/- Basic facts about chain walks. -/

theorem chain_list_invalid (s : dwarf_cfa_stack) (f : Nat) :
    chain_list s f DWARF_CFA_STACK_INVALID_ENTRY_IDX = some [] := by
  cases f <;> simp [chain_list]

theorem chain_list_cons {s : dwarf_cfa_stack} {f idx : Nat} {c : List Nat}
    (h : chain_list s (f + 1) idx = some c)
    (hne : idx ≠ DWARF_CFA_STACK_INVALID_ENTRY_IDX) :
    ∃ c0, c = idx :: c0 ∧ chain_list s f (getEntry s idx).next = some c0 := by
  simp only [chain_list, if_neg hne] at h
  cases hc : chain_list s f (getEntry s idx).next with
  | none => rw [hc] at h; simp at h
  | some c0 =>
    rw [hc] at h
    simp at h
    exact ⟨c0, h.symm, rfl⟩

theorem chain_list_mono {s : dwarf_cfa_stack} {f f' idx : Nat} {c : List Nat}
    (h : chain_list s f idx = some c) (hf : f ≤ f') :
    chain_list s f' idx = some c := by
  induction f generalizing f' idx c with
  | zero =>
    by_cases hidx : idx = DWARF_CFA_STACK_INVALID_ENTRY_IDX
    · subst hidx
      rw [chain_list_invalid] at h
      cases h
      exact chain_list_invalid s f'
    · simp [chain_list, hidx] at h
  | succ f ih =>
    by_cases hidx : idx = DWARF_CFA_STACK_INVALID_ENTRY_IDX
    · subst hidx
      rw [chain_list_invalid] at h
      cases h
      exact chain_list_invalid s f'
    · obtain ⟨c0, rfl, hc0⟩ := chain_list_cons h hidx
      cases f' with
      | zero => omega
      | succ f'' =>
        have := @ih f'' (getEntry s idx).next c0 hc0 (by omega)
        simp [chain_list, hidx, this]

theorem chain_list_frame {s t : dwarf_cfa_stack} {f idx : Nat} {c : List Nat}
    (h : chain_list s f idx = some c)
    (hm : ∀ i ∈ c, (getEntry t i).next = (getEntry s i).next) :
    chain_list t f idx = some c := by
  induction f generalizing idx c with
  | zero =>
    by_cases hidx : idx = DWARF_CFA_STACK_INVALID_ENTRY_IDX
    · subst hidx; rw [chain_list_invalid] at h ⊢; exact h
    · simp [chain_list, hidx] at h
  | succ f ih =>
    by_cases hidx : idx = DWARF_CFA_STACK_INVALID_ENTRY_IDX
    · subst hidx; rw [chain_list_invalid] at h ⊢; exact h
    · obtain ⟨c0, rfl, hc0⟩ := chain_list_cons h hidx
      have hnext : (getEntry t idx).next = (getEntry s idx).next :=
        hm idx (List.mem_cons_self _ _)
      have := ih hc0 (fun i hi => hm i (List.mem_cons_of_mem _ hi))
      simp [chain_list, hidx, hnext, this]

theorem chain_list_congr {s t : dwarf_cfa_stack}
    (h : ∀ i, (getEntry t i).next = (getEntry s i).next) (f idx : Nat) :
    chain_list t f idx = chain_list s f idx := by
  induction f generalizing idx with
  | zero => rfl
  | succ f ih =>
    by_cases hidx : idx = DWARF_CFA_STACK_INVALID_ENTRY_IDX
    · simp [chain_list, hidx]
    · simp [chain_list, hidx, h idx, ih]

/-- Pigeonhole bound: a duplicate-free list of naturals below n has at most
n elements. -/
theorem nodup_lt_length_le {l : List Nat} {n : Nat} (hn : l.Nodup)
    (hlt : ∀ x ∈ l, x < n) : l.length ≤ n := by
  have hsub : l ⊆ List.range n := fun x hx => List.mem_range.mpr (hlt x hx)
  have := (hn.subperm hsub).length_le
  simpa using this

theorem lset_oob {α : Type} (l : List α) (i : Nat) (a : α)
    (h : l.length ≤ i) : lset l i a = l := by
  induction l generalizing i with
  | nil => rfl
  | cons x t ih =>
    cases i with
    | zero => simp at h
    | succ n => simp [lset, ih n (by simpa using h)]

theorem lget_replicate {α : Type} (n i : Nat) (a d : α) :
    lget (List.replicate n a) i d = if i < n then a else d := by
  induction n generalizing i with
  | zero => cases i <;> rfl
  | succ m ih =>
    cases i with
    | zero => simp [List.replicate, lget]
    | succ k => simp [List.replicate, lget, ih k, Nat.succ_lt_succ_iff]

/- Cross-field commuting facts, all definitional. -/

theorem getEntry_setSlot (s : dwarf_cfa_stack) (l b v j : Nat) :
    getEntry (setSlot s l b v) j = getEntry s j := rfl

theorem getEntry_setCount (s : dwarf_cfa_stack) (l n j : Nat) :
    getEntry (setCount s l n) j = getEntry s j := rfl

theorem slot_setEntry (s : dwarf_cfa_stack) (i : Nat)
    (e : dwarf_cfa_reg_entry) (l b : Nat) :
    slot (setEntry s i e) l b = slot s l b := rfl

theorem slot_setCount (s : dwarf_cfa_stack) (l0 n l b : Nat) :
    slot (setCount s l0 n) l b = slot s l b := rfl

theorem countAt_setEntry (s : dwarf_cfa_stack) (i : Nat)
    (e : dwarf_cfa_reg_entry) (l : Nat) :
    countAt (setEntry s i e) l = countAt s l := rfl

theorem countAt_setSlot (s : dwarf_cfa_stack) (l0 b v l : Nat) :
    countAt (setSlot s l0 b v) l = countAt s l := rfl

/- Entry array access and update. -/

theorem setEntry_oob (s : dwarf_cfa_stack) (i : Nat) (e : dwarf_cfa_reg_entry)
    (h : s.entries.length ≤ i) : setEntry s i e = s := by
  simp [setEntry, lset_oob _ _ _ h]

theorem getEntry_setEntry_self (s : dwarf_cfa_stack) (i : Nat)
    (e : dwarf_cfa_reg_entry) (h : i < s.entries.length) :
    getEntry (setEntry s i e) i = e := by
  simp [getEntry, setEntry, lget_lset_self _ _ _ _ h]

theorem getEntry_setEntry_ne (s : dwarf_cfa_stack) (i j : Nat)
    (e : dwarf_cfa_reg_entry) (h : i ≠ j) :
    getEntry (setEntry s i e) j = getEntry s j := by
  simp [getEntry, setEntry, lget_lset_ne _ _ _ _ _ h]

theorem getEntry_setEntry_or (s : dwarf_cfa_stack) (i j : Nat)
    (e : dwarf_cfa_reg_entry) :
    getEntry (setEntry s i e) j = e ∨ getEntry (setEntry s i e) j = getEntry s j := by
  by_cases hij : i = j
  · subst hij
    by_cases hl : i < s.entries.length
    · exact Or.inl (getEntry_setEntry_self s i e hl)
    · rw [setEntry_oob s i e (by omega)]; exact Or.inr rfl
  · exact Or.inr (getEntry_setEntry_ne s i j e hij)

theorem slot_setSlot_self (s : dwarf_cfa_stack) (l b v : Nat)
    (hl : l < s.table_stack.length)
    (hb : b < (lget s.table_stack l []).length) :
    slot (setSlot s l b v) l b = v := by
  show lget (lget (lset s.table_stack l (lset (lget s.table_stack l []) b v)) l [])
    b DWARF_CFA_STACK_INVALID_ENTRY_IDX = v
  rw [lget_lset_self s.table_stack l (lset (lget s.table_stack l []) b v) [] hl]
  exact lget_lset_self (lget s.table_stack l []) b v _ hb

theorem slot_setSlot_ne (s : dwarf_cfa_stack) (l b v l' b' : Nat)
    (h : l ≠ l' ∨ b ≠ b') : slot (setSlot s l b v) l' b' = slot s l' b' := by
  by_cases hl : l = l'
  · subst hl
    have hb : b ≠ b' := h.resolve_left (fun hc => hc rfl)
    by_cases hlen : l < s.table_stack.length
    · simp [slot, setSlot, lget_lset_self _ _ _ _ hlen,
        lget_lset_ne _ _ _ _ _ hb]
    · simp [slot, setSlot, lset_oob s.table_stack l _ (by omega)]
  · simp [slot, setSlot, lget_lset_ne _ _ _ _ _ hl]

theorem slot_setSlot_or (s : dwarf_cfa_stack) (l b v l' b' : Nat) :
    slot (setSlot s l b v) l' b' = v ∨
    slot (setSlot s l b v) l' b' = slot s l' b' := by
  by_cases hl : l = l'
  · by_cases hb : b = b'
    · subst hl; subst hb
      by_cases hlen : l < s.table_stack.length
      · by_cases hblen : b < (lget s.table_stack l []).length
        · exact Or.inl (slot_setSlot_self s l b v hlen hblen)
        · right
          show lget (lget (lset s.table_stack l (lset (lget s.table_stack l []) b v)) l [])
            b DWARF_CFA_STACK_INVALID_ENTRY_IDX = slot s l b
          rw [lget_lset_self s.table_stack l (lset (lget s.table_stack l []) b v) [] hlen]
          rw [lget_oob (lset (lget s.table_stack l []) b v) b _
            (by rw [length_lset]; omega)]
          unfold slot
          rw [lget_oob (lget s.table_stack l []) b _ (by omega)]
      · right; simp [slot, setSlot, lset_oob s.table_stack l _ (by omega)]
    · exact Or.inr (slot_setSlot_ne s l b v l' b' (Or.inr hb))
  · exact Or.inr (slot_setSlot_ne s l b v l' b' (Or.inl hl))

/- Component facts about the removal step. -/

theorem remove_step_free (r : Nat) (s : dwarf_cfa_stack) (prev : Option Nat)
    (idx : Nat) : (remove_step r s prev idx).free_list = idx := by
  cases prev <;> rfl

theorem remove_step_depth (r : Nat) (s : dwarf_cfa_stack) (prev : Option Nat)
    (idx : Nat) : (remove_step r s prev idx).table_depth = s.table_depth := by
  cases prev <;> rfl

theorem getEntry_set_next_regnum (s : dwarf_cfa_stack) (i n j : Nat) :
    (getEntry (setEntry s i { getEntry s i with next := n }) j).regnum =
    (getEntry s j).regnum := by
  by_cases hij : i = j
  · subst hij
    rcases getEntry_setEntry_or s i i { getEntry s i with next := n } with h | h <;>
      rw [h]
  · rw [getEntry_setEntry_ne s i j _ hij]

theorem remove_step_regnum (r : Nat) (s : dwarf_cfa_stack) (prev : Option Nat)
    (idx j : Nat) :
    (getEntry (remove_step r s prev idx) j).regnum = (getEntry s j).regnum := by
  cases prev with
  | none =>
    show (getEntry (setEntry _ idx _) j).regnum = _
    rw [getEntry_set_next_regnum]
    rfl
  | some p =>
    show (getEntry (setEntry _ idx _) j).regnum = _
    rw [getEntry_set_next_regnum]
    exact getEntry_set_next_regnum s p _ j

/-- Divergence of the removal loop: once the loop stands at a regnum-r entry
while the free-list head also carries regnum r, every iteration matches,
re-inserts, and steps onto another regnum-r entry, so the loop never
reaches the sentinel (lines 194-214 have no break after a removal). -/
theorem remove_loop_stale_diverges (r : Nat) :
    ∀ (fuel : Nat) (s : dwarf_cfa_stack) (idx : Nat) (prev : Option Nat),
    idx ≠ DWARF_CFA_STACK_INVALID_ENTRY_IDX →
    (getEntry s idx).regnum = r →
    s.free_list ≠ DWARF_CFA_STACK_INVALID_ENTRY_IDX →
    (getEntry s s.free_list).regnum = r →
    remove_loop r fuel s idx prev = none := by
  intro fuel
  induction fuel with
  | zero => intro s idx prev _ _ _ _; rfl
  | succ f ih =>
    intro s idx prev hne hreg hfne hfreg
    simp only [remove_loop, if_neg hne, hreg, if_pos rfl]
    apply ih
    · exact hfne
    · rw [remove_step_regnum]; exact hfreg
    · rw [remove_step_free]; exact hne
    · rw [remove_step_free, remove_step_regnum]; exact hreg

/-- Claim C9: the spec asserts every operation terminates on every reachable
state, but remove_register(5) diverges on the state reached by the public
operations set(5), set(6), remove(5), remove(6), set(5): the removal of the
live regnum-5 entry re-inserts it at the free-list head and the loop, which
lacks a break, walks into the free list, re-matches the stale regnum-5
entry buried there, and alternates between the two forever. -/
theorem c9_remove_register_nontermination :
    run 256 (bug_pre_ops ++ [cfa_op.set 5 2 12]) init_stack =
      some bug_state_5 ∧
    ∀ fuel, remove_register 5 fuel bug_state_5 = none := by
  refine ⟨by decide, fun fuel => ?_⟩
  unfold remove_register
  apply remove_loop_stale_diverges <;> decide

/-- Claim C2: on the reachable state bug_pre_state, set_register(5, 2, 12)
succeeds, after which get_register_count is 1 and register 5 is found; but
the subsequent remove_register(5) never completes for any fuel, so it
neither makes register 5 not-found nor decrements the count by one. -/
theorem c2_removal_nontermination :
    Reachable bug_pre_state ∧
    set_register 5 2 12 256 bug_pre_state = some (true, bug_state_5) ∧
    get_register_count bug_state_5 = 1 ∧
    get_register_rule 5 256 bug_state_5 = some (some (2, 12)) ∧
    ∀ fuel, remove_register 5 fuel bug_state_5 = none := by
  refine ⟨⟨256, bug_pre_ops, by decide⟩, by decide, by decide, by decide,
    fun fuel => ?_⟩
  unfold remove_register
  apply remove_loop_stale_diverges <;> decide

/-- Induction principle over reachable states. -/
theorem reachable_ind {P : dwarf_cfa_stack → Prop} (hinit : P init_stack)
    (hstep : ∀ fuel op s t, P s → step fuel op s = some t → P t) :
    ∀ s, Reachable s → P s := by
  rintro s ⟨fuel, ops, hrun⟩
  have key : ∀ (ops : List cfa_op) (u : dwarf_cfa_stack), P u →
      run fuel ops u = some s → P s := by
    intro ops
    induction ops with
    | nil =>
      intro u hu h
      simp only [run] at h
      cases h
      exact hu
    | cons op rest ih =>
      intro u hu h
      simp only [run] at h
      cases hst : step fuel op u with
      | none => rw [hst] at h; cases h
      | some t =>
        rw [hst] at h
        exact ih t (hstep fuel op u t hu hst) h
  exact key ops init_stack hinit hrun

theorem idxOk_invalid : idxOk DWARF_CFA_STACK_INVALID_ENTRY_IDX := Or.inl rfl

theorem init_index_safe : IndexSafe init_stack := by
  refine ⟨Or.inr (by decide), ?_, ?_⟩
  · intro j
    by_cases h : j < DWARF_CFA_STACK_MAX_REGISTERS
    · have hall : ∀ j, j < DWARF_CFA_STACK_MAX_REGISTERS →
        idxOk (getEntry init_stack j).next := by decide
      exact hall j h
    · have hlen : init_stack.entries.length = DWARF_CFA_STACK_MAX_REGISTERS := by
        decide
      unfold getEntry
      rw [lget_oob _ _ _ (by omega)]
      exact idxOk_invalid
  · intro l b
    show idxOk (lget (lget init_stack.table_stack l []) b
      DWARF_CFA_STACK_INVALID_ENTRY_IDX)
    have : init_stack.table_stack =
        List.replicate DWARF_CFA_STACK_MAX_STATES
          (List.replicate DWARF_CFA_STACK_BUCKET_COUNT
            DWARF_CFA_STACK_INVALID_ENTRY_IDX) := rfl
    rw [this, lget_replicate]
    by_cases hl : l < DWARF_CFA_STACK_MAX_STATES
    · rw [if_pos hl, lget_replicate]
      by_cases hb : b < DWARF_CFA_STACK_BUCKET_COUNT
      · rw [if_pos hb]; exact idxOk_invalid
      · rw [if_neg hb]; exact idxOk_invalid
    · rw [if_neg hl]; exact idxOk_invalid

theorem index_safe_push (s : dwarf_cfa_stack) (h : IndexSafe s) :
    IndexSafe (push_state s).2 := by
  unfold push_state
  by_cases hd : s.table_depth + 1 = DWARF_CFA_STACK_MAX_STATES
  · rw [if_pos hd]; exact h
  · rw [if_neg hd]
    refine ⟨h.free_ok, h.next_ok, ?_⟩
    intro l b
    show idxOk (lget (lget (lset s.table_stack (s.table_depth + 1)
      (List.replicate DWARF_CFA_STACK_BUCKET_COUNT
        DWARF_CFA_STACK_INVALID_ENTRY_IDX)) l []) b
      DWARF_CFA_STACK_INVALID_ENTRY_IDX)
    by_cases hl : s.table_depth + 1 = l
    · subst hl
      by_cases hlen : s.table_depth + 1 < s.table_stack.length
      · rw [lget_lset_self _ _ _ _ hlen, lget_replicate]
        by_cases hb : b < DWARF_CFA_STACK_BUCKET_COUNT
        · rw [if_pos hb]; exact idxOk_invalid
        · rw [if_neg hb]; exact idxOk_invalid
      · rw [lset_oob _ _ _ (by omega)]
        exact h.slot_ok _ b
    · rw [lget_lset_ne _ _ _ _ _ hl]
      exact h.slot_ok l b

theorem index_safe_pop (s : dwarf_cfa_stack) (h : IndexSafe s) :
    IndexSafe (pop_state s).2 := by
  unfold pop_state
  by_cases hd : s.table_depth = 0
  · rw [if_pos hd]; exact h
  · rw [if_neg hd]; exact ⟨h.free_ok, h.next_ok, h.slot_ok⟩

theorem index_safe_set_update (ru : Nat) (v : Int) (m : Nat)
    (s : dwarf_cfa_stack) (h : IndexSafe s) : IndexSafe (set_update ru v m s) := by
  refine ⟨h.free_ok, ?_, h.slot_ok⟩
  intro j
  rcases getEntry_setEntry_or s m j { getEntry s m with rule := ru % 256, value := v }
    with he | he
  · unfold set_update
    rw [he]
    exact h.next_ok m
  · unfold set_update
    rw [he]
    exact h.next_ok j

theorem index_safe_set_alloc (regnum ru : Nat) (v : Int) (parent : Option Nat)
    (s : dwarf_cfa_stack) (h : IndexSafe s)
    (hf : s.free_list ≠ DWARF_CFA_STACK_INVALID_ENTRY_IDX) :
    IndexSafe (set_alloc regnum ru v parent s) := by
  have hflt : s.free_list < DWARF_CFA_STACK_MAX_REGISTERS :=
    (h.free_ok).resolve_left hf
  cases parent with
  | none =>
    refine ⟨?_, ?_, ?_⟩
    · show idxOk (getEntry s s.free_list).next
      exact h.next_ok s.free_list
    · intro j
      rcases getEntry_setEntry_or
        { s with free_list := (getEntry s s.free_list).next } s.free_list j
        ⟨regnum, ru % 256, v, DWARF_CFA_STACK_INVALID_ENTRY_IDX⟩ with he | he
      · show idxOk (getEntry (setEntry _ _ _) j).next
        rw [he]
        exact idxOk_invalid
      · show idxOk (getEntry (setEntry _ _ _) j).next
        rw [he]
        exact h.next_ok j
    · intro l b
      show idxOk (slot (setSlot (setEntry { s with free_list := (getEntry s s.free_list).next }
        s.free_list ⟨regnum, ru % 256, v, DWARF_CFA_STACK_INVALID_ENTRY_IDX⟩)
        s.table_depth (regnum % DWARF_CFA_STACK_BUCKET_COUNT) s.free_list) l b)
      rcases slot_setSlot_or (setEntry { s with free_list := (getEntry s s.free_list).next }
          s.free_list ⟨regnum, ru % 256, v, DWARF_CFA_STACK_INVALID_ENTRY_IDX⟩)
          s.table_depth (regnum % DWARF_CFA_STACK_BUCKET_COUNT) s.free_list l b
        with hs | hs
      · rw [hs]
        exact Or.inr hflt
      · rw [hs]
        exact h.slot_ok l b
  | some p =>
    refine ⟨?_, ?_, ?_⟩
    · exact h.next_ok s.free_list
    · intro j
      have base := h.next_ok
      rcases getEntry_setEntry_or
        { s with free_list := (getEntry s s.free_list).next } s.free_list j
        ⟨regnum, ru % 256, v, DWARF_CFA_STACK_INVALID_ENTRY_IDX⟩ with he | he
      all_goals
        rcases getEntry_setEntry_or
          (setEntry { s with free_list := (getEntry s s.free_list).next } s.free_list
            ⟨regnum, ru % 256, v, DWARF_CFA_STACK_INVALID_ENTRY_IDX⟩) p j
          { getEntry (setEntry { s with free_list := (getEntry s s.free_list).next }
              s.free_list ⟨regnum, ru % 256, v, DWARF_CFA_STACK_INVALID_ENTRY_IDX⟩) p
            with next := s.free_list } with hp | hp
      · show idxOk (getEntry (setEntry _ p _) j).next
        rw [hp]
        exact Or.inr hflt
      · show idxOk (getEntry (setEntry _ p _) j).next
        rw [hp, he]
        exact idxOk_invalid
      · show idxOk (getEntry (setEntry _ p _) j).next
        rw [hp]
        exact Or.inr hflt
      · show idxOk (getEntry (setEntry _ p _) j).next
        rw [hp, he]
        exact h.next_ok j
    · intro l b
      exact h.slot_ok l b

theorem remove_step_next_or (r : Nat) (s : dwarf_cfa_stack) (prev : Option Nat)
    (idx j : Nat) :
    (getEntry (remove_step r s prev idx) j).next = s.free_list ∨
    (getEntry (remove_step r s prev idx) j).next = (getEntry s idx).next ∨
    (getEntry (remove_step r s prev idx) j).next = (getEntry s j).next := by
  cases prev with
  | none =>
    show (getEntry (setEntry
      (setSlot s s.table_depth (r % DWARF_CFA_STACK_BUCKET_COUNT) (getEntry s idx).next)
      idx { getEntry s idx with next := s.free_list }) j).next = s.free_list ∨
      (getEntry (setEntry
        (setSlot s s.table_depth (r % DWARF_CFA_STACK_BUCKET_COUNT) (getEntry s idx).next)
        idx { getEntry s idx with next := s.free_list }) j).next = (getEntry s idx).next ∨
      (getEntry (setEntry
        (setSlot s s.table_depth (r % DWARF_CFA_STACK_BUCKET_COUNT) (getEntry s idx).next)
        idx { getEntry s idx with next := s.free_list }) j).next = (getEntry s j).next
    rcases getEntry_setEntry_or
      (setSlot s s.table_depth (r % DWARF_CFA_STACK_BUCKET_COUNT) (getEntry s idx).next)
      idx j { getEntry s idx with next := s.free_list } with he | he
    · rw [he]
      exact Or.inl rfl
    · rw [he]
      exact Or.inr (Or.inr rfl)
  | some p =>
    show (getEntry (setEntry
      (setEntry s p { getEntry s p with next := (getEntry s idx).next }) idx
      { getEntry (setEntry s p { getEntry s p with next := (getEntry s idx).next }) idx
        with next := s.free_list }) j).next = s.free_list ∨
      (getEntry (setEntry
        (setEntry s p { getEntry s p with next := (getEntry s idx).next }) idx
        { getEntry (setEntry s p { getEntry s p with next := (getEntry s idx).next }) idx
          with next := s.free_list }) j).next = (getEntry s idx).next ∨
      (getEntry (setEntry
        (setEntry s p { getEntry s p with next := (getEntry s idx).next }) idx
        { getEntry (setEntry s p { getEntry s p with next := (getEntry s idx).next }) idx
          with next := s.free_list }) j).next = (getEntry s j).next
    rcases getEntry_setEntry_or
      (setEntry s p { getEntry s p with next := (getEntry s idx).next }) idx j
      { getEntry (setEntry s p { getEntry s p with next := (getEntry s idx).next }) idx
        with next := s.free_list } with he | he
    · rw [he]
      exact Or.inl rfl
    · rw [he]
      rcases getEntry_setEntry_or s p j
        { getEntry s p with next := (getEntry s idx).next } with hp | hp
      · rw [hp]
        exact Or.inr (Or.inl rfl)
      · rw [hp]
        exact Or.inr (Or.inr rfl)

theorem remove_step_slot_or (r : Nat) (s : dwarf_cfa_stack) (prev : Option Nat)
    (idx l b : Nat) :
    slot (remove_step r s prev idx) l b = (getEntry s idx).next ∨
    slot (remove_step r s prev idx) l b = slot s l b := by
  cases prev with
  | none =>
    show slot (setSlot s s.table_depth (r % DWARF_CFA_STACK_BUCKET_COUNT)
      (getEntry s idx).next) l b = (getEntry s idx).next ∨
      slot (setSlot s s.table_depth (r % DWARF_CFA_STACK_BUCKET_COUNT)
        (getEntry s idx).next) l b = slot s l b
    exact slot_setSlot_or s s.table_depth (r % DWARF_CFA_STACK_BUCKET_COUNT)
      (getEntry s idx).next l b
  | some p =>
    right
    rfl

theorem index_safe_remove_step (r : Nat) (s : dwarf_cfa_stack)
    (prev : Option Nat) (idx : Nat) (h : IndexSafe s) (hidx : idxOk idx) :
    IndexSafe (remove_step r s prev idx) := by
  refine ⟨?_, ?_, ?_⟩
  · rw [remove_step_free]
    exact hidx
  · intro j
    rcases remove_step_next_or r s prev idx j with hn | hn | hn
    · rw [hn]; exact h.free_ok
    · rw [hn]; exact h.next_ok idx
    · rw [hn]; exact h.next_ok j
  · intro l b
    rcases remove_step_slot_or r s prev idx l b with hs | hs
    · rw [hs]; exact h.next_ok idx
    · rw [hs]; exact h.slot_ok l b

theorem index_safe_remove_loop (r : Nat) :
    ∀ (fuel : Nat) (s : dwarf_cfa_stack) (idx : Nat) (prev : Option Nat)
    (t : dwarf_cfa_stack), IndexSafe s → idxOk idx →
    remove_loop r fuel s idx prev = some t → IndexSafe t := by
  intro fuel
  induction fuel with
  | zero => intro s idx prev t _ _ h; cases h
  | succ f ih =>
    intro s idx prev t hs hidx h
    by_cases hinv : idx = DWARF_CFA_STACK_INVALID_ENTRY_IDX
    · rw [remove_loop, if_pos hinv] at h
      cases h
      exact hs
    · rw [remove_loop, if_neg hinv] at h
      by_cases hr : (getEntry s idx).regnum = r
      · simp only [hr, if_pos rfl] at h
        exact ih _ _ _ _ (index_safe_remove_step r s prev idx hs hidx)
          hs.free_ok h
      · simp only [hr, if_neg hr] at h
        exact ih _ _ _ _ hs (hs.next_ok idx) h

theorem index_safe_set_register (regnum ru : Nat) (v : Int) (fuel : Nat)
    (s : dwarf_cfa_stack) (ok : Bool) (t : dwarf_cfa_stack) (h : IndexSafe s)
    (hr : set_register regnum ru v fuel s = some (ok, t)) : IndexSafe t := by
  simp only [set_register] at hr
  cases hsf : set_find regnum fuel s
      (slot s s.table_depth (regnum % DWARF_CFA_STACK_BUCKET_COUNT)) none with
  | none => rw [hsf] at hr; cases hr
  | some res =>
    rw [hsf] at hr
    cases res with
    | inl m =>
      simp only [Option.some_inj, Prod.mk.injEq] at hr
      rw [← hr.2]
      exact index_safe_set_update ru v m s h
    | inr parent =>
      have hr2 : (if s.free_list = DWARF_CFA_STACK_INVALID_ENTRY_IDX then
          some (false, s) else some (true, set_alloc regnum ru v parent s)) =
          some (ok, t) := hr
      by_cases hf : s.free_list = DWARF_CFA_STACK_INVALID_ENTRY_IDX
      · rw [if_pos hf] at hr2
        simp only [Option.some_inj, Prod.mk.injEq] at hr2
        rw [← hr2.2]
        exact h
      · rw [if_neg hf] at hr2
        simp only [Option.some_inj, Prod.mk.injEq] at hr2
        rw [← hr2.2]
        exact index_safe_set_alloc regnum ru v parent s h hf

theorem index_safe_step (fuel : Nat) (op : cfa_op) (s t : dwarf_cfa_stack)
    (h : IndexSafe s) (hst : step fuel op s = some t) : IndexSafe t := by
  cases op with
  | push =>
    cases hst
    exact index_safe_push s h
  | pop =>
    cases hst
    exact index_safe_pop s h
  | set r ru v =>
    simp only [step, Option.map_eq_some'] at hst
    obtain ⟨⟨ok, t0⟩, hset, ht⟩ := hst
    cases ht
    exact index_safe_set_register r ru v fuel s ok t0 h hset
  | remove r =>
    exact index_safe_remove_loop r fuel s _ none t h
      (h.slot_ok s.table_depth (r % DWARF_CFA_STACK_BUCKET_COUNT)) hst

/-- Claim C10: in every reachable state, every bucket-head slot at any
level, every entry's next link, and the free-list head is either the
out-of-band sentinel or a valid index below the pool capacity, the sentinel
being numerically greater than every valid index, so every chain or
free-list traversal stays in bounds of the entry array. -/
theorem c10_index_sentinel_safety : ∀ s, Reachable s →
    DWARF_CFA_STACK_MAX_REGISTERS < DWARF_CFA_STACK_INVALID_ENTRY_IDX ∧
    idxOk s.free_list ∧ (∀ j, idxOk (getEntry s j).next) ∧
    ∀ l b, idxOk (slot s l b) := by
  intro s hs
  have h := reachable_ind init_index_safe
    (fun fuel op u t hp hst => index_safe_step fuel op u t hp hst) s hs
  exact ⟨by decide, h.free_ok, h.next_ok, h.slot_ok⟩

theorem c10_witness :
    DWARF_CFA_STACK_MAX_REGISTERS < DWARF_CFA_STACK_INVALID_ENTRY_IDX ∧
    idxOk init_stack.free_list ∧ (∀ j, idxOk (getEntry init_stack j).next) ∧
    ∀ l b, idxOk (slot init_stack l b) :=
  c10_index_sentinel_safety init_stack ⟨256, [], rfl⟩

/- Chain segments: fuel-free characterization of chain walks. -/

theorem chain_seg_append (t : dwarf_cfa_stack) (c1 c2 : List Nat) :
    ∀ idx nxt, chain_seg t idx nxt (c1 ++ c2) ↔
    ∃ mid, chain_seg t idx mid c1 ∧ chain_seg t mid nxt c2 := by
  induction c1 with
  | nil =>
    intro idx nxt
    constructor
    · intro h
      exact ⟨idx, rfl, h⟩
    · rintro ⟨mid, hm, h⟩
      cases hm
      exact h
  | cons x xs ih =>
    intro idx nxt
    constructor
    · rintro ⟨rfl, hne, hseg⟩
      obtain ⟨mid, h1, h2⟩ := (ih _ _).mp hseg
      exact ⟨mid, ⟨rfl, hne, h1⟩, h2⟩
    · rintro ⟨mid, ⟨rfl, hne, h1⟩, h2⟩
      exact ⟨rfl, hne, (ih _ _).mpr ⟨mid, h1, h2⟩⟩

theorem chain_seg_frame {s t : dwarf_cfa_stack} :
    ∀ {c : List Nat} {idx nxt : Nat},
    (∀ i ∈ c, (getEntry t i).next = (getEntry s i).next) →
    chain_seg s idx nxt c → chain_seg t idx nxt c := by
  intro c
  induction c with
  | nil => intro idx nxt _ h; exact h
  | cons x xs ih =>
    intro idx nxt hm h
    obtain ⟨h1, hne, hseg⟩ := h
    subst h1
    refine ⟨rfl, hne, ?_⟩
    rw [hm _ (List.mem_cons_self _ _)]
    exact ih (fun i hi => hm i (List.mem_cons_of_mem _ hi)) hseg

theorem chain_list_to_seg {s : dwarf_cfa_stack} {F idx : Nat} {c : List Nat}
    (h : chain_list s F idx = some c) :
    chain_seg s idx DWARF_CFA_STACK_INVALID_ENTRY_IDX c := by
  induction F generalizing idx c with
  | zero =>
    by_cases hidx : idx = DWARF_CFA_STACK_INVALID_ENTRY_IDX
    · subst hidx
      rw [chain_list_invalid] at h
      cases h
      rfl
    · simp [chain_list, hidx] at h
  | succ F ih =>
    by_cases hidx : idx = DWARF_CFA_STACK_INVALID_ENTRY_IDX
    · subst hidx
      rw [chain_list_invalid] at h
      cases h
      rfl
    · obtain ⟨c0, rfl, hc0⟩ := chain_list_cons h hidx
      exact ⟨rfl, hidx, ih hc0⟩

theorem chain_seg_to_list {s : dwarf_cfa_stack} :
    ∀ {c : List Nat} {idx F : Nat},
    chain_seg s idx DWARF_CFA_STACK_INVALID_ENTRY_IDX c → c.length ≤ F →
    chain_list s F idx = some c := by
  intro c
  induction c with
  | nil =>
    intro idx F h _
    cases h
    exact chain_list_invalid s F
  | cons x xs ih =>
    rintro idx F ⟨rfl, hne, hseg⟩ hlen
    cases F with
    | zero => simp at hlen
    | succ F =>
      have := ih hseg (by simpa using hlen)
      simp [chain_list, hne, this]

theorem chain_list_length_le {s : dwarf_cfa_stack} {F idx : Nat} {c : List Nat}
    (h : chain_list s F idx = some c) : c.length ≤ F := by
  induction F generalizing idx c with
  | zero =>
    by_cases hidx : idx = DWARF_CFA_STACK_INVALID_ENTRY_IDX
    · subst hidx; rw [chain_list_invalid] at h; cases h; simp
    · simp [chain_list, hidx] at h
  | succ F ih =>
    by_cases hidx : idx = DWARF_CFA_STACK_INVALID_ENTRY_IDX
    · subst hidx; rw [chain_list_invalid] at h; cases h; simp
    · obtain ⟨c0, rfl, hc0⟩ := chain_list_cons h hidx
      have := ih hc0
      simpa using Nat.succ_le_succ this

theorem isSome_chain_spec {s : dwarf_cfa_stack} {F idx : Nat}
    (h : (chain_list s F idx).isSome) :
    chain_list s F idx = some ((chain_list s F idx).getD []) := by
  cases hc : chain_list s F idx with
  | none => rw [hc] at h; cases h
  | some c => rfl

/- Shape preservation across every operation. -/

theorem shape_init : Shape init_stack := by
  refine ⟨by decide, by decide, ?_, by decide, by decide⟩
  intro l hl
  have hts : init_stack.table_stack =
      List.replicate DWARF_CFA_STACK_MAX_STATES
        (List.replicate DWARF_CFA_STACK_BUCKET_COUNT
          DWARF_CFA_STACK_INVALID_ENTRY_IDX) := rfl
  rw [hts, lget_replicate, if_pos hl, List.length_replicate]

theorem shape_push (s : dwarf_cfa_stack) (h : Shape s) :
    Shape (push_state s).2 := by
  unfold push_state
  by_cases hd : s.table_depth + 1 = DWARF_CFA_STACK_MAX_STATES
  · rw [if_pos hd]; exact h
  · rw [if_neg hd]
    refine ⟨h.entries_len, ?_, ?_, ?_, ?_⟩
    · show (lset s.table_stack (s.table_depth + 1) _).length = _
      rw [length_lset]; exact h.table_len
    · intro l hl
      show (lget (lset s.table_stack (s.table_depth + 1) _) l []).length = _
      by_cases he : s.table_depth + 1 = l
      · subst he
        rw [lget_lset_self _ _ _ _ (by rw [h.table_len]; omega),
          List.length_replicate]
      · rw [lget_lset_ne _ _ _ _ _ he]
        exact h.row_len l hl
    · show (lset s.register_count (s.table_depth + 1) 0).length = _
      rw [length_lset]; exact h.count_len
    · show s.table_depth + 1 < DWARF_CFA_STACK_MAX_STATES
      have := h.depth_lt
      omega

theorem shape_pop (s : dwarf_cfa_stack) (h : Shape s) :
    Shape (pop_state s).2 := by
  unfold pop_state
  by_cases hd : s.table_depth = 0
  · rw [if_pos hd]; exact h
  · rw [if_neg hd]
    refine ⟨h.entries_len, h.table_len, h.row_len, h.count_len, ?_⟩
    show s.table_depth - 1 < DWARF_CFA_STACK_MAX_STATES
    have := h.depth_lt
    omega

theorem shape_setEntry (s : dwarf_cfa_stack) (i : Nat)
    (e : dwarf_cfa_reg_entry) (h : Shape s) : Shape (setEntry s i e) := by
  refine ⟨?_, h.table_len, h.row_len, h.count_len, h.depth_lt⟩
  show (lset s.entries i e).length = _
  rw [length_lset]; exact h.entries_len

theorem shape_setSlot (s : dwarf_cfa_stack) (l b v : Nat) (h : Shape s) :
    Shape (setSlot s l b v) := by
  refine ⟨h.entries_len, ?_, ?_, h.count_len, h.depth_lt⟩
  · show (lset s.table_stack l _).length = _
    rw [length_lset]; exact h.table_len
  · intro l0 hl0
    show (lget (lset s.table_stack l _) l0 []).length = _
    by_cases he : l = l0
    · subst he
      by_cases hlen : l < s.table_stack.length
      · rw [lget_lset_self _ _ _ _ hlen, length_lset]
        exact h.row_len l hl0
      · rw [lset_oob _ _ _ (by omega)]
        exact h.row_len l hl0
    · rw [lget_lset_ne _ _ _ _ _ he]
      exact h.row_len l0 hl0

theorem shape_setCount (s : dwarf_cfa_stack) (l n : Nat) (h : Shape s) :
    Shape (setCount s l n) := by
  refine ⟨h.entries_len, h.table_len, h.row_len, ?_, h.depth_lt⟩
  show (lset s.register_count l n).length = _
  rw [length_lset]; exact h.count_len

theorem shape_free_update (s : dwarf_cfa_stack) (n : Nat) (h : Shape s) :
    Shape { s with free_list := n } :=
  ⟨h.entries_len, h.table_len, h.row_len, h.count_len, h.depth_lt⟩

theorem shape_set_update (ru : Nat) (v : Int) (m : Nat) (s : dwarf_cfa_stack)
    (h : Shape s) : Shape (set_update ru v m s) :=
  shape_setEntry s m _ h

theorem shape_set_alloc (regnum ru : Nat) (v : Int) (parent : Option Nat)
    (s : dwarf_cfa_stack) (h : Shape s) :
    Shape (set_alloc regnum ru v parent s) := by
  cases parent with
  | none =>
    exact shape_setCount _ _ _ (shape_setSlot _ _ _ _
      (shape_setEntry _ _ _ (shape_free_update s _ h)))
  | some p =>
    exact shape_setCount _ _ _ (shape_setEntry _ _ _
      (shape_setEntry _ _ _ (shape_free_update s _ h)))

theorem shape_remove_step (r : Nat) (s : dwarf_cfa_stack) (prev : Option Nat)
    (idx : Nat) (h : Shape s) : Shape (remove_step r s prev idx) := by
  cases prev with
  | none =>
    exact shape_setCount _ _ _ (shape_free_update _ _
      (shape_setEntry _ _ _ (shape_setSlot _ _ _ _ h)))
  | some p =>
    exact shape_setCount _ _ _ (shape_free_update _ _
      (shape_setEntry _ _ _ (shape_setEntry _ _ _ h)))

theorem shape_remove_loop (r : Nat) :
    ∀ (fuel : Nat) (s : dwarf_cfa_stack) (idx : Nat) (prev : Option Nat)
    (t : dwarf_cfa_stack), Shape s →
    remove_loop r fuel s idx prev = some t → Shape t := by
  intro fuel
  induction fuel with
  | zero => intro s idx prev t _ h; cases h
  | succ f ih =>
    intro s idx prev t hs h
    by_cases hinv : idx = DWARF_CFA_STACK_INVALID_ENTRY_IDX
    · rw [remove_loop, if_pos hinv] at h
      cases h
      exact hs
    · rw [remove_loop, if_neg hinv] at h
      by_cases hr : (getEntry s idx).regnum = r
      · simp only [hr, if_pos rfl] at h
        exact ih _ _ _ _ (shape_remove_step r s prev idx hs) h
      · simp only [hr, if_neg hr] at h
        exact ih _ _ _ _ hs h

theorem shape_set_register (regnum ru : Nat) (v : Int) (fuel : Nat)
    (s : dwarf_cfa_stack) (ok : Bool) (t : dwarf_cfa_stack) (h : Shape s)
    (hr : set_register regnum ru v fuel s = some (ok, t)) : Shape t := by
  simp only [set_register] at hr
  cases hsf : set_find regnum fuel s
      (slot s s.table_depth (regnum % DWARF_CFA_STACK_BUCKET_COUNT)) none with
  | none => rw [hsf] at hr; cases hr
  | some res =>
    rw [hsf] at hr
    cases res with
    | inl m =>
      simp only [Option.some_inj, Prod.mk.injEq] at hr
      rw [← hr.2]
      exact shape_set_update ru v m s h
    | inr parent =>
      have hr2 : (if s.free_list = DWARF_CFA_STACK_INVALID_ENTRY_IDX then
          some (false, s) else some (true, set_alloc regnum ru v parent s)) =
          some (ok, t) := hr
      by_cases hf : s.free_list = DWARF_CFA_STACK_INVALID_ENTRY_IDX
      · rw [if_pos hf] at hr2
        simp only [Option.some_inj, Prod.mk.injEq] at hr2
        rw [← hr2.2]
        exact h
      · rw [if_neg hf] at hr2
        simp only [Option.some_inj, Prod.mk.injEq] at hr2
        rw [← hr2.2]
        exact shape_set_alloc regnum ru v parent s h

theorem shape_step (fuel : Nat) (op : cfa_op) (s t : dwarf_cfa_stack)
    (h : Shape s) (hst : step fuel op s = some t) : Shape t := by
  cases op with
  | push => cases hst; exact shape_push s h
  | pop => cases hst; exact shape_pop s h
  | set r ru v =>
    simp only [step, Option.map_eq_some'] at hst
    obtain ⟨⟨ok, t0⟩, hset, ht⟩ := hst
    cases ht
    exact shape_set_register r ru v fuel s ok t0 h hset
  | remove r => exact shape_remove_loop r fuel s _ none t h hst

theorem reachable_shape (s : dwarf_cfa_stack) (h : Reachable s) : Shape s :=
  reachable_ind shape_init
    (fun fuel op u t hp hst => shape_step fuel op u t hp hst) s h

/-- Claim C7: push_state returns false exactly at the maximum depth and
otherwise increments the depth, zeroes the new level's register count and
clears its bucket heads to the sentinel; pop_state returns false exactly at
depth zero and otherwise decrements; failing calls leave the state
untouched; the depth is below the maximum in every reachable state. -/
theorem c7_depth_state_machine : ∀ s, Reachable s →
    s.table_depth < DWARF_CFA_STACK_MAX_STATES ∧
    ((push_state s).1 = false ↔
      s.table_depth = DWARF_CFA_STACK_MAX_STATES - 1) ∧
    ((push_state s).1 = false → (push_state s).2 = s) ∧
    ((push_state s).1 = true →
      (push_state s).2.table_depth = s.table_depth + 1 ∧
      countAt (push_state s).2 (s.table_depth + 1) = 0 ∧
      ∀ b, b < DWARF_CFA_STACK_BUCKET_COUNT →
        slot (push_state s).2 (s.table_depth + 1) b =
          DWARF_CFA_STACK_INVALID_ENTRY_IDX) ∧
    ((pop_state s).1 = false ↔ s.table_depth = 0) ∧
    ((pop_state s).1 = false → (pop_state s).2 = s) ∧
    ((pop_state s).1 = true →
      (pop_state s).2.table_depth = s.table_depth - 1) := by
  intro s hs
  have hsh := reachable_shape s hs
  have hdlt := hsh.depth_lt
  refine ⟨hdlt, ?_, ?_, ?_, ?_, ?_, ?_⟩
  · unfold push_state
    by_cases hd : s.table_depth + 1 = DWARF_CFA_STACK_MAX_STATES
    · rw [if_pos hd]
      exact iff_of_true rfl (by omega)
    · rw [if_neg hd]
      exact iff_of_false (fun h => Bool.noConfusion h) (by omega)
  · unfold push_state
    by_cases hd : s.table_depth + 1 = DWARF_CFA_STACK_MAX_STATES
    · rw [if_pos hd]; intro _; rfl
    · rw [if_neg hd]; intro h; cases h
  · unfold push_state
    by_cases hd : s.table_depth + 1 = DWARF_CFA_STACK_MAX_STATES
    · rw [if_pos hd]; intro h; cases h
    · rw [if_neg hd]
      intro _
      refine ⟨rfl, ?_, ?_⟩
      · show lget (lset s.register_count (s.table_depth + 1) 0)
          (s.table_depth + 1) 0 = 0
        rw [lget_lset_self _ _ _ _ (by rw [hsh.count_len]; omega)]
      · intro b hb
        show lget (lget (lset s.table_stack (s.table_depth + 1)
          (List.replicate DWARF_CFA_STACK_BUCKET_COUNT
            DWARF_CFA_STACK_INVALID_ENTRY_IDX)) (s.table_depth + 1) []) b
          DWARF_CFA_STACK_INVALID_ENTRY_IDX = DWARF_CFA_STACK_INVALID_ENTRY_IDX
        rw [lget_lset_self _ _ _ _ (by rw [hsh.table_len]; omega),
          lget_replicate, if_pos hb]
  · unfold pop_state
    by_cases hd : s.table_depth = 0
    · rw [if_pos hd]
      exact iff_of_true rfl hd
    · rw [if_neg hd]
      exact iff_of_false (fun h => Bool.noConfusion h) hd
  · unfold pop_state
    by_cases hd : s.table_depth = 0
    · rw [if_pos hd]; intro _; rfl
    · rw [if_neg hd]; intro h; cases h
  · unfold pop_state
    by_cases hd : s.table_depth = 0
    · rw [if_pos hd]; intro h; cases h
    · rw [if_neg hd]; intro _; rfl

theorem c7_witness :
    init_stack.table_depth < DWARF_CFA_STACK_MAX_STATES ∧
    ((push_state init_stack).1 = false ↔
      init_stack.table_depth = DWARF_CFA_STACK_MAX_STATES - 1) ∧
    ((push_state init_stack).1 = false → (push_state init_stack).2 = init_stack) ∧
    ((push_state init_stack).1 = true →
      (push_state init_stack).2.table_depth = init_stack.table_depth + 1 ∧
      countAt (push_state init_stack).2 (init_stack.table_depth + 1) = 0 ∧
      ∀ b, b < DWARF_CFA_STACK_BUCKET_COUNT →
        slot (push_state init_stack).2 (init_stack.table_depth + 1) b =
          DWARF_CFA_STACK_INVALID_ENTRY_IDX) ∧
    ((pop_state init_stack).1 = false ↔ init_stack.table_depth = 0) ∧
    ((pop_state init_stack).1 = false →
      (pop_state init_stack).2 = init_stack) ∧
    ((pop_state init_stack).1 = true →
      (pop_state init_stack).2.table_depth = init_stack.table_depth - 1) :=
  c7_depth_state_machine init_stack ⟨256, [], rfl⟩

/- Characterization of the set_register chain walk. -/

theorem set_find_spec (r : Nat) :
    ∀ (fuel : Nat) (s : dwarf_cfa_stack) (idx : Nat) (par : Option Nat)
    (cs : List Nat) (res : Nat ⊕ Option Nat),
    chain_seg s idx DWARF_CFA_STACK_INVALID_ENTRY_IDX cs →
    set_find r fuel s idx par = some res →
    (∃ m pre post, res = Sum.inl m ∧ cs = pre ++ m :: post ∧
      (∀ i ∈ pre, (getEntry s i).regnum ≠ r) ∧ (getEntry s m).regnum = r) ∨
    (∃ q, res = Sum.inr q ∧ (∀ i ∈ cs, (getEntry s i).regnum ≠ r) ∧
      ((cs = [] ∧ q = par) ∨ (cs ≠ [] ∧ cs.getLast? = q))) := by
  intro fuel
  induction fuel with
  | zero => intro s idx par cs res _ h; cases h
  | succ f ih =>
    intro s idx par cs res hseg h
    by_cases hinv : idx = DWARF_CFA_STACK_INVALID_ENTRY_IDX
    · subst hinv
      rw [set_find, if_pos rfl] at h
      cases h
      cases cs with
      | nil =>
        exact Or.inr ⟨par, rfl, (fun i hi => absurd hi (List.not_mem_nil i)),
          Or.inl ⟨rfl, rfl⟩⟩
      | cons x xs =>
        obtain ⟨h1, hne, _⟩ := hseg
        exact absurd h1.symm hne
    · cases cs with
      | nil =>
        cases hseg
        exact absurd rfl hinv
      | cons x xs =>
        obtain ⟨h1, _, hseg'⟩ := hseg
        subst h1
        rw [set_find, if_neg hinv] at h
        by_cases hr : (getEntry s idx).regnum = r
        · simp only [hr, if_pos rfl] at h
          cases h
          exact Or.inl ⟨idx, [], xs, rfl, rfl,
            (fun i hi => absurd hi (List.not_mem_nil i)), hr⟩
        · simp only [if_neg hr] at h
          by_cases hnx : (getEntry s idx).next = DWARF_CFA_STACK_INVALID_ENTRY_IDX
          · rw [if_pos hnx] at h
            cases h
            cases xs with
            | nil =>
              refine Or.inr ⟨some idx, rfl, ?_, Or.inr ⟨(by simp), rfl⟩⟩
              intro i hi
              rcases List.mem_singleton.mp hi with rfl
              exact hr
            | cons y ys =>
              rw [hnx] at hseg'
              obtain ⟨h2, hne2, _⟩ := hseg'
              exact absurd h2.symm hne2
          · rw [if_neg hnx] at h
            rcases ih s (getEntry s idx).next (some idx) xs res hseg' h with
              ⟨m, pre, post, hres, hcs, hpre, hm⟩ | ⟨q, hres, hno, hq⟩
            · refine Or.inl ⟨m, idx :: pre, post, hres, (by rw [hcs]; rfl), ?_, hm⟩
              intro i hi
              rcases List.mem_cons.mp hi with rfl | hi2
              · exact hr
              · exact hpre i hi2
            · refine Or.inr ⟨q, hres, ?_, ?_⟩
              · intro i hi
                rcases List.mem_cons.mp hi with rfl | hi2
                · exact hr
                · exact hno i hi2
              · rcases hq with ⟨rfl, _⟩ | ⟨hne0, hlast⟩
                · exact absurd hseg' hnx
                · cases xs with
                  | nil => exact absurd rfl hne0
                  | cons y ys =>
                    refine Or.inr ⟨(by simp), ?_⟩
                    rw [List.getLast?_cons_cons]
                    exact hlast

theorem set_find_total (r : Nat) :
    ∀ (cs : List Nat) (fuel idx : Nat) (par : Option Nat)
    (s : dwarf_cfa_stack),
    chain_seg s idx DWARF_CFA_STACK_INVALID_ENTRY_IDX cs → cs.length < fuel →
    (set_find r fuel s idx par).isSome := by
  intro cs
  induction cs with
  | nil =>
    intro fuel idx par s hseg hlen
    cases hseg
    cases fuel with
    | zero => simp at hlen
    | succ f => rw [set_find, if_pos rfl]; rfl
  | cons x xs ih =>
    intro fuel idx par s hseg hlen
    obtain ⟨h1, hne, hseg'⟩ := hseg
    subst h1
    cases fuel with
    | zero => simp at hlen
    | succ f =>
      rw [set_find, if_neg hne]
      by_cases hr : (getEntry s idx).regnum = r
      · simp only [hr, if_pos rfl]; rfl
      · simp only [if_neg hr]
        by_cases hnx : (getEntry s idx).next = DWARF_CFA_STACK_INVALID_ENTRY_IDX
        · rw [if_pos hnx]; rfl
        · rw [if_neg hnx]
          exact ih f (getEntry s idx).next (some idx) s hseg'
            (by simpa using hlen)

/- Characterization of the lookup walk. -/

theorem get_find_eq (r : Nat) :
    ∀ (cs : List Nat) (fuel idx : Nat) (s : dwarf_cfa_stack),
    chain_seg s idx DWARF_CFA_STACK_INVALID_ENTRY_IDX cs → cs.length < fuel →
    get_find r fuel s idx = some (lookupChain s r cs) := by
  intro cs
  induction cs with
  | nil =>
    intro fuel idx s hseg hlen
    cases hseg
    cases fuel with
    | zero => simp at hlen
    | succ f => rw [get_find, if_pos rfl]; rfl
  | cons x xs ih =>
    intro fuel idx s hseg hlen
    obtain ⟨h1, hne, hseg'⟩ := hseg
    subst h1
    cases fuel with
    | zero => simp at hlen
    | succ f =>
      by_cases hr : (getEntry s idx).regnum = r
      · simp [get_find, hne, hr, lookupChain]
      · by_cases hnx : (getEntry s idx).next = DWARF_CFA_STACK_INVALID_ENTRY_IDX
        · cases xs with
          | nil => simp [get_find, hne, hr, hnx, lookupChain]
          | cons y ys =>
            rw [hnx] at hseg'
            obtain ⟨h2, hne2, _⟩ := hseg'
            exact absurd h2.symm hne2
        · have hrec := ih f (getEntry s idx).next s hseg' (by simpa using hlen)
          simp [get_find, hne, hr, hnx, lookupChain, hrec]

theorem lookupChain_congr {s t : dwarf_cfa_stack} (r : Nat) :
    ∀ (c : List Nat), (∀ i ∈ c, getEntry t i = getEntry s i) →
    lookupChain t r c = lookupChain s r c := by
  intro c
  induction c with
  | nil => intro _; rfl
  | cons x xs ih =>
    intro hm
    have hx := hm x (List.mem_cons_self _ _)
    simp only [lookupChain, hx]
    by_cases hr : (getEntry s x).regnum = r
    · rw [if_pos hr, if_pos hr]
    · rw [if_neg hr, if_neg hr]
      exact ih (fun i hi => hm i (List.mem_cons_of_mem _ hi))

/- Component facts about set_update. -/

theorem set_update_next (ru : Nat) (v : Int) (m : Nat) (s : dwarf_cfa_stack)
    (j : Nat) :
    (getEntry (set_update ru v m s) j).next = (getEntry s j).next := by
  unfold set_update
  by_cases hmj : m = j
  · subst hmj
    rcases getEntry_setEntry_or s m m
      { getEntry s m with rule := ru % 256, value := v } with h | h <;> rw [h]
  · rw [getEntry_setEntry_ne s m j _ hmj]

theorem set_update_regnum (ru : Nat) (v : Int) (m : Nat) (s : dwarf_cfa_stack)
    (j : Nat) :
    (getEntry (set_update ru v m s) j).regnum = (getEntry s j).regnum := by
  unfold set_update
  by_cases hmj : m = j
  · subst hmj
    rcases getEntry_setEntry_or s m m
      { getEntry s m with rule := ru % 256, value := v } with h | h <;> rw [h]
  · rw [getEntry_setEntry_ne s m j _ hmj]

theorem set_update_getEntry_ne (ru : Nat) (v : Int) (m : Nat)
    (s : dwarf_cfa_stack) (j : Nat) (h : m ≠ j) :
    getEntry (set_update ru v m s) j = getEntry s j :=
  getEntry_setEntry_ne s m j _ h

theorem set_update_getEntry_self (ru : Nat) (v : Int) (m : Nat)
    (s : dwarf_cfa_stack) (h : m < s.entries.length) :
    getEntry (set_update ru v m s) m =
    { getEntry s m with rule := ru % 256, value := v } :=
  getEntry_setEntry_self s m _ h

theorem set_update_free (ru : Nat) (v : Int) (m : Nat) (s : dwarf_cfa_stack) :
    (set_update ru v m s).free_list = s.free_list := rfl

theorem set_update_slot (ru : Nat) (v : Int) (m : Nat) (s : dwarf_cfa_stack)
    (l b : Nat) : slot (set_update ru v m s) l b = slot s l b := rfl

theorem set_update_count (ru : Nat) (v : Int) (m : Nat) (s : dwarf_cfa_stack)
    (l : Nat) : countAt (set_update ru v m s) l = countAt s l := rfl

theorem set_update_depth (ru : Nat) (v : Int) (m : Nat) (s : dwarf_cfa_stack) :
    (set_update ru v m s).table_depth = s.table_depth := rfl

/- Component facts about set_alloc. -/

theorem set_alloc_free (regnum ru : Nat) (v : Int) (parent : Option Nat)
    (s : dwarf_cfa_stack) :
    (set_alloc regnum ru v parent s).free_list =
    (getEntry s s.free_list).next := by
  cases parent <;> rfl

theorem set_alloc_depth (regnum ru : Nat) (v : Int) (parent : Option Nat)
    (s : dwarf_cfa_stack) :
    (set_alloc regnum ru v parent s).table_depth = s.table_depth := by
  cases parent <;> rfl

theorem set_alloc_getEntry_f0 (regnum ru : Nat) (v : Int)
    (parent : Option Nat) (s : dwarf_cfa_stack)
    (hlen : s.free_list < s.entries.length)
    (hp : ∀ p, parent = some p → p ≠ s.free_list) :
    getEntry (set_alloc regnum ru v parent s) s.free_list =
    ⟨regnum, ru % 256, v, DWARF_CFA_STACK_INVALID_ENTRY_IDX⟩ := by
  cases parent with
  | none =>
    show getEntry (setEntry { s with free_list := (getEntry s s.free_list).next }
      s.free_list ⟨regnum, ru % 256, v, DWARF_CFA_STACK_INVALID_ENTRY_IDX⟩)
      s.free_list = _
    exact getEntry_setEntry_self _ _ _ hlen
  | some p =>
    have hpne : p ≠ s.free_list := hp p rfl
    show getEntry (setEntry (setEntry { s with free_list := (getEntry s s.free_list).next }
      s.free_list ⟨regnum, ru % 256, v, DWARF_CFA_STACK_INVALID_ENTRY_IDX⟩) p _)
      s.free_list = _
    rw [getEntry_setEntry_ne _ p s.free_list _ hpne]
    exact getEntry_setEntry_self _ _ _ hlen

theorem set_alloc_getEntry_p (regnum ru : Nat) (v : Int) (p : Nat)
    (s : dwarf_cfa_stack) (hlen : p < s.entries.length)
    (hpne : p ≠ s.free_list) :
    getEntry (set_alloc regnum ru v (some p) s) p =
    { getEntry s p with next := s.free_list } := by
  show getEntry (setEntry (setEntry { s with free_list := (getEntry s s.free_list).next }
    s.free_list ⟨regnum, ru % 256, v, DWARF_CFA_STACK_INVALID_ENTRY_IDX⟩) p
    { getEntry (setEntry { s with free_list := (getEntry s s.free_list).next }
        s.free_list ⟨regnum, ru % 256, v, DWARF_CFA_STACK_INVALID_ENTRY_IDX⟩) p
      with next := s.free_list }) p = _
  rw [getEntry_setEntry_self _ p _ (by rw [show (setEntry { s with free_list := (getEntry s s.free_list).next }
    s.free_list ⟨regnum, ru % 256, v, DWARF_CFA_STACK_INVALID_ENTRY_IDX⟩).entries.length
      = (lset s.entries s.free_list ⟨regnum, ru % 256, v, DWARF_CFA_STACK_INVALID_ENTRY_IDX⟩).length from rfl, length_lset]; exact hlen)]
  simp only [getEntry_setEntry_ne _ s.free_list p _ (fun h => hpne h.symm)]
  rfl

theorem set_alloc_getEntry_other (regnum ru : Nat) (v : Int)
    (parent : Option Nat) (s : dwarf_cfa_stack) (j : Nat)
    (hj : j ≠ s.free_list) (hp : ∀ p, parent = some p → j ≠ p) :
    getEntry (set_alloc regnum ru v parent s) j = getEntry s j := by
  cases parent with
  | none =>
    show getEntry (setEntry { s with free_list := (getEntry s s.free_list).next }
      s.free_list ⟨regnum, ru % 256, v, DWARF_CFA_STACK_INVALID_ENTRY_IDX⟩) j = _
    rw [getEntry_setEntry_ne _ _ _ _ (fun h => hj h.symm)]
    rfl
  | some p =>
    have hjp : j ≠ p := hp p rfl
    show getEntry (setEntry (setEntry { s with free_list := (getEntry s s.free_list).next }
      s.free_list ⟨regnum, ru % 256, v, DWARF_CFA_STACK_INVALID_ENTRY_IDX⟩) p _) j = _
    rw [getEntry_setEntry_ne _ p j _ (fun h => hjp h.symm)]
    rw [getEntry_setEntry_ne _ _ _ _ (fun h => hj h.symm)]
    rfl

theorem set_alloc_slot_none (regnum ru : Nat) (v : Int) (s : dwarf_cfa_stack)
    (hsh : Shape s) :
    slot (set_alloc regnum ru v none s) s.table_depth
      (regnum % DWARF_CFA_STACK_BUCKET_COUNT) = s.free_list := by
  show slot (setSlot (setEntry { s with free_list := (getEntry s s.free_list).next }
    s.free_list ⟨regnum, ru % 256, v, DWARF_CFA_STACK_INVALID_ENTRY_IDX⟩)
    s.table_depth (regnum % DWARF_CFA_STACK_BUCKET_COUNT) s.free_list)
    s.table_depth (regnum % DWARF_CFA_STACK_BUCKET_COUNT) = s.free_list
  refine slot_setSlot_self _ _ _ _ ?_ ?_
  · show s.table_depth < s.table_stack.length
    rw [hsh.table_len]
    exact hsh.depth_lt
  · show regnum % DWARF_CFA_STACK_BUCKET_COUNT < (lget s.table_stack s.table_depth []).length
    rw [hsh.row_len s.table_depth hsh.depth_lt]
    exact Nat.mod_lt _ (by decide)

theorem set_alloc_slot_ne_none (regnum ru : Nat) (v : Int)
    (s : dwarf_cfa_stack) (l b : Nat)
    (h : s.table_depth ≠ l ∨ regnum % DWARF_CFA_STACK_BUCKET_COUNT ≠ b) :
    slot (set_alloc regnum ru v none s) l b = slot s l b := by
  show slot (setSlot (setEntry { s with free_list := (getEntry s s.free_list).next }
    s.free_list ⟨regnum, ru % 256, v, DWARF_CFA_STACK_INVALID_ENTRY_IDX⟩)
    s.table_depth (regnum % DWARF_CFA_STACK_BUCKET_COUNT) s.free_list) l b = _
  rw [slot_setSlot_ne _ _ _ _ _ _ h]
  rfl

theorem set_alloc_slot_some (regnum ru : Nat) (v : Int) (p : Nat)
    (s : dwarf_cfa_stack) (l b : Nat) :
    slot (set_alloc regnum ru v (some p) s) l b = slot s l b := rfl

theorem set_alloc_count_depth (regnum ru : Nat) (v : Int)
    (parent : Option Nat) (s : dwarf_cfa_stack) (hsh : Shape s) :
    countAt (set_alloc regnum ru v parent s) s.table_depth =
    (countAt s s.table_depth + 1) % 256 := by
  have hb : s.table_depth < s.register_count.length := by
    rw [hsh.count_len]; exact hsh.depth_lt
  cases parent with
  | none =>
    show lget (lset s.register_count s.table_depth
      ((countAt s s.table_depth + 1) % 256)) s.table_depth 0 =
      (countAt s s.table_depth + 1) % 256
    rw [lget_lset_self _ _ _ _ hb]
  | some p =>
    show lget (lset s.register_count s.table_depth
      ((countAt s s.table_depth + 1) % 256)) s.table_depth 0 =
      (countAt s s.table_depth + 1) % 256
    rw [lget_lset_self _ _ _ _ hb]

theorem set_alloc_count_ne (regnum ru : Nat) (v : Int) (parent : Option Nat)
    (s : dwarf_cfa_stack) (l : Nat) (h : s.table_depth ≠ l) :
    countAt (set_alloc regnum ru v parent s) l = countAt s l := by
  cases parent with
  | none =>
    show lget (lset s.register_count s.table_depth
      ((countAt s s.table_depth + 1) % 256)) l 0 = countAt s l
    rw [lget_lset_ne _ _ _ _ _ h]
    rfl
  | some p =>
    show lget (lset s.register_count s.table_depth
      ((countAt s s.table_depth + 1) % 256)) l 0 = countAt s l
    rw [lget_lset_ne _ _ _ _ _ h]
    rfl

/- Precise component facts about remove_step. -/

theorem remove_step_next_self (r : Nat) (s : dwarf_cfa_stack)
    (prev : Option Nat) (idx : Nat) (hlen : idx < s.entries.length) :
    (getEntry (remove_step r s prev idx) idx).next = s.free_list := by
  cases prev with
  | none =>
    show (getEntry (setEntry
      (setSlot s s.table_depth (r % DWARF_CFA_STACK_BUCKET_COUNT) (getEntry s idx).next)
      idx { getEntry (setSlot s s.table_depth (r % DWARF_CFA_STACK_BUCKET_COUNT)
        (getEntry s idx).next) idx with next := s.free_list }) idx).next = _
    rw [getEntry_setEntry_self
      (setSlot s s.table_depth (r % DWARF_CFA_STACK_BUCKET_COUNT) (getEntry s idx).next)
      idx _ hlen]
  | some p =>
    show (getEntry (setEntry
      (setEntry s p { getEntry s p with next := (getEntry s idx).next }) idx
      { getEntry (setEntry s p { getEntry s p with next := (getEntry s idx).next }) idx
        with next := s.free_list }) idx).next = _
    rw [getEntry_setEntry_self
      (setEntry s p { getEntry s p with next := (getEntry s idx).next }) idx _
      (by
        show idx < (lset s.entries p
          { getEntry s p with next := (getEntry s idx).next }).length
        rw [length_lset]
        exact hlen)]

theorem remove_step_getEntry_p (r : Nat) (s : dwarf_cfa_stack) (p idx : Nat)
    (hpne : p ≠ idx) (hplen : p < s.entries.length) :
    getEntry (remove_step r s (some p) idx) p =
    { getEntry s p with next := (getEntry s idx).next } := by
  show getEntry (setEntry
    (setEntry s p { getEntry s p with next := (getEntry s idx).next }) idx
    { getEntry (setEntry s p { getEntry s p with next := (getEntry s idx).next }) idx
      with next := s.free_list }) p = _
  rw [getEntry_setEntry_ne _ idx p _ (fun h => hpne h.symm)]
  exact getEntry_setEntry_self _ _ _ hplen

theorem remove_step_getEntry_other (r : Nat) (s : dwarf_cfa_stack)
    (prev : Option Nat) (idx j : Nat) (hj1 : j ≠ idx)
    (hj2 : ∀ p, prev = some p → j ≠ p) :
    getEntry (remove_step r s prev idx) j = getEntry s j := by
  cases prev with
  | none =>
    show getEntry (setEntry
      (setSlot s s.table_depth (r % DWARF_CFA_STACK_BUCKET_COUNT) (getEntry s idx).next)
      idx { getEntry (setSlot s s.table_depth (r % DWARF_CFA_STACK_BUCKET_COUNT)
        (getEntry s idx).next) idx with next := s.free_list }) j = _
    rw [getEntry_setEntry_ne _ idx j _ (fun h => hj1 h.symm)]
    rfl
  | some p =>
    have hjp : j ≠ p := hj2 p rfl
    show getEntry (setEntry
      (setEntry s p { getEntry s p with next := (getEntry s idx).next }) idx
      { getEntry (setEntry s p { getEntry s p with next := (getEntry s idx).next }) idx
        with next := s.free_list }) j = _
    rw [getEntry_setEntry_ne _ idx j _ (fun h => hj1 h.symm)]
    rw [getEntry_setEntry_ne _ p j _ (fun h => hjp h.symm)]

theorem remove_step_slot_none (r : Nat) (s : dwarf_cfa_stack) (idx : Nat)
    (hsh : Shape s) :
    slot (remove_step r s none idx) s.table_depth
      (r % DWARF_CFA_STACK_BUCKET_COUNT) = (getEntry s idx).next := by
  show slot (setSlot s s.table_depth (r % DWARF_CFA_STACK_BUCKET_COUNT)
    (getEntry s idx).next) s.table_depth (r % DWARF_CFA_STACK_BUCKET_COUNT) = _
  refine slot_setSlot_self _ _ _ _ ?_ ?_
  · rw [hsh.table_len]; exact hsh.depth_lt
  · rw [hsh.row_len s.table_depth hsh.depth_lt]
    exact Nat.mod_lt _ (by decide)

theorem remove_step_slot_ne_none (r : Nat) (s : dwarf_cfa_stack) (idx l b : Nat)
    (h : s.table_depth ≠ l ∨ r % DWARF_CFA_STACK_BUCKET_COUNT ≠ b) :
    slot (remove_step r s none idx) l b = slot s l b := by
  show slot (setSlot s s.table_depth (r % DWARF_CFA_STACK_BUCKET_COUNT)
    (getEntry s idx).next) l b = _
  exact slot_setSlot_ne _ _ _ _ _ _ h

theorem remove_step_slot_some (r : Nat) (s : dwarf_cfa_stack) (p idx l b : Nat) :
    slot (remove_step r s (some p) idx) l b = slot s l b := rfl

theorem remove_step_count_depth (r : Nat) (s : dwarf_cfa_stack)
    (prev : Option Nat) (idx : Nat) (hsh : Shape s) :
    countAt (remove_step r s prev idx) s.table_depth =
    (countAt s s.table_depth + 255) % 256 := by
  have hb : s.table_depth < s.register_count.length := by
    rw [hsh.count_len]; exact hsh.depth_lt
  cases prev with
  | none =>
    show lget (lset s.register_count s.table_depth
      ((countAt s s.table_depth + 255) % 256)) s.table_depth 0 = _
    rw [lget_lset_self _ _ _ _ hb]
  | some p =>
    show lget (lset s.register_count s.table_depth
      ((countAt s s.table_depth + 255) % 256)) s.table_depth 0 = _
    rw [lget_lset_self _ _ _ _ hb]

theorem remove_step_count_ne (r : Nat) (s : dwarf_cfa_stack)
    (prev : Option Nat) (idx l : Nat) (h : s.table_depth ≠ l) :
    countAt (remove_step r s prev idx) l = countAt s l := by
  cases prev with
  | none =>
    show lget (lset s.register_count s.table_depth
      ((countAt s s.table_depth + 255) % 256)) l 0 = countAt s l
    rw [lget_lset_ne _ _ _ _ _ h]
    rfl
  | some p =>
    show lget (lset s.register_count s.table_depth
      ((countAt s s.table_depth + 255) % 256)) l 0 = countAt s l
    rw [lget_lset_ne _ _ _ _ _ h]
    rfl

/- Well-formedness plumbing. -/

theorem wf_chain_spec {s : dwarf_cfa_stack} (w : WF s) (l b : Nat) :
    chain_list s DWARF_CFA_STACK_MAX_REGISTERS (slot s l b) =
    some (chainOf s l b) :=
  isSome_chain_spec (w.chain_def l b)

theorem wf_free_spec {s : dwarf_cfa_stack} (w : WF s) :
    chain_list s DWARF_CFA_STACK_MAX_REGISTERS s.free_list =
    some (freeOf s) :=
  isSome_chain_spec w.free_def

theorem wf_chain_seg {s : dwarf_cfa_stack} (w : WF s) (l b : Nat) :
    chain_seg s (slot s l b) DWARF_CFA_STACK_INVALID_ENTRY_IDX
      (chainOf s l b) :=
  chain_list_to_seg (wf_chain_spec w l b)

theorem wf_free_seg {s : dwarf_cfa_stack} (w : WF s) :
    chain_seg s s.free_list DWARF_CFA_STACK_INVALID_ENTRY_IDX (freeOf s) :=
  chain_list_to_seg (wf_free_spec w)

/-- Full case analysis of a completed set_register call against the current
bucket chain. -/
theorem set_register_spec (r ru : Nat) (v : Int) (fuel : Nat)
    (s : dwarf_cfa_stack) (ok : Bool) (t : dwarf_cfa_stack) (w : WF s)
    (h : set_register r ru v fuel s = some (ok, t)) :
    (∃ m pre post,
      chainOf s s.table_depth (r % DWARF_CFA_STACK_BUCKET_COUNT) =
        pre ++ m :: post ∧
      (∀ i ∈ pre, (getEntry s i).regnum ≠ r) ∧ (getEntry s m).regnum = r ∧
      ok = true ∧ t = set_update ru v m s) ∨
    ((∀ i ∈ chainOf s s.table_depth (r % DWARF_CFA_STACK_BUCKET_COUNT),
        (getEntry s i).regnum ≠ r) ∧
      s.free_list = DWARF_CFA_STACK_INVALID_ENTRY_IDX ∧ ok = false ∧ t = s) ∨
    (∃ par,
      (∀ i ∈ chainOf s s.table_depth (r % DWARF_CFA_STACK_BUCKET_COUNT),
        (getEntry s i).regnum ≠ r) ∧
      s.free_list ≠ DWARF_CFA_STACK_INVALID_ENTRY_IDX ∧ ok = true ∧
      t = set_alloc r ru v par s ∧
      ((chainOf s s.table_depth (r % DWARF_CFA_STACK_BUCKET_COUNT) = [] ∧
        par = none) ∨
       (chainOf s s.table_depth (r % DWARF_CFA_STACK_BUCKET_COUNT) ≠ [] ∧
        (chainOf s s.table_depth
          (r % DWARF_CFA_STACK_BUCKET_COUNT)).getLast? = par))) := by
  simp only [set_register] at h
  cases hsf : set_find r fuel s
      (slot s s.table_depth (r % DWARF_CFA_STACK_BUCKET_COUNT)) none with
  | none => rw [hsf] at h; cases h
  | some res =>
    rw [hsf] at h
    have hspec := set_find_spec r fuel s
      (slot s s.table_depth (r % DWARF_CFA_STACK_BUCKET_COUNT)) none
      (chainOf s s.table_depth (r % DWARF_CFA_STACK_BUCKET_COUNT)) res
      (wf_chain_seg w s.table_depth (r % DWARF_CFA_STACK_BUCKET_COUNT)) hsf
    cases res with
    | inl m =>
      simp only [Option.some_inj, Prod.mk.injEq] at h
      rcases hspec with ⟨m2, pre, post, hres, hcs, hpre, hm⟩ | ⟨q, hres, _, _⟩
      · cases hres
        exact Or.inl ⟨m, pre, post, hcs, hpre, hm, h.1.symm, h.2.symm⟩
      · cases hres
    | inr parent =>
      rcases hspec with ⟨m2, pre, post, hres, _, _, _⟩ | ⟨q, hres, hno, hq⟩
      · cases hres
      · cases hres
        have h2 : (if s.free_list = DWARF_CFA_STACK_INVALID_ENTRY_IDX then
            some (false, s) else some (true, set_alloc r ru v parent s)) =
            some (ok, t) := h
        by_cases hf : s.free_list = DWARF_CFA_STACK_INVALID_ENTRY_IDX
        · rw [if_pos hf] at h2
          simp only [Option.some_inj, Prod.mk.injEq] at h2
          exact Or.inr (Or.inl ⟨hno, hf, h2.1.symm, h2.2.symm⟩)
        · rw [if_neg hf] at h2
          simp only [Option.some_inj, Prod.mk.injEq] at h2
          refine Or.inr (Or.inr ⟨parent, hno, hf, h2.1.symm, h2.2.symm, ?_⟩)
          rcases hq with ⟨hnil, hpar⟩ | ⟨hnenil, hlast⟩
          · exact Or.inl ⟨hnil, hpar⟩
          · exact Or.inr ⟨hnenil, hlast⟩

/-- Well-formedness transfers along any state change that keeps every next
link, every register number, every bucket head, and the free-list head. -/
theorem wf_transfer {s t : dwarf_cfa_stack} (w : WF s) (hsh : Shape t)
    (hnext : ∀ i, (getEntry t i).next = (getEntry s i).next)
    (hreg : ∀ i, (getEntry t i).regnum = (getEntry s i).regnum)
    (hslot : ∀ l b, slot t l b = slot s l b)
    (hfree : t.free_list = s.free_list) : WF t := by
  have hcl : ∀ F idx, chain_list t F idx = chain_list s F idx :=
    chain_list_congr hnext
  have hchain : ∀ l b, chainOf t l b = chainOf s l b := by
    intro l b
    unfold chainOf
    rw [hslot, hcl]
  have hfr : freeOf t = freeOf s := by
    unfold freeOf
    rw [hfree, hcl]
  refine ⟨hsh, ?_, ?_, ?_, ?_, ?_, ?_, ?_, ?_, ?_, ?_⟩
  · rw [hfree, hcl]; exact w.free_def
  · rw [hfr]; exact w.free_nodup
  · rw [hfr]; exact w.free_lt
  · intro l b; rw [hslot, hcl]; exact w.chain_def l b
  · intro l b; rw [hchain]; exact w.chain_nodup l b
  · intro l b; rw [hchain]; exact w.chain_lt l b
  · intro l b
    rw [hchain]
    intro i hi
    rw [hreg]
    exact w.chain_bucket l b i hi
  · intro l b
    rw [hchain]
    have : (chainOf s l b).map (fun i => (getEntry t i).regnum) =
        (chainOf s l b).map (fun i => (getEntry s i).regnum) :=
      List.map_congr_left (fun i _ => hreg i)
    rw [this]
    exact w.chain_reg_nodup l b
  · intro l b
    rw [hfr, hchain]
    exact w.free_chain_disj l b
  · intro l b l' b' hne
    rw [hchain, hchain]
    exact w.chain_chain_disj l b l' b' hne

theorem wf_pop (s : dwarf_cfa_stack) (w : WF s) : WF (pop_state s).2 := by
  by_cases hd : s.table_depth = 0
  · rw [pop_state, if_pos hd]
    exact w
  · have hshape := shape_pop s w.shape
    rw [pop_state, if_neg hd] at hshape ⊢
    exact wf_transfer w hshape (fun i => rfl) (fun i => rfl)
      (fun l b => rfl) rfl

theorem wf_set_update (ru : Nat) (v : Int) (m : Nat) (s : dwarf_cfa_stack)
    (w : WF s) : WF (set_update ru v m s) :=
  wf_transfer w (shape_set_update ru v m s w.shape) (set_update_next ru v m s)
    (set_update_regnum ru v m s) (fun l b => rfl) rfl

theorem wf_push (s : dwarf_cfa_stack) (w : WF s) : WF (push_state s).2 := by
  by_cases hd : s.table_depth + 1 = DWARF_CFA_STACK_MAX_STATES
  · rw [push_state, if_pos hd]
    exact w
  · have hshape := shape_push s w.shape
    rw [push_state, if_neg hd] at hshape ⊢
    have hnext : ∀ i, (getEntry { s with
        table_depth := s.table_depth + 1,
        register_count := lset s.register_count (s.table_depth + 1) 0,
        table_stack := lset s.table_stack (s.table_depth + 1)
          (List.replicate DWARF_CFA_STACK_BUCKET_COUNT
            DWARF_CFA_STACK_INVALID_ENTRY_IDX) } i).next =
        (getEntry s i).next := fun i => rfl
    have hreg : ∀ i, (getEntry { s with
        table_depth := s.table_depth + 1,
        register_count := lset s.register_count (s.table_depth + 1) 0,
        table_stack := lset s.table_stack (s.table_depth + 1)
          (List.replicate DWARF_CFA_STACK_BUCKET_COUNT
            DWARF_CFA_STACK_INVALID_ENTRY_IDX) } i).regnum =
        (getEntry s i).regnum := fun i => rfl
    have hcl := chain_list_congr hnext
    have hslot : ∀ l b, slot { s with
        table_depth := s.table_depth + 1,
        register_count := lset s.register_count (s.table_depth + 1) 0,
        table_stack := lset s.table_stack (s.table_depth + 1)
          (List.replicate DWARF_CFA_STACK_BUCKET_COUNT
            DWARF_CFA_STACK_INVALID_ENTRY_IDX) } l b =
        if l = s.table_depth + 1 then DWARF_CFA_STACK_INVALID_ENTRY_IDX
        else slot s l b := by
      intro l b
      show lget (lget (lset s.table_stack (s.table_depth + 1)
        (List.replicate DWARF_CFA_STACK_BUCKET_COUNT
          DWARF_CFA_STACK_INVALID_ENTRY_IDX)) l []) b
        DWARF_CFA_STACK_INVALID_ENTRY_IDX = _
      by_cases hl : l = s.table_depth + 1
      · subst hl
        rw [if_pos rfl]
        rw [lget_lset_self _ _ _ _
          (by rw [w.shape.table_len]; have := w.shape.depth_lt; omega)]
        rw [lget_replicate]
        by_cases hb : b < DWARF_CFA_STACK_BUCKET_COUNT
        · rw [if_pos hb]
        · rw [if_neg hb]
      · rw [if_neg hl, lget_lset_ne _ _ _ _ _ (fun h => hl h.symm)]
        rfl
    have hchain : ∀ l b, chainOf { s with
        table_depth := s.table_depth + 1,
        register_count := lset s.register_count (s.table_depth + 1) 0,
        table_stack := lset s.table_stack (s.table_depth + 1)
          (List.replicate DWARF_CFA_STACK_BUCKET_COUNT
            DWARF_CFA_STACK_INVALID_ENTRY_IDX) } l b =
        if l = s.table_depth + 1 then [] else chainOf s l b := by
      intro l b
      unfold chainOf
      rw [hslot]
      by_cases hl : l = s.table_depth + 1
      · rw [if_pos hl, if_pos hl, chain_list_invalid]
        rfl
      · rw [if_neg hl, if_neg hl, hcl]
    refine ⟨hshape, ?_, ?_, ?_, ?_, ?_, ?_, ?_, ?_, ?_, ?_⟩
    · show (chain_list _ DWARF_CFA_STACK_MAX_REGISTERS s.free_list).isSome
      rw [hcl]
      exact w.free_def
    · show ((chain_list _ DWARF_CFA_STACK_MAX_REGISTERS s.free_list).getD []).Nodup
      rw [hcl]
      exact w.free_nodup
    · show ∀ i ∈ (chain_list _ DWARF_CFA_STACK_MAX_REGISTERS s.free_list).getD [],
        i < DWARF_CFA_STACK_MAX_REGISTERS
      rw [hcl]
      exact w.free_lt
    · intro l b
      rw [hslot]
      by_cases hl : l = s.table_depth + 1
      · rw [if_pos hl, chain_list_invalid]
        rfl
      · rw [if_neg hl, hcl]
        exact w.chain_def l b
    · intro l b
      rw [hchain]
      by_cases hl : l = s.table_depth + 1
      · rw [if_pos hl]
        exact List.nodup_nil
      · rw [if_neg hl]
        exact w.chain_nodup l b
    · intro l b
      rw [hchain]
      by_cases hl : l = s.table_depth + 1
      · rw [if_pos hl]
        intro i hi
        cases hi
      · rw [if_neg hl]
        exact w.chain_lt l b
    · intro l b
      rw [hchain]
      by_cases hl : l = s.table_depth + 1
      · rw [if_pos hl]
        intro i hi
        cases hi
      · rw [if_neg hl]
        intro i hi
        rw [hreg]
        exact w.chain_bucket l b i hi
    · intro l b
      rw [hchain]
      by_cases hl : l = s.table_depth + 1
      · rw [if_pos hl]
        exact List.nodup_nil
      · rw [if_neg hl]
        have : (chainOf s l b).map (fun i => (getEntry { s with
            table_depth := s.table_depth + 1,
            register_count := lset s.register_count (s.table_depth + 1) 0,
            table_stack := lset s.table_stack (s.table_depth + 1)
              (List.replicate DWARF_CFA_STACK_BUCKET_COUNT
                DWARF_CFA_STACK_INVALID_ENTRY_IDX) } i).regnum) =
            (chainOf s l b).map (fun i => (getEntry s i).regnum) :=
          List.map_congr_left (fun i _ => hreg i)
        rw [this]
        exact w.chain_reg_nodup l b
    · intro l b
      have hfr : freeOf { s with
          table_depth := s.table_depth + 1,
          register_count := lset s.register_count (s.table_depth + 1) 0,
          table_stack := lset s.table_stack (s.table_depth + 1)
            (List.replicate DWARF_CFA_STACK_BUCKET_COUNT
              DWARF_CFA_STACK_INVALID_ENTRY_IDX) } = freeOf s := by
        unfold freeOf
        rw [hcl]
      rw [hfr, hchain]
      by_cases hl : l = s.table_depth + 1
      · rw [if_pos hl]
        intro i _ hi
        cases hi
      · rw [if_neg hl]
        exact w.free_chain_disj l b
    · intro l b l' b' hne
      rw [hchain, hchain]
      by_cases hl : l = s.table_depth + 1
      · rw [if_pos hl]
        intro i hi
        cases hi
      · rw [if_neg hl]
        by_cases hl' : l' = s.table_depth + 1
        · rw [if_pos hl']
          intro i _ hi
          cases hi
        · rw [if_neg hl']
          exact w.chain_chain_disj l b l' b' hne

theorem wf_set_alloc (r ru : Nat) (v : Int) (par : Option Nat)
    (s : dwarf_cfa_stack) (w : WF s)
    (hf : s.free_list ≠ DWARF_CFA_STACK_INVALID_ENTRY_IDX)
    (hno : ∀ i ∈ chainOf s s.table_depth (r % DWARF_CFA_STACK_BUCKET_COUNT),
      (getEntry s i).regnum ≠ r)
    (hpar : (chainOf s s.table_depth (r % DWARF_CFA_STACK_BUCKET_COUNT) = [] ∧
        par = none) ∨
      (chainOf s s.table_depth (r % DWARF_CFA_STACK_BUCKET_COUNT) ≠ [] ∧
        (chainOf s s.table_depth
          (r % DWARF_CFA_STACK_BUCKET_COUNT)).getLast? = par)) :
    WF (set_alloc r ru v par s) ∧
    chainOf (set_alloc r ru v par s) s.table_depth
        (r % DWARF_CFA_STACK_BUCKET_COUNT) =
      chainOf s s.table_depth (r % DWARF_CFA_STACK_BUCKET_COUNT) ++
        [s.free_list] ∧
    (∀ l b, s.table_depth ≠ l ∨ r % DWARF_CFA_STACK_BUCKET_COUNT ≠ b →
      chainOf (set_alloc r ru v par s) l b = chainOf s l b) ∧
    freeOf (set_alloc r ru v par s) = (freeOf s).drop 1 := by
  have hshape_t := shape_set_alloc r ru v par s w.shape
  -- free-list decomposition
  have hfseg := wf_free_seg w
  cases hfl : freeOf s with
  | nil =>
    rw [hfl] at hfseg
    exact absurd hfseg hf
  | cons x ftail =>
    rw [hfl] at hfseg
    obtain ⟨hx, _, hfseg2⟩ := hfseg
    have hfnodup : (x :: ftail).Nodup := by rw [← hfl]; exact w.free_nodup
    have hf0mem : s.free_list ∈ freeOf s := by rw [hfl, ← hx]; exact List.mem_cons_self _ _
    have hf0lt : s.free_list < DWARF_CFA_STACK_MAX_REGISTERS := w.free_lt _ hf0mem
    have hf0len : s.free_list < s.entries.length := by
      rw [w.shape.entries_len]; exact hf0lt
    have hf0nochain : ∀ l b, s.free_list ∉ chainOf s l b :=
      fun l b => w.free_chain_disj l b s.free_list hf0mem
    -- parent facts
    have hparne : ∀ p, par = some p → p ≠ s.free_list ∧
        p < s.entries.length ∧
        p ∈ chainOf s s.table_depth (r % DWARF_CFA_STACK_BUCKET_COUNT) := by
      intro p hp
      rcases hpar with ⟨hnil, hpn⟩ | ⟨hnenil, hlast⟩
      · rw [hp] at hpn; cases hpn
      · rw [hp] at hlast
        have hdec := List.dropLast_append_getLast? p hlast
        have hpmem : p ∈ chainOf s s.table_depth
            (r % DWARF_CFA_STACK_BUCKET_COUNT) := by
          rw [← hdec]
          exact List.mem_append_right _ (List.mem_singleton.mpr rfl)
        refine ⟨fun he => hf0nochain _ _ (he ▸ hpmem), ?_, hpmem⟩
        rw [w.shape.entries_len]
        exact w.chain_lt _ _ p hpmem
    -- entry rewrites
    have hEf0 : getEntry (set_alloc r ru v par s) s.free_list =
        ⟨r, ru % 256, v, DWARF_CFA_STACK_INVALID_ENTRY_IDX⟩ :=
      set_alloc_getEntry_f0 r ru v par s hf0len
        (fun p hp => (hparne p hp).1)
    have hEother : ∀ j, j ≠ s.free_list → (∀ p, par = some p → j ≠ p) →
        getEntry (set_alloc r ru v par s) j = getEntry s j :=
      fun j hj hp => set_alloc_getEntry_other r ru v par s j hj hp
    have hreg : ∀ j, j ≠ s.free_list →
        (getEntry (set_alloc r ru v par s) j).regnum = (getEntry s j).regnum := by
      intro j hj
      cases par with
      | none => rw [hEother j hj (fun p hp => by cases hp)]
      | some p =>
        by_cases hjp : j = p
        · subst hjp
          obtain ⟨h1, h2, _⟩ := hparne j rfl
          rw [set_alloc_getEntry_p r ru v j s h2 h1]
        · rw [hEother j hj (fun q hq => by cases hq; exact hjp)]
    -- slots away from the target bucket
    have hslot_ne : ∀ l b,
        s.table_depth ≠ l ∨ r % DWARF_CFA_STACK_BUCKET_COUNT ≠ b →
        slot (set_alloc r ru v par s) l b = slot s l b := by
      intro l b hlb
      cases par with
      | none => exact set_alloc_slot_ne_none r ru v s l b hlb
      | some p => rfl
    -- frames for untouched chains
    have hchain_other : ∀ l b,
        s.table_depth ≠ l ∨ r % DWARF_CFA_STACK_BUCKET_COUNT ≠ b →
        chain_list (set_alloc r ru v par s) DWARF_CFA_STACK_MAX_REGISTERS
          (slot (set_alloc r ru v par s) l b) = some (chainOf s l b) := by
      intro l b hlb
      rw [hslot_ne l b hlb]
      have hlbne : (s.table_depth, r % DWARF_CFA_STACK_BUCKET_COUNT) ≠ (l, b) := by
        intro he
        injection he with h1 h2
        rcases hlb with h | h
        · exact h h1
        · exact h h2
      have hseg := wf_chain_seg w l b
      have hseg2 : chain_seg (set_alloc r ru v par s) (slot s l b)
          DWARF_CFA_STACK_INVALID_ENTRY_IDX (chainOf s l b) := by
        refine chain_seg_frame ?_ hseg
        intro i hi
        have hif0 : i ≠ s.free_list :=
          fun he => hf0nochain l b (he ▸ hi)
        have hget : getEntry (set_alloc r ru v par s) i = getEntry s i := by
          refine hEother i hif0 ?_
          intro p hp he
          obtain ⟨_, _, hpmem⟩ := hparne p hp
          exact w.chain_chain_disj _ _ l b hlbne p hpmem (he ▸ hi)
        rw [hget]
      exact chain_seg_to_list hseg2
        (chain_list_length_le (wf_chain_spec w l b))
    -- the new chain in the target bucket
    have hnew : chain_list (set_alloc r ru v par s)
        DWARF_CFA_STACK_MAX_REGISTERS
        (slot (set_alloc r ru v par s) s.table_depth
          (r % DWARF_CFA_STACK_BUCKET_COUNT)) =
        some (chainOf s s.table_depth (r % DWARF_CFA_STACK_BUCKET_COUNT) ++
          [s.free_list]) := by
      have hlenb : (chainOf s s.table_depth
          (r % DWARF_CFA_STACK_BUCKET_COUNT) ++ [s.free_list]).length ≤
          DWARF_CFA_STACK_MAX_REGISTERS := by
        refine nodup_lt_length_le ?_ ?_
        · refine (w.chain_nodup _ _).append (List.nodup_cons.mpr
            ⟨List.not_mem_nil _, List.nodup_nil⟩) ?_
          intro a ha hb
          rcases List.mem_singleton.mp hb with rfl
          exact hf0nochain _ _ ha
        · intro i hi
          rcases List.mem_append.mp hi with hi | hi
          · exact w.chain_lt _ _ i hi
          · rcases List.mem_singleton.mp hi with rfl
            exact hf0lt
      have hsegf0 : chain_seg (set_alloc r ru v par s) s.free_list
          DWARF_CFA_STACK_INVALID_ENTRY_IDX [s.free_list] := by
        refine ⟨rfl, hf, ?_⟩
        show (getEntry (set_alloc r ru v par s) s.free_list).next = _
        rw [hEf0]
      rcases hpar with ⟨hnil, rfl⟩ | ⟨hnenil, hlast⟩
      · rw [hnil]
        have hslot0 := set_alloc_slot_none r ru v s w.shape
        rw [hslot0]
        exact chain_seg_to_list hsegf0 (by rw [hnil] at hlenb; exact hlenb)
      · cases par with
        | none =>
          rw [List.getLast?_eq_none_iff] at hlast
          exact absurd hlast hnenil
        | some p =>
          obtain ⟨hpf0, hplen, hpmem⟩ := hparne p rfl
          have hdec := List.dropLast_append_getLast? p hlast
          have hslots := set_alloc_slot_some r ru v p s s.table_depth
            (r % DWARF_CFA_STACK_BUCKET_COUNT)
          rw [hslots]
          -- split the original chain at its last element p
          have hseg := wf_chain_seg w s.table_depth
            (r % DWARF_CFA_STACK_BUCKET_COUNT)
          rw [← hdec] at hseg
          obtain ⟨mid, hseg1, hseg2⟩ :=
            (chain_seg_append s _ _ _ _).mp hseg
          obtain ⟨hmid, hpinv, hsegnil⟩ := hseg2
          rw [hmid] at hseg1
          -- p does not occur in the dropLast prefix
          have hnodup := w.chain_nodup s.table_depth
            (r % DWARF_CFA_STACK_BUCKET_COUNT)
          rw [← hdec] at hnodup
          have hpnotpre : p ∉ (chainOf s s.table_depth
              (r % DWARF_CFA_STACK_BUCKET_COUNT)).dropLast := by
            intro hmem
            have := List.disjoint_of_nodup_append hnodup
            exact this hmem (List.mem_singleton.mpr rfl)
          -- walk the prefix unchanged
          have hseg1t : chain_seg (set_alloc r ru v (some p) s)
              (slot s s.table_depth (r % DWARF_CFA_STACK_BUCKET_COUNT)) p
              (chainOf s s.table_depth
                (r % DWARF_CFA_STACK_BUCKET_COUNT)).dropLast := by
            refine chain_seg_frame ?_ hseg1
            intro i hi
            have himem : i ∈ chainOf s s.table_depth
                (r % DWARF_CFA_STACK_BUCKET_COUNT) := by
              rw [← hdec]
              exact List.mem_append_left _ hi
            have hif0 : i ≠ s.free_list :=
              fun he => hf0nochain _ _ (he ▸ himem)
            have hip : i ≠ p := fun he => hpnotpre (he ▸ hi)
            rw [hEother i hif0 (fun q hq => by cases hq; exact hip)]
          -- the relinked last element
          have hsegp : chain_seg (set_alloc r ru v (some p) s) p
              s.free_list [p] := by
            refine ⟨rfl, hpinv, ?_⟩
            show (getEntry (set_alloc r ru v (some p) s) p).next = _
            rw [set_alloc_getEntry_p r ru v p s hplen hpf0]
          have hsegall : chain_seg (set_alloc r ru v (some p) s)
              (slot s s.table_depth (r % DWARF_CFA_STACK_BUCKET_COUNT))
              DWARF_CFA_STACK_INVALID_ENTRY_IDX
              (((chainOf s s.table_depth
                (r % DWARF_CFA_STACK_BUCKET_COUNT)).dropLast ++ [p]) ++
                [s.free_list]) := by
            refine (chain_seg_append _ _ _ _ _).mpr ⟨s.free_list, ?_, hsegf0⟩
            exact (chain_seg_append _ _ _ _ _).mpr ⟨p, hseg1t, hsegp⟩
          rw [hdec] at hsegall
          exact chain_seg_to_list hsegall hlenb
    -- the new free list
    have hfnew : chain_list (set_alloc r ru v par s)
        DWARF_CFA_STACK_MAX_REGISTERS
        (set_alloc r ru v par s).free_list = some ftail := by
      rw [set_alloc_free]
      have hlenf : ftail.length ≤ DWARF_CFA_STACK_MAX_REGISTERS := by
        have := chain_list_length_le (wf_free_spec w)
        rw [hfl] at this
        simp at this
        omega
      have hnodupf := w.free_nodup
      rw [hfl] at hnodupf
      have hsegt : chain_seg (set_alloc r ru v par s)
          (getEntry s s.free_list).next DWARF_CFA_STACK_INVALID_ENTRY_IDX
          ftail := by
        refine chain_seg_frame ?_ (by rw [hx]; exact hfseg2)
        intro i hi
        have himem : i ∈ freeOf s := by
          rw [hfl]
          exact List.mem_cons_of_mem _ hi
        have hif0 : i ≠ s.free_list := by
          intro he
          rw [he] at hi
          rw [← hx] at hnodupf
          exact (List.nodup_cons.mp hnodupf).1 hi
        refine congrArg _ (hEother i hif0 ?_)
        intro p hp he
        obtain ⟨_, _, hpmem⟩ := hparne p hp
        exact w.free_chain_disj _ _ i himem (he ▸ hpmem)
      exact chain_seg_to_list hsegt hlenf
    have hfrt : freeOf (set_alloc r ru v par s) = ftail := by
      unfold freeOf
      rw [hfnew]
      rfl
    have hchain_new : chainOf (set_alloc r ru v par s) s.table_depth
        (r % DWARF_CFA_STACK_BUCKET_COUNT) =
        chainOf s s.table_depth (r % DWARF_CFA_STACK_BUCKET_COUNT) ++
          [s.free_list] := by
      unfold chainOf
      rw [hnew]
      rfl
    have hchain_oth : ∀ l b,
        s.table_depth ≠ l ∨ r % DWARF_CFA_STACK_BUCKET_COUNT ≠ b →
        chainOf (set_alloc r ru v par s) l b = chainOf s l b := by
      intro l b hlb
      unfold chainOf
      rw [hchain_other l b hlb]
      rfl
    -- assemble the invariant together with the exported chain equations
    refine ⟨⟨hshape_t, ?_, ?_, ?_, ?_, ?_, ?_, ?_, ?_, ?_, ?_⟩,
      hchain_new, hchain_oth, by rw [hfrt]; rfl⟩
    · rw [hfnew]; rfl
    · rw [hfrt]
      exact (List.nodup_cons.mp hfnodup).2
    · rw [hfrt]
      intro i hi
      refine w.free_lt i ?_
      rw [hfl]
      exact List.mem_cons_of_mem _ hi
    · intro l b
      by_cases hl : s.table_depth = l
      · by_cases hb : r % DWARF_CFA_STACK_BUCKET_COUNT = b
        · rw [← hl, ← hb, hnew]; rfl
        · rw [hchain_other l b (Or.inr hb)]; rfl
      · rw [hchain_other l b (Or.inl hl)]; rfl
    · intro l b
      by_cases hl : s.table_depth = l
      · by_cases hb : r % DWARF_CFA_STACK_BUCKET_COUNT = b
        · rw [← hl, ← hb, hchain_new]
          refine (w.chain_nodup _ _).append (List.nodup_cons.mpr
            ⟨List.not_mem_nil _, List.nodup_nil⟩) ?_
          intro a ha hb2
          rcases List.mem_singleton.mp hb2 with rfl
          exact hf0nochain _ _ ha
        · rw [hchain_oth l b (Or.inr hb)]; exact w.chain_nodup l b
      · rw [hchain_oth l b (Or.inl hl)]; exact w.chain_nodup l b
    · intro l b
      by_cases hl : s.table_depth = l
      · by_cases hb : r % DWARF_CFA_STACK_BUCKET_COUNT = b
        · rw [← hl, ← hb, hchain_new]
          intro i hi
          rcases List.mem_append.mp hi with hi | hi
          · exact w.chain_lt _ _ i hi
          · rcases List.mem_singleton.mp hi with rfl
            exact hf0lt
        · rw [hchain_oth l b (Or.inr hb)]; exact w.chain_lt l b
      · rw [hchain_oth l b (Or.inl hl)]; exact w.chain_lt l b
    · intro l b
      by_cases hl : s.table_depth = l
      · by_cases hb : r % DWARF_CFA_STACK_BUCKET_COUNT = b
        · rw [← hl, ← hb, hchain_new]
          intro i hi
          rcases List.mem_append.mp hi with hi | hi
          · have hif0 : i ≠ s.free_list :=
              fun he => hf0nochain _ _ (he ▸ hi)
            rw [hreg i hif0]
            exact w.chain_bucket _ _ i hi
          · rcases List.mem_singleton.mp hi with rfl
            rw [hEf0]
        · rw [hchain_oth l b (Or.inr hb)]
          intro i hi
          have hif0 : i ≠ s.free_list :=
            fun he => hf0nochain _ _ (he ▸ hi)
          rw [hreg i hif0]
          exact w.chain_bucket l b i hi
      · rw [hchain_oth l b (Or.inl hl)]
        intro i hi
        have hif0 : i ≠ s.free_list :=
          fun he => hf0nochain _ _ (he ▸ hi)
        rw [hreg i hif0]
        exact w.chain_bucket l b i hi
    · intro l b
      by_cases hl : s.table_depth = l
      · by_cases hb : r % DWARF_CFA_STACK_BUCKET_COUNT = b
        · rw [← hl, ← hb, hchain_new, List.map_append]
          have hm1 : (chainOf s s.table_depth
              (r % DWARF_CFA_STACK_BUCKET_COUNT)).map
              (fun i => (getEntry (set_alloc r ru v par s) i).regnum) =
              (chainOf s s.table_depth
                (r % DWARF_CFA_STACK_BUCKET_COUNT)).map
              (fun i => (getEntry s i).regnum) := by
            refine List.map_congr_left ?_
            intro i hi
            exact hreg i (fun he => hf0nochain _ _ (he ▸ hi))
          rw [hm1]
          refine (w.chain_reg_nodup _ _).append ?_ ?_
          · show ([s.free_list].map _).Nodup
            simp
          · intro a ha hb2
            show False
            have : a = r := by
              simp only [List.map_cons, List.map_nil] at hb2
              rcases List.mem_singleton.mp hb2 with rfl
              rw [hEf0]
            rcases List.mem_map.mp ha with ⟨i, hi, hia⟩
            exact hno i hi (by rw [hia, this])
        · rw [hchain_oth l b (Or.inr hb)]
          have : (chainOf s l b).map
              (fun i => (getEntry (set_alloc r ru v par s) i).regnum) =
              (chainOf s l b).map (fun i => (getEntry s i).regnum) := by
            refine List.map_congr_left ?_
            intro i hi
            exact hreg i (fun he => hf0nochain _ _ (he ▸ hi))
          rw [this]
          exact w.chain_reg_nodup l b
      · rw [hchain_oth l b (Or.inl hl)]
        have : (chainOf s l b).map
            (fun i => (getEntry (set_alloc r ru v par s) i).regnum) =
            (chainOf s l b).map (fun i => (getEntry s i).regnum) := by
          refine List.map_congr_left ?_
          intro i hi
          exact hreg i (fun he => hf0nochain _ _ (he ▸ hi))
        rw [this]
        exact w.chain_reg_nodup l b
    · intro l b
      rw [hfrt]
      intro i hi
      have himem : i ∈ freeOf s := by
        rw [hfl]
        exact List.mem_cons_of_mem _ hi
      have hif0 : i ≠ s.free_list := by
        intro he
        refine (List.nodup_cons.mp hfnodup).1 ?_
        rw [← hx, ← he]
        exact hi
      by_cases hl : s.table_depth = l
      · by_cases hb : r % DWARF_CFA_STACK_BUCKET_COUNT = b
        · rw [← hl, ← hb, hchain_new]
          intro hmem
          rcases List.mem_append.mp hmem with hmem | hmem
          · exact w.free_chain_disj _ _ i himem hmem
          · exact hif0 (List.mem_singleton.mp hmem)
        · rw [hchain_oth l b (Or.inr hb)]
          exact w.free_chain_disj l b i himem
      · rw [hchain_oth l b (Or.inl hl)]
        exact w.free_chain_disj l b i himem
    · intro l b l' b' hne
      by_cases hl : s.table_depth = l ∧ r % DWARF_CFA_STACK_BUCKET_COUNT = b
      · obtain ⟨hl1, hb1⟩ := hl
        rw [← hl1, ← hb1, hchain_new]
        have hne2 : s.table_depth ≠ l' ∨
            r % DWARF_CFA_STACK_BUCKET_COUNT ≠ b' := by
          by_contra hc
          push_neg at hc
          exact hne (by rw [← hl1, hc.1, ← hb1, hc.2])
        rw [hchain_oth l' b' hne2]
        intro i hi
        rcases List.mem_append.mp hi with hi | hi
        · refine w.chain_chain_disj _ _ l' b' ?_ i hi
          intro he
          injection he with he1 he2
          rcases hne2 with h | h
          · exact h he1
          · exact h he2
        · rcases List.mem_singleton.mp hi with rfl
          exact hf0nochain l' b'
      · push_neg at hl
        have hne1 : s.table_depth ≠ l ∨
            r % DWARF_CFA_STACK_BUCKET_COUNT ≠ b := by
          by_cases h1 : s.table_depth = l
          · exact Or.inr (hl h1)
          · exact Or.inl h1
        rw [hchain_oth l b hne1]
        by_cases hl' : s.table_depth = l' ∧ r % DWARF_CFA_STACK_BUCKET_COUNT = b'
        · obtain ⟨hl1, hb1⟩ := hl'
          rw [← hl1, ← hb1, hchain_new]
          intro i hi hmem
          rcases List.mem_append.mp hmem with hmem | hmem
          · refine w.chain_chain_disj l b _ _ ?_ i hi hmem
            intro he
            injection he with he1 he2
            rcases hne1 with h | h
            · exact h he1.symm
            · exact h he2.symm
          · rcases List.mem_singleton.mp hmem with rfl
            exact hf0nochain l b hi
        · push_neg at hl'
          have hne2 : s.table_depth ≠ l' ∨
              r % DWARF_CFA_STACK_BUCKET_COUNT ≠ b' := by
            by_cases h1 : s.table_depth = l'
            · exact Or.inr (hl' h1)
            · exact Or.inl h1
          rw [hchain_oth l' b' hne2]
          exact w.chain_chain_disj l b l' b' hne

/- Characterization of completed remove_register calls. -/

theorem remove_loop_no_match (r : Nat) :
    ∀ (fuel : Nat) (s : dwarf_cfa_stack) (idx : Nat) (prev : Option Nat)
    (u : dwarf_cfa_stack) (cs : List Nat),
    chain_seg s idx DWARF_CFA_STACK_INVALID_ENTRY_IDX cs →
    (∀ i ∈ cs, (getEntry s i).regnum ≠ r) →
    remove_loop r fuel s idx prev = some u → u = s := by
  intro fuel
  induction fuel with
  | zero => intro s idx prev u cs _ _ h; cases h
  | succ f ih =>
    intro s idx prev u cs hseg hno h
    by_cases hinv : idx = DWARF_CFA_STACK_INVALID_ENTRY_IDX
    · rw [remove_loop, if_pos hinv] at h
      cases h
      rfl
    · cases cs with
      | nil => exact absurd hseg hinv
      | cons x xs =>
        obtain ⟨h1, _, hseg2⟩ := hseg
        subst h1
        have hr : (getEntry s idx).regnum ≠ r :=
          hno idx (List.mem_cons_self _ _)
        rw [remove_loop, if_neg hinv] at h
        simp only [if_neg hr] at h
        exact ih s (getEntry s idx).next (some idx) u xs hseg2
          (fun i hi => hno i (List.mem_cons_of_mem _ hi)) h

theorem remove_loop_free_walk (r : Nat) :
    ∀ (fuel : Nat) (t : dwarf_cfa_stack) (idx : Nat) (prev : Option Nat)
    (u : dwarf_cfa_stack) (fl : List Nat),
    chain_seg t idx DWARF_CFA_STACK_INVALID_ENTRY_IDX fl →
    t.free_list ≠ DWARF_CFA_STACK_INVALID_ENTRY_IDX →
    (getEntry t t.free_list).regnum = r →
    remove_loop r fuel t idx prev = some u → u = t := by
  intro fuel
  induction fuel with
  | zero => intro t idx prev u fl _ _ _ h; cases h
  | succ f ih =>
    intro t idx prev u fl hseg hfne hfreg h
    by_cases hinv : idx = DWARF_CFA_STACK_INVALID_ENTRY_IDX
    · rw [remove_loop, if_pos hinv] at h
      cases h
      rfl
    · cases fl with
      | nil => exact absurd hseg hinv
      | cons x xs =>
        obtain ⟨h1, _, hseg2⟩ := hseg
        subst h1
        by_cases hr : (getEntry t idx).regnum = r
        · have hdiv := remove_loop_stale_diverges r (f + 1) t idx prev hinv
            hr hfne hfreg
          rw [hdiv] at h
          cases h
        · rw [remove_loop, if_neg hinv] at h
          simp only [if_neg hr] at h
          exact ih t (getEntry t idx).next (some idx) u xs hseg2 hfne hfreg h

theorem remove_loop_spec (r : Nat) :
    ∀ (fuel : Nat) (s : dwarf_cfa_stack) (idx : Nat) (prev : Option Nat)
    (u : dwarf_cfa_stack) (cs fl : List Nat),
    chain_seg s idx DWARF_CFA_STACK_INVALID_ENTRY_IDX cs →
    chain_seg s s.free_list DWARF_CFA_STACK_INVALID_ENTRY_IDX fl →
    (∀ i ∈ fl, i ∉ cs) →
    (∀ p0, prev = some p0 → p0 ∉ fl) →
    remove_loop r fuel s idx prev = some u →
    ((∀ i ∈ cs, (getEntry s i).regnum ≠ r) ∧ u = s) ∨
    (∃ pre m post prev2, cs = pre ++ m :: post ∧
      (∀ i ∈ pre, (getEntry s i).regnum ≠ r) ∧
      (getEntry s m).regnum = r ∧
      ((pre = [] ∧ prev2 = prev) ∨
        (∃ p, pre.getLast? = some p ∧ prev2 = some p)) ∧
      u = remove_step r s prev2 m) := by
  intro fuel
  induction fuel with
  | zero => intro s idx prev u cs fl _ _ _ _ h; cases h
  | succ f ih =>
    intro s idx prev u cs fl hseg hfseg hdisj hprev h
    by_cases hinv : idx = DWARF_CFA_STACK_INVALID_ENTRY_IDX
    · rw [remove_loop, if_pos hinv] at h
      cases h
      left
      refine ⟨?_, rfl⟩
      cases cs with
      | nil => intro i hi; cases hi
      | cons x xs =>
        obtain ⟨h1, hne, _⟩ := hseg
        exact absurd h1.symm (fun he => hne (he ▸ hinv ▸ rfl))
    · cases cs with
      | nil => exact absurd hseg hinv
      | cons x xs =>
        obtain ⟨h1, _, hseg2⟩ := hseg
        subst h1
        by_cases hr : (getEntry s idx).regnum = r
        · -- the matching iteration, followed by the free-list walk
          rw [remove_loop, if_neg hinv] at h
          simp only [hr, if_pos rfl] at h
          have hidxcs : idx ∈ idx :: xs := List.mem_cons_self _ _
          have hfseg_t : chain_seg (remove_step r s prev idx) s.free_list
              DWARF_CFA_STACK_INVALID_ENTRY_IDX fl := by
            refine chain_seg_frame ?_ hfseg
            intro i hi
            have hii : i ≠ idx := fun he => hdisj i hi (he ▸ hidxcs)
            have hip : ∀ p0, prev = some p0 → i ≠ p0 := by
              intro p0 hp0 he
              exact hprev p0 hp0 (he ▸ hi)
            rw [remove_step_getEntry_other r s prev idx i hii hip]
          have hume : u = remove_step r s prev idx := by
            refine remove_loop_free_walk r f (remove_step r s prev idx)
              s.free_list (some idx) u fl hfseg_t ?_ ?_ h
            · rw [remove_step_free]; exact hinv
            · rw [remove_step_free, remove_step_regnum]; exact hr
          right
          exact ⟨[], idx, xs, prev, rfl,
            (fun i hi => absurd hi (List.not_mem_nil i)), hr,
            Or.inl ⟨rfl, rfl⟩, hume⟩
        · rw [remove_loop, if_neg hinv] at h
          simp only [if_neg hr] at h
          have hidxfl : idx ∉ fl := fun hmem =>
            hdisj idx hmem (List.mem_cons_self _ _)
          rcases ih s (getEntry s idx).next (some idx) u xs fl hseg2 hfseg
              (fun i hi hmem => hdisj i hi (List.mem_cons_of_mem _ hmem))
              (fun p0 hp0 => by cases hp0; exact hidxfl) h with
            ⟨hno, hu⟩ | ⟨pre, m, post, prev2, hcs, hpre, hm, hprev2, hu⟩
          · left
            refine ⟨?_, hu⟩
            intro i hi
            rcases List.mem_cons.mp hi with rfl | hi2
            · exact hr
            · exact hno i hi2
          · right
            refine ⟨idx :: pre, m, post, prev2, (by rw [hcs]; rfl), ?_, hm,
              ?_, hu⟩
            · intro i hi
              rcases List.mem_cons.mp hi with rfl | hi2
              · exact hr
              · exact hpre i hi2
            · rcases hprev2 with ⟨rfl, hp2⟩ | ⟨p, hlast, hp2⟩
              · exact Or.inr ⟨idx, rfl, hp2⟩
              · refine Or.inr ⟨p, ?_, hp2⟩
                cases pre with
                | nil => cases hlast
                | cons y ys =>
                  rw [List.getLast?_cons_cons]
                  exact hlast

/-- Full case analysis of a completed remove_register call: either no chain
entry matched and the state is untouched, or the first match was unlinked
and freed; the walk of the free list that follows in the source makes no
further change in any completed call. -/
theorem remove_register_spec (r fuel : Nat) (s u : dwarf_cfa_stack)
    (w : WF s) (h : remove_register r fuel s = some u) :
    ((∀ i ∈ chainOf s s.table_depth (r % DWARF_CFA_STACK_BUCKET_COUNT),
        (getEntry s i).regnum ≠ r) ∧ u = s) ∨
    (∃ pre m post,
      chainOf s s.table_depth (r % DWARF_CFA_STACK_BUCKET_COUNT) =
        pre ++ m :: post ∧
      (∀ i ∈ pre, (getEntry s i).regnum ≠ r) ∧
      (getEntry s m).regnum = r ∧
      u = remove_step r s pre.getLast? m) := by
  unfold remove_register at h
  rcases remove_loop_spec r fuel s
      (slot s s.table_depth (r % DWARF_CFA_STACK_BUCKET_COUNT)) none u
      (chainOf s s.table_depth (r % DWARF_CFA_STACK_BUCKET_COUNT)) (freeOf s)
      (wf_chain_seg w s.table_depth (r % DWARF_CFA_STACK_BUCKET_COUNT))
      (wf_free_seg w)
      (fun i hi => w.free_chain_disj s.table_depth
        (r % DWARF_CFA_STACK_BUCKET_COUNT) i hi)
      (fun p0 hp0 => by cases hp0) h with
    ⟨hno, hu⟩ | ⟨pre, m, post, prev2, hcs, hpre, hm, hprev2, hu⟩
  · exact Or.inl ⟨hno, hu⟩
  · right
    refine ⟨pre, m, post, hcs, hpre, hm, ?_⟩
    rcases hprev2 with ⟨rfl, rfl⟩ | ⟨p, hlast, rfl⟩
    · exact hu
    · rw [hlast]
      exact hu

theorem wf_remove_spec (r : Nat) (s : dwarf_cfa_stack) (w : WF s)
    (pre post : List Nat) (m : Nat)
    (hdec : chainOf s s.table_depth (r % DWARF_CFA_STACK_BUCKET_COUNT) =
      pre ++ m :: post) :
    WF (remove_step r s pre.getLast? m) := by
  have hshape_t := shape_remove_step r s pre.getLast? m w.shape
  have hcs_nodup : (pre ++ m :: post).Nodup := by
    rw [← hdec]
    exact w.chain_nodup _ _
  have hnd := List.nodup_append.mp hcs_nodup
  have hm_not_pre : m ∉ pre := fun hmem =>
    hnd.2.2 hmem (List.mem_cons_self _ _)
  have hm_not_post : m ∉ post := (List.nodup_cons.mp hnd.2.1).1
  have hmmem : m ∈ chainOf s s.table_depth
      (r % DWARF_CFA_STACK_BUCKET_COUNT) := by
    rw [hdec]
    exact List.mem_append_right _ (List.mem_cons_self _ _)
  have hmlt : m < DWARF_CFA_STACK_MAX_REGISTERS := w.chain_lt _ _ m hmmem
  have hmlen : m < s.entries.length := by rw [w.shape.entries_len]; exact hmlt
  have hmninv : m ≠ DWARF_CFA_STACK_INVALID_ENTRY_IDX := by
    intro he
    rw [he] at hmlt
    exact absurd hmlt (by decide)
  have hm_not_free : m ∉ freeOf s := fun hmem =>
    w.free_chain_disj _ _ m hmem hmmem
  have hpfact : ∀ p, pre.getLast? = some p →
      p ∈ pre ∧ p ≠ m ∧ p < s.entries.length ∧ p ∉ post ∧ p ∉ freeOf s ∧
      p ∈ chainOf s s.table_depth (r % DWARF_CFA_STACK_BUCKET_COUNT) := by
    intro p hgl
    have hdecp := List.dropLast_append_getLast? p hgl
    have hpmem : p ∈ pre := by
      rw [← hdecp]
      exact List.mem_append_right _ (List.mem_singleton.mpr rfl)
    have hpcs : p ∈ chainOf s s.table_depth
        (r % DWARF_CFA_STACK_BUCKET_COUNT) := by
      rw [hdec]
      exact List.mem_append_left _ hpmem
    refine ⟨hpmem, ?_, ?_, ?_, ?_, hpcs⟩
    · intro he
      exact hm_not_pre (he ▸ hpmem)
    · rw [w.shape.entries_len]
      exact w.chain_lt _ _ p hpcs
    · intro hpost
      exact hnd.2.2 hpmem (List.mem_cons_of_mem _ hpost)
    · intro hfree
      exact w.free_chain_disj _ _ p hfree hpcs
  have hEother : ∀ j, j ≠ m → (∀ p, pre.getLast? = some p → j ≠ p) →
      getEntry (remove_step r s pre.getLast? m) j = getEntry s j :=
    fun j hj hp => remove_step_getEntry_other r s pre.getLast? m j hj hp
  have hreg : ∀ j, (getEntry (remove_step r s pre.getLast? m) j).regnum =
      (getEntry s j).regnum := remove_step_regnum r s pre.getLast? m
  have hlencs : (pre ++ m :: post).length ≤ DWARF_CFA_STACK_MAX_REGISTERS := by
    rw [← hdec]
    exact chain_list_length_le (wf_chain_spec w _ _)
  -- the new free list
  have H3 : chain_list (remove_step r s pre.getLast? m)
      DWARF_CFA_STACK_MAX_REGISTERS
      (remove_step r s pre.getLast? m).free_list = some (m :: freeOf s) := by
    rw [remove_step_free]
    have hsegf : chain_seg (remove_step r s pre.getLast? m) s.free_list
        DWARF_CFA_STACK_INVALID_ENTRY_IDX (freeOf s) := by
      refine chain_seg_frame ?_ (wf_free_seg w)
      intro i hi
      have hii : i ≠ m := fun he => hm_not_free (he ▸ hi)
      have hip : ∀ p, pre.getLast? = some p → i ≠ p := by
        intro p hp he
        exact (hpfact p hp).2.2.2.2.1 (he ▸ hi)
      rw [hEother i hii hip]
    have hseg2 : chain_seg (remove_step r s pre.getLast? m) m
        DWARF_CFA_STACK_INVALID_ENTRY_IDX (m :: freeOf s) := by
      refine ⟨rfl, hmninv, ?_⟩
      rw [remove_step_next_self r s pre.getLast? m hmlen]
      exact hsegf
    refine chain_seg_to_list hseg2 ?_
    refine nodup_lt_length_le ?_ ?_
    · exact List.nodup_cons.mpr ⟨hm_not_free, w.free_nodup⟩
    · intro i hi
      rcases List.mem_cons.mp hi with rfl | hi2
      · exact hmlt
      · exact w.free_lt i hi2
  -- the shortened chain in the target bucket
  have H1 : chain_list (remove_step r s pre.getLast? m)
      DWARF_CFA_STACK_MAX_REGISTERS
      (slot (remove_step r s pre.getLast? m) s.table_depth
        (r % DWARF_CFA_STACK_BUCKET_COUNT)) = some (pre ++ post) := by
    have hlen2 : (pre ++ post).length ≤ DWARF_CFA_STACK_MAX_REGISTERS := by
      have h1 : (pre ++ post).length ≤ (pre ++ m :: post).length := by
        simp
      omega
    cases hgl : pre.getLast? with
    | none =>
      have hprenil := List.getLast?_eq_none_iff.mp hgl
      subst hprenil
      have hseg := wf_chain_seg w s.table_depth
        (r % DWARF_CFA_STACK_BUCKET_COUNT)
      rw [hdec] at hseg
      obtain ⟨hslotm, _, hsegpost⟩ := hseg
      have hsegt : chain_seg (remove_step r s none m) (getEntry s m).next
          DWARF_CFA_STACK_INVALID_ENTRY_IDX post := by
        refine chain_seg_frame ?_ hsegpost
        intro i hi
        have hii : i ≠ m := fun he => hm_not_post (he ▸ hi)
        rw [remove_step_getEntry_other r s none m i hii
          (fun p hp => by cases hp)]
      rw [remove_step_slot_none r s m w.shape]
      exact chain_seg_to_list hsegt (by simpa using hlen2)
    | some p =>
      obtain ⟨hpmem, hpm, hplen, hpnpost, hpnfree, hpcs⟩ := hpfact p hgl
      have hdecp := List.dropLast_append_getLast? p hgl
      have hpre_nodup : pre.Nodup := hnd.1
      have hp_not_drop : p ∉ pre.dropLast := by
        intro hmem
        have hnd2 : (pre.dropLast ++ [p]).Nodup := by rw [hdecp]; exact hpre_nodup
        exact (List.nodup_append.mp hnd2).2.2 hmem (List.mem_singleton.mpr rfl)
      have hseg := wf_chain_seg w s.table_depth
        (r % DWARF_CFA_STACK_BUCKET_COUNT)
      rw [hdec, ← hdecp] at hseg
      rw [show (pre.dropLast ++ [p]) ++ m :: post =
        pre.dropLast ++ ([p] ++ m :: post) from by simp] at hseg
      obtain ⟨mid, hsegpre, hsegrest⟩ := (chain_seg_append s _ _ _ _).mp hseg
      obtain ⟨mid2, hsegp, hsegmpost⟩ := (chain_seg_append s _ _ _ _).mp hsegrest
      obtain ⟨hmidp, hpninv, hsegp2⟩ := hsegp
      obtain ⟨hmid2m, _, hsegpost⟩ := hsegmpost
      rw [hmidp] at hsegpre
      -- frame the dropLast prefix
      have hsegpre_t : chain_seg (remove_step r s (some p) m)
          (slot s s.table_depth (r % DWARF_CFA_STACK_BUCKET_COUNT)) p
          pre.dropLast := by
        refine chain_seg_frame ?_ hsegpre
        intro i hi
        have himem : i ∈ pre := by
          rw [← hdecp]
          exact List.mem_append_left _ hi
        have hii : i ≠ m := fun he => hm_not_pre (he ▸ himem)
        have hip : i ≠ p := fun he => hp_not_drop (he ▸ hi)
        rw [remove_step_getEntry_other r s (some p) m i hii
          (fun q hq => by cases hq; exact hip)]
      -- the relinked last element of the prefix
      have hsegp_t : chain_seg (remove_step r s (some p) m) p
          (getEntry s m).next [p] := by
        refine ⟨rfl, hpninv, ?_⟩
        show (getEntry (remove_step r s (some p) m) p).next = _
        rw [remove_step_getEntry_p r s p m hpm hplen]
      -- the tail after the removed element
      have hsegpost_t : chain_seg (remove_step r s (some p) m)
          (getEntry s m).next DWARF_CFA_STACK_INVALID_ENTRY_IDX post := by
        refine chain_seg_frame ?_ hsegpost
        intro i hi
        have hii : i ≠ m := fun he => hm_not_post (he ▸ hi)
        have hip : i ≠ p := fun he => hpnpost (he ▸ hi)
        rw [remove_step_getEntry_other r s (some p) m i hii
          (fun q hq => by cases hq; exact hip)]
      have hsegall : chain_seg (remove_step r s (some p) m)
          (slot s s.table_depth (r % DWARF_CFA_STACK_BUCKET_COUNT))
          DWARF_CFA_STACK_INVALID_ENTRY_IDX
          ((pre.dropLast ++ [p]) ++ post) := by
        refine (chain_seg_append _ _ _ _ _).mpr
          ⟨(getEntry s m).next, ?_, hsegpost_t⟩
        exact (chain_seg_append _ _ _ _ _).mpr ⟨p, hsegpre_t, hsegp_t⟩
      rw [hdecp] at hsegall
      rw [show slot (remove_step r s (some p) m) s.table_depth
        (r % DWARF_CFA_STACK_BUCKET_COUNT) =
        slot s s.table_depth (r % DWARF_CFA_STACK_BUCKET_COUNT) from rfl]
      exact chain_seg_to_list hsegall hlen2
  -- untouched chains
  have H2 : ∀ l b,
      s.table_depth ≠ l ∨ r % DWARF_CFA_STACK_BUCKET_COUNT ≠ b →
      slot (remove_step r s pre.getLast? m) l b = slot s l b ∧
      chain_list (remove_step r s pre.getLast? m)
        DWARF_CFA_STACK_MAX_REGISTERS (slot s l b) =
        some (chainOf s l b) := by
    intro l b hlb
    have hlbne : (s.table_depth, r % DWARF_CFA_STACK_BUCKET_COUNT) ≠ (l, b) := by
      intro he
      injection he with h1 h2
      rcases hlb with h | h
      · exact h h1
      · exact h h2
    constructor
    · cases hgl : pre.getLast? with
      | none => exact remove_step_slot_ne_none r s m l b hlb
      | some p => exact remove_step_slot_some r s p m l b
    · have hsegt : chain_seg (remove_step r s pre.getLast? m) (slot s l b)
          DWARF_CFA_STACK_INVALID_ENTRY_IDX (chainOf s l b) := by
        refine chain_seg_frame ?_ (wf_chain_seg w l b)
        intro i hi
        have hii : i ≠ m := fun he =>
          w.chain_chain_disj _ _ l b hlbne m hmmem (he ▸ hi)
        have hip : ∀ p, pre.getLast? = some p → i ≠ p := by
          intro p hp he
          exact w.chain_chain_disj _ _ l b hlbne p (hpfact p hp).2.2.2.2.2
            (he ▸ hi)
        rw [hEother i hii hip]
      exact chain_seg_to_list hsegt
        (chain_list_length_le (wf_chain_spec w l b))
  have hchain_new : chainOf (remove_step r s pre.getLast? m) s.table_depth
      (r % DWARF_CFA_STACK_BUCKET_COUNT) = pre ++ post := by
    unfold chainOf
    rw [H1]
    rfl
  have hchain_oth : ∀ l b,
      s.table_depth ≠ l ∨ r % DWARF_CFA_STACK_BUCKET_COUNT ≠ b →
      chainOf (remove_step r s pre.getLast? m) l b = chainOf s l b := by
    intro l b hlb
    unfold chainOf
    rw [(H2 l b hlb).1, (H2 l b hlb).2]
    rfl
  have hfrt : freeOf (remove_step r s pre.getLast? m) = m :: freeOf s := by
    unfold freeOf
    rw [H3]
    rfl
  have hsub : (pre ++ post).Sublist (pre ++ m :: post) :=
    List.Sublist.append_left (List.sublist_cons_self m post) pre
  have hsubmem : ∀ i ∈ pre ++ post,
      i ∈ chainOf s s.table_depth (r % DWARF_CFA_STACK_BUCKET_COUNT) := by
    intro i hi
    rw [hdec]
    exact hsub.mem hi
  -- assemble the invariant
  refine ⟨hshape_t, ?_, ?_, ?_, ?_, ?_, ?_, ?_, ?_, ?_, ?_⟩
  · rw [H3]; rfl
  · rw [hfrt]
    exact List.nodup_cons.mpr ⟨hm_not_free, w.free_nodup⟩
  · rw [hfrt]
    intro i hi
    rcases List.mem_cons.mp hi with rfl | hi2
    · exact hmlt
    · exact w.free_lt i hi2
  · intro l b
    by_cases hl : s.table_depth = l
    · by_cases hb : r % DWARF_CFA_STACK_BUCKET_COUNT = b
      · rw [← hl, ← hb, H1]; rfl
      · rw [(H2 l b (Or.inr hb)).1, (H2 l b (Or.inr hb)).2]; rfl
    · rw [(H2 l b (Or.inl hl)).1, (H2 l b (Or.inl hl)).2]; rfl
  · intro l b
    by_cases hl : s.table_depth = l
    · by_cases hb : r % DWARF_CFA_STACK_BUCKET_COUNT = b
      · rw [← hl, ← hb, hchain_new]
        exact hcs_nodup.sublist hsub
      · rw [hchain_oth l b (Or.inr hb)]; exact w.chain_nodup l b
    · rw [hchain_oth l b (Or.inl hl)]; exact w.chain_nodup l b
  · intro l b
    by_cases hl : s.table_depth = l
    · by_cases hb : r % DWARF_CFA_STACK_BUCKET_COUNT = b
      · rw [← hl, ← hb, hchain_new]
        intro i hi
        exact w.chain_lt _ _ i (hsubmem i hi)
      · rw [hchain_oth l b (Or.inr hb)]; exact w.chain_lt l b
    · rw [hchain_oth l b (Or.inl hl)]; exact w.chain_lt l b
  · intro l b
    by_cases hl : s.table_depth = l
    · by_cases hb : r % DWARF_CFA_STACK_BUCKET_COUNT = b
      · rw [← hl, ← hb, hchain_new]
        intro i hi
        rw [hreg i]
        exact w.chain_bucket _ _ i (hsubmem i hi)
      · rw [hchain_oth l b (Or.inr hb)]
        intro i hi
        rw [hreg i]
        exact w.chain_bucket l b i hi
    · rw [hchain_oth l b (Or.inl hl)]
      intro i hi
      rw [hreg i]
      exact w.chain_bucket l b i hi
  · intro l b
    have hmapeq : ∀ (c : List Nat), c.map
        (fun i => (getEntry (remove_step r s pre.getLast? m) i).regnum) =
        c.map (fun i => (getEntry s i).regnum) :=
      fun c => List.map_congr_left (fun i _ => hreg i)
    by_cases hl : s.table_depth = l
    · by_cases hb : r % DWARF_CFA_STACK_BUCKET_COUNT = b
      · rw [← hl, ← hb, hchain_new, hmapeq]
        have hmapsub : ((pre ++ post).map (fun i => (getEntry s i).regnum)).Sublist
            ((pre ++ m :: post).map (fun i => (getEntry s i).regnum)) :=
          hsub.map _
        have : ((pre ++ m :: post).map (fun i => (getEntry s i).regnum)).Nodup := by
          rw [← hdec]
          exact w.chain_reg_nodup _ _
        exact this.sublist hmapsub
      · rw [hchain_oth l b (Or.inr hb), hmapeq]
        exact w.chain_reg_nodup l b
    · rw [hchain_oth l b (Or.inl hl), hmapeq]
      exact w.chain_reg_nodup l b
  · intro l b
    rw [hfrt]
    intro i hi
    rcases List.mem_cons.mp hi with rfl | hi2
    · by_cases hl : s.table_depth = l
      · by_cases hb : r % DWARF_CFA_STACK_BUCKET_COUNT = b
        · rw [← hl, ← hb, hchain_new]
          intro hmem
          rcases List.mem_append.mp hmem with hmem | hmem
          · exact hm_not_pre hmem
          · exact hm_not_post hmem
        · rw [hchain_oth l b (Or.inr hb)]
          intro hmem
          exact w.chain_chain_disj s.table_depth
            (r % DWARF_CFA_STACK_BUCKET_COUNT) l b
            (by intro he; injection he with h1 h2; exact hb h2) i hmmem hmem
      · rw [hchain_oth l b (Or.inl hl)]
        intro hmem
        exact w.chain_chain_disj s.table_depth
          (r % DWARF_CFA_STACK_BUCKET_COUNT) l b
          (by intro he; injection he with h1 h2; exact hl h1) i hmmem hmem
    · by_cases hl : s.table_depth = l
      · by_cases hb : r % DWARF_CFA_STACK_BUCKET_COUNT = b
        · rw [← hl, ← hb, hchain_new]
          intro hmem
          exact w.free_chain_disj _ _ i hi2 (hsubmem i hmem)
        · rw [hchain_oth l b (Or.inr hb)]
          exact w.free_chain_disj l b i hi2
      · rw [hchain_oth l b (Or.inl hl)]
        exact w.free_chain_disj l b i hi2
  · intro l b l' b' hne
    by_cases hl : s.table_depth = l ∧ r % DWARF_CFA_STACK_BUCKET_COUNT = b
    · obtain ⟨hl1, hb1⟩ := hl
      have hne2 : s.table_depth ≠ l' ∨
          r % DWARF_CFA_STACK_BUCKET_COUNT ≠ b' := by
        by_contra hc
        push_neg at hc
        exact hne (by rw [← hl1, hc.1, ← hb1, hc.2])
      rw [← hl1, ← hb1, hchain_new, hchain_oth l' b' hne2]
      intro i hi
      refine w.chain_chain_disj _ _ l' b' ?_ i (hsubmem i hi)
      intro he
      injection he with he1 he2
      rcases hne2 with h | h
      · exact h he1
      · exact h he2
    · push_neg at hl
      have hne1 : s.table_depth ≠ l ∨
          r % DWARF_CFA_STACK_BUCKET_COUNT ≠ b := by
        by_cases h1 : s.table_depth = l
        · exact Or.inr (hl h1)
        · exact Or.inl h1
      rw [hchain_oth l b hne1]
      by_cases hl' : s.table_depth = l' ∧ r % DWARF_CFA_STACK_BUCKET_COUNT = b'
      · obtain ⟨hl1, hb1⟩ := hl'
        rw [← hl1, ← hb1, hchain_new]
        intro i hi hmem
        refine w.chain_chain_disj l b _ _ ?_ i hi (hsubmem i hmem)
        intro he
        injection he with he1 he2
        rcases hne1 with h | h
        · exact h he1.symm
        · exact h he2.symm
      · push_neg at hl'
        have hne2 : s.table_depth ≠ l' ∨
            r % DWARF_CFA_STACK_BUCKET_COUNT ≠ b' := by
          by_cases h1 : s.table_depth = l'
          · exact Or.inr (hl' h1)
          · exact Or.inl h1
        rw [hchain_oth l' b' hne2]
        exact w.chain_chain_disj l b l' b' hne

theorem wf_set_register (r ru : Nat) (v : Int) (fuel : Nat)
    (s : dwarf_cfa_stack) (ok : Bool) (t : dwarf_cfa_stack) (w : WF s)
    (h : set_register r ru v fuel s = some (ok, t)) : WF t := by
  rcases set_register_spec r ru v fuel s ok t w h with
    ⟨m, pre, post, _, _, _, _, rfl⟩ | ⟨_, _, _, rfl⟩ |
    ⟨par, hno, hf, _, rfl, hpar⟩
  · exact wf_set_update ru v m s w
  · exact w
  · exact (wf_set_alloc r ru v par s w hf hno hpar).1

theorem wf_remove (r fuel : Nat) (s u : dwarf_cfa_stack) (w : WF s)
    (h : remove_register r fuel s = some u) : WF u := by
  rcases remove_register_spec r fuel s u w h with
    ⟨_, rfl⟩ | ⟨pre, m, post, hdec, _, _, rfl⟩
  · exact w
  · exact wf_remove_spec r s w pre post m hdec

theorem wf_step (fuel : Nat) (op : cfa_op) (s t : dwarf_cfa_stack)
    (w : WF s) (hst : step fuel op s = some t) : WF t := by
  cases op with
  | push => cases hst; exact wf_push s w
  | pop => cases hst; exact wf_pop s w
  | set r ru v =>
    simp only [step, Option.map_eq_some'] at hst
    obtain ⟨⟨ok, t0⟩, hset, ht⟩ := hst
    cases ht
    exact wf_set_register r ru v fuel s ok t0 w hset
  | remove r => exact wf_remove r fuel s t w hst

set_option maxRecDepth 8000 in
theorem wf_init : WF init_stack := by
  have hfree : chain_list init_stack DWARF_CFA_STACK_MAX_REGISTERS
      init_stack.free_list = some (List.range DWARF_CFA_STACK_MAX_REGISTERS) := by
    decide
  have hslot : ∀ l b, slot init_stack l b =
      DWARF_CFA_STACK_INVALID_ENTRY_IDX := by
    intro l b
    show lget (lget init_stack.table_stack l []) b
      DWARF_CFA_STACK_INVALID_ENTRY_IDX = _
    have hts : init_stack.table_stack =
        List.replicate DWARF_CFA_STACK_MAX_STATES
          (List.replicate DWARF_CFA_STACK_BUCKET_COUNT
            DWARF_CFA_STACK_INVALID_ENTRY_IDX) := rfl
    rw [hts, lget_replicate]
    by_cases hl : l < DWARF_CFA_STACK_MAX_STATES
    · rw [if_pos hl, lget_replicate]
      by_cases hb : b < DWARF_CFA_STACK_BUCKET_COUNT
      · rw [if_pos hb]
      · rw [if_neg hb]
    · rw [if_neg hl]
      cases b <;> rfl
  have hchain : ∀ l b, chain_list init_stack DWARF_CFA_STACK_MAX_REGISTERS
      (slot init_stack l b) = some [] := by
    intro l b
    rw [hslot, chain_list_invalid]
  have hchainOf : ∀ l b, chainOf init_stack l b = [] := by
    intro l b
    unfold chainOf
    rw [hchain]
    rfl
  refine ⟨shape_init, ?_, ?_, ?_, ?_, ?_, ?_, ?_, ?_, ?_, ?_⟩
  · rw [hfree]; rfl
  · show ((chain_list init_stack DWARF_CFA_STACK_MAX_REGISTERS
      init_stack.free_list).getD []).Nodup
    rw [hfree]
    simp only [Option.getD_some]
    exact List.nodup_range _
  · show ∀ i ∈ (chain_list init_stack DWARF_CFA_STACK_MAX_REGISTERS
      init_stack.free_list).getD [], i < DWARF_CFA_STACK_MAX_REGISTERS
    rw [hfree]
    simp only [Option.getD_some]
    intro i hi
    exact List.mem_range.mp hi
  · intro l b; rw [hchain]; rfl
  · intro l b; rw [hchainOf]; exact List.nodup_nil
  · intro l b; rw [hchainOf]; intro i hi; cases hi
  · intro l b; rw [hchainOf]; intro i hi; cases hi
  · intro l b; rw [hchainOf]; exact List.nodup_nil
  · intro l b
    rw [hchainOf]
    intro i _ hi
    cases hi
  · intro l b l' b' _
    rw [hchainOf]
    intro i hi
    cases hi

theorem reachable_wf (s : dwarf_cfa_stack) (h : Reachable s) : WF s :=
  reachable_ind wf_init
    (fun fuel op u t hp hst => wf_step fuel op u t hp hst) s h

/- Register presence at the current level. -/

theorem lookupChain_first (s : dwarf_cfa_stack) (r : Nat) :
    ∀ (pre : List Nat) (m : Nat) (post : List Nat),
    (∀ i ∈ pre, (getEntry s i).regnum ≠ r) → (getEntry s m).regnum = r →
    lookupChain s r (pre ++ m :: post) =
      some ((getEntry s m).rule, (getEntry s m).value) := by
  intro pre
  induction pre with
  | nil =>
    intro m post _ hm
    simp [lookupChain, hm]
  | cons x xs ih =>
    intro m post hpre hm
    have hx : (getEntry s x).regnum ≠ r := hpre x (List.mem_cons_self _ _)
    simp only [List.cons_append, lookupChain, if_neg hx]
    exact ih m post (fun i hi => hpre i (List.mem_cons_of_mem _ hi)) hm

theorem lookupChain_none (s : dwarf_cfa_stack) (r : Nat) :
    ∀ (c : List Nat), (∀ i ∈ c, (getEntry s i).regnum ≠ r) →
    lookupChain s r c = none := by
  intro c
  induction c with
  | nil => intro _; rfl
  | cons x xs ih =>
    intro hno
    simp only [lookupChain, if_neg (hno x (List.mem_cons_self _ _))]
    exact ih (fun i hi => hno i (List.mem_cons_of_mem _ hi))

theorem reg_present_iff (s : dwarf_cfa_stack) (w : WF s) (r : Nat) :
    reg_present s r = true ↔
    ∃ i ∈ chainOf s s.table_depth (r % DWARF_CFA_STACK_BUCKET_COUNT),
      (getEntry s i).regnum = r := by
  unfold reg_present
  rw [List.any_eq_true]
  constructor
  · rintro ⟨b, hb, hany⟩
    rw [List.any_eq_true] at hany
    obtain ⟨i, hi, hieq⟩ := hany
    have hieq2 : (getEntry s i).regnum = r := beq_iff_eq.mp hieq
    have hbval : (getEntry s i).regnum % DWARF_CFA_STACK_BUCKET_COUNT = b :=
      w.chain_bucket s.table_depth b i hi
    rw [hieq2] at hbval
    rw [← hbval] at hi
    exact ⟨i, hi, hieq2⟩
  · rintro ⟨i, hi, hieq⟩
    refine ⟨r % DWARF_CFA_STACK_BUCKET_COUNT, ?_, ?_⟩
    · exact List.mem_range.mpr (Nat.mod_lt _ (by decide))
    · rw [List.any_eq_true]
      exact ⟨i, hi, by rw [hieq]; exact beq_self_eq_true r⟩

/-- Claim C4: a completed set_register call fails exactly when the register
has no entry at the current level and the entry pool is exhausted, and a
failing call leaves the state untouched; with the standard fuel the call
always completes on reachable states. -/
theorem c4_set_register_failure : ∀ s, Reachable s → ∀ r ru v,
    ∃ ok t, set_register r ru v 256 s = some (ok, t) ∧
    (ok = false ↔ (reg_present s r = false ∧
      s.free_list = DWARF_CFA_STACK_INVALID_ENTRY_IDX)) ∧
    (ok = false → t = s) := by
  intro s hs r ru v
  have w := reachable_wf s hs
  have hlen := chain_list_length_le
    (wf_chain_spec w s.table_depth (r % DWARF_CFA_STACK_BUCKET_COUNT))
  have htot := set_find_total r
    (chainOf s s.table_depth (r % DWARF_CFA_STACK_BUCKET_COUNT)) 256
    (slot s s.table_depth (r % DWARF_CFA_STACK_BUCKET_COUNT)) none s
    (wf_chain_seg w s.table_depth (r % DWARF_CFA_STACK_BUCKET_COUNT))
    (by
      have hlen2 : (chainOf s s.table_depth
        (r % DWARF_CFA_STACK_BUCKET_COUNT)).length ≤ 100 := hlen
      omega)
  cases hsf : set_find r 256 s
      (slot s s.table_depth (r % DWARF_CFA_STACK_BUCKET_COUNT)) none with
  | none => rw [hsf] at htot; cases htot
  | some res =>
    have hspec := set_find_spec r 256 s
      (slot s s.table_depth (r % DWARF_CFA_STACK_BUCKET_COUNT)) none
      (chainOf s s.table_depth (r % DWARF_CFA_STACK_BUCKET_COUNT)) res
      (wf_chain_seg w s.table_depth (r % DWARF_CFA_STACK_BUCKET_COUNT)) hsf
    cases res with
    | inl m =>
      refine ⟨true, set_update ru v m s, ?_, ?_, ?_⟩
      · simp only [set_register]
        rw [hsf]
      · constructor
        · intro hfalse
          cases hfalse
        · rintro ⟨hpres, _⟩
          rcases hspec with ⟨m2, pre, post, hres, hcs, _, hm⟩ | ⟨q, hres, _, _⟩
          · cases hres
            have : reg_present s r = true := by
              rw [reg_present_iff s w r]
              exact ⟨m, (by rw [hcs]; exact
                List.mem_append_right _ (List.mem_cons_self _ _)), hm⟩
            rw [hpres] at this
            cases this
          · cases hres
      · intro hfalse
        cases hfalse
    | inr parent =>
      rcases hspec with ⟨m2, pre, post, hres, _, _, _⟩ | ⟨q, hres, hno, _⟩
      · cases hres
      · by_cases hf : s.free_list = DWARF_CFA_STACK_INVALID_ENTRY_IDX
        · refine ⟨false, s, ?_, ?_, fun _ => rfl⟩
          · simp only [set_register]
            rw [hsf]
            show (if s.free_list = DWARF_CFA_STACK_INVALID_ENTRY_IDX then
              some (false, s) else some (true, set_alloc r ru v parent s)) = _
            rw [if_pos hf]
          · constructor
            · intro _
              refine ⟨?_, hf⟩
              by_cases hp : reg_present s r = true
              · obtain ⟨i, hi, hieq⟩ := (reg_present_iff s w r).mp hp
                exact absurd hieq (hno i hi)
              · simp only [Bool.not_eq_true] at hp
                exact hp
            · intro _
              rfl
        · refine ⟨true, set_alloc r ru v parent s, ?_, ?_, ?_⟩
          · simp only [set_register]
            rw [hsf]
            show (if s.free_list = DWARF_CFA_STACK_INVALID_ENTRY_IDX then
              some (false, s) else some (true, set_alloc r ru v parent s)) = _
            rw [if_neg hf]
          · constructor
            · intro hfalse
              cases hfalse
            · rintro ⟨_, hfree⟩
              exact absurd hfree hf
          · intro hfalse
            cases hfalse

theorem c4_witness :
    ∃ ok t, set_register 1 0 0 256 init_stack = some (ok, t) ∧
    (ok = false ↔ (reg_present init_stack 1 = false ∧
      init_stack.free_list = DWARF_CFA_STACK_INVALID_ENTRY_IDX)) ∧
    (ok = false → t = init_stack) :=
  c4_set_register_failure init_stack ⟨256, [], rfl⟩ 1 0 0

/- The in-place update path touches only the rule and value fields of one
entry: every chain, the free list, the bucket heads, depth and counts are
untouched. -/

theorem chainOf_set_update (ru : Nat) (v : Int) (m : Nat)
    (s : dwarf_cfa_stack) (l b : Nat) :
    chainOf (set_update ru v m s) l b = chainOf s l b := by
  unfold chainOf
  rw [set_update_slot,
    chain_list_congr (set_update_next ru v m s) DWARF_CFA_STACK_MAX_REGISTERS
      (slot s l b)]

theorem freeOf_set_update (ru : Nat) (v : Int) (m : Nat)
    (s : dwarf_cfa_stack) :
    freeOf (set_update ru v m s) = freeOf s := by
  unfold freeOf
  rw [set_update_free,
    chain_list_congr (set_update_next ru v m s) DWARF_CFA_STACK_MAX_REGISTERS
      s.free_list]

/-- A non-sentinel free-list head is a member of the free list. -/
theorem free_head_mem (s : dwarf_cfa_stack) (w : WF s)
    (hf : s.free_list ≠ DWARF_CFA_STACK_INVALID_ENTRY_IDX) :
    s.free_list ∈ freeOf s := by
  have hseg := wf_free_seg w
  cases hfl : freeOf s with
  | nil => rw [hfl] at hseg; exact absurd hseg hf
  | cons x t =>
    rw [hfl] at hseg
    obtain ⟨hx, _, _⟩ := hseg
    rw [hx]
    exact List.mem_cons_self _ _

/-- After a successful set_register call, some entry in the register's own
bucket chain at the current level carries the register number. -/
theorem set_register_present (r ru : Nat) (v : Int) (s s1 : dwarf_cfa_stack)
    (w : WF s) (h : set_register r ru v 256 s = some (true, s1)) :
    ∃ i ∈ chainOf s1 s1.table_depth (r % DWARF_CFA_STACK_BUCKET_COUNT),
      (getEntry s1 i).regnum = r := by
  rcases set_register_spec r ru v 256 s true s1 w h with
    ⟨m, pre, post, hcs, hpre, hm, _, rfl⟩ | ⟨_, _, hok, _⟩ |
    ⟨par, hno, hf, _, rfl, hpar⟩
  · refine ⟨m, ?_, ?_⟩
    · rw [set_update_depth, chainOf_set_update, hcs]
      exact List.mem_append_right _ (List.mem_cons_self _ _)
    · rw [set_update_regnum]; exact hm
  · exact Bool.noConfusion hok
  · obtain ⟨_, hnew, _, _⟩ := wf_set_alloc r ru v par s w hf hno hpar
    have hflen : s.free_list < s.entries.length := by
      rw [w.shape.entries_len]
      exact w.free_lt _ (free_head_mem s w hf)
    have hp : ∀ p, par = some p → p ≠ s.free_list := by
      intro p hps he
      rcases hpar with ⟨_, hpn⟩ | ⟨_, hlast⟩
      · rw [hps] at hpn; cases hpn
      · rw [hps] at hlast
        have hpmem : p ∈ chainOf s s.table_depth
            (r % DWARF_CFA_STACK_BUCKET_COUNT) := by
          have hdec := List.dropLast_append_getLast? p hlast
          rw [← hdec]
          exact List.mem_append_right _ (List.mem_singleton.mpr rfl)
        exact w.free_chain_disj _ _ s.free_list (free_head_mem s w hf)
          (he ▸ hpmem)
    refine ⟨s.free_list, ?_, ?_⟩
    · rw [set_alloc_depth, hnew]
      exact List.mem_append_right _ (List.mem_cons_self _ _)
    · rw [set_alloc_getEntry_f0 r ru v par s hflen hp]

/-- Claim C5: re-setting a register already present at the current level
reuses its entry in place: the second call succeeds, leaves the register
count and the entire free list unchanged, makes get_register_rule report
the new rule and value, and exactly one entry for the register remains
reachable at the current level (one in its bucket chain, none elsewhere). -/
theorem c5_idempotent_update : ∀ s, Reachable s → ∀ r ru1 v1 ru2 v2 s1,
    ru2 < 256 →
    set_register r ru1 v1 256 s = some (true, s1) →
    ∃ s2, set_register r ru2 v2 256 s1 = some (true, s2) ∧
      get_register_count s2 = get_register_count s1 ∧
      s2.free_list = s1.free_list ∧
      freeOf s2 = freeOf s1 ∧
      get_register_rule r 256 s2 = some (some (ru2, v2)) ∧
      (chainOf s2 s2.table_depth (r % DWARF_CFA_STACK_BUCKET_COUNT)).countP
        (fun i => (getEntry s2 i).regnum == r) = 1 ∧
      (∀ b, b ≠ r % DWARF_CFA_STACK_BUCKET_COUNT →
        (chainOf s2 s2.table_depth b).countP
          (fun i => (getEntry s2 i).regnum == r) = 0) := by
  intro s hs r ru1 v1 ru2 v2 s1 hru2 h1
  have w := reachable_wf s hs
  have w1 : WF s1 := wf_set_register r ru1 v1 256 s true s1 w h1
  obtain ⟨m0, hm0mem, hm0reg⟩ := set_register_present r ru1 v1 s s1 w h1
  have hlen1 := chain_list_length_le
    (wf_chain_spec w1 s1.table_depth (r % DWARF_CFA_STACK_BUCKET_COUNT))
  have htot := set_find_total r
    (chainOf s1 s1.table_depth (r % DWARF_CFA_STACK_BUCKET_COUNT)) 256
    (slot s1 s1.table_depth (r % DWARF_CFA_STACK_BUCKET_COUNT)) none s1
    (wf_chain_seg w1 s1.table_depth (r % DWARF_CFA_STACK_BUCKET_COUNT))
    (by
      have hlen2 : (chainOf s1 s1.table_depth
        (r % DWARF_CFA_STACK_BUCKET_COUNT)).length ≤ 100 := hlen1
      omega)
  cases hsf : set_find r 256 s1
      (slot s1 s1.table_depth (r % DWARF_CFA_STACK_BUCKET_COUNT)) none with
  | none => rw [hsf] at htot; cases htot
  | some res =>
    have hspec := set_find_spec r 256 s1
      (slot s1 s1.table_depth (r % DWARF_CFA_STACK_BUCKET_COUNT)) none
      (chainOf s1 s1.table_depth (r % DWARF_CFA_STACK_BUCKET_COUNT)) res
      (wf_chain_seg w1 s1.table_depth (r % DWARF_CFA_STACK_BUCKET_COUNT)) hsf
    cases res with
    | inr q =>
      rcases hspec with ⟨m2, pre2, post2, hres, _, _, _⟩ | ⟨q2, _, hno, _⟩
      · cases hres
      · exact absurd hm0reg (hno m0 hm0mem)
    | inl m2 =>
      rcases hspec with ⟨m2', pre2, post2, hres, hcs2, hpre2, hm2⟩ |
        ⟨q2, hres, _, _⟩
      · cases hres
        have hm2len : m2 < s1.entries.length := by
          rw [w1.shape.entries_len]
          refine w1.chain_lt s1.table_depth (r % DWARF_CFA_STACK_BUCKET_COUNT)
            m2 ?_
          rw [hcs2]
          exact List.mem_append_right _ (List.mem_cons_self _ _)
        have w2 : WF (set_update ru2 v2 m2 s1) := wf_set_update ru2 v2 m2 s1 w1
        have hchain2 : chainOf (set_update ru2 v2 m2 s1)
            (set_update ru2 v2 m2 s1).table_depth
            (r % DWARF_CFA_STACK_BUCKET_COUNT) = pre2 ++ m2 :: post2 := by
          rw [set_update_depth, chainOf_set_update, hcs2]
        have hpost2 : ∀ i ∈ post2, (getEntry s1 i).regnum ≠ r := by
          intro i hi he
          have hnd := w1.chain_reg_nodup s1.table_depth
            (r % DWARF_CFA_STACK_BUCKET_COUNT)
          rw [hcs2, List.map_append, List.map_cons] at hnd
          have h2 := (List.nodup_append.mp hnd).2.1
          have h3 := (List.nodup_cons.mp h2).1
          refine h3 ?_
          rw [hm2]
          rw [← he]
          exact List.mem_map_of_mem _ hi
        refine ⟨set_update ru2 v2 m2 s1, ?_, rfl, rfl, ?_, ?_, ?_, ?_⟩
        · simp only [set_register]
          rw [hsf]
        · exact freeOf_set_update ru2 v2 m2 s1
        · have hseg2 := wf_chain_seg w2 (set_update ru2 v2 m2 s1).table_depth
            (r % DWARF_CFA_STACK_BUCKET_COUNT)
          have hlen3 := chain_list_length_le (wf_chain_spec w2
            (set_update ru2 v2 m2 s1).table_depth
            (r % DWARF_CFA_STACK_BUCKET_COUNT))
          have hgf := get_find_eq r
            (chainOf (set_update ru2 v2 m2 s1)
              (set_update ru2 v2 m2 s1).table_depth
              (r % DWARF_CFA_STACK_BUCKET_COUNT)) 256
            (slot (set_update ru2 v2 m2 s1)
              (set_update ru2 v2 m2 s1).table_depth
              (r % DWARF_CFA_STACK_BUCKET_COUNT))
            (set_update ru2 v2 m2 s1) hseg2
            (by
              have hlen4 : (chainOf (set_update ru2 v2 m2 s1)
                (set_update ru2 v2 m2 s1).table_depth
                (r % DWARF_CFA_STACK_BUCKET_COUNT)).length ≤ 100 := hlen3
              omega)
          show get_find r 256 (set_update ru2 v2 m2 s1)
            (slot (set_update ru2 v2 m2 s1)
              (set_update ru2 v2 m2 s1).table_depth
              (r % DWARF_CFA_STACK_BUCKET_COUNT)) = some (some (ru2, v2))
          rw [hgf, hchain2]
          rw [lookupChain_first (set_update ru2 v2 m2 s1) r pre2 m2 post2 ?_ ?_]
          · rw [set_update_getEntry_self ru2 v2 m2 s1 hm2len]
            rw [Nat.mod_eq_of_lt hru2]
          · intro i hi
            rw [set_update_regnum]
            exact hpre2 i hi
          · by_cases hmm : m2 = m2
            · rw [set_update_regnum]
              exact hm2
            · exact absurd rfl hmm
        · rw [hchain2, List.countP_append]
          have hz1 : pre2.countP
              (fun i => (getEntry (set_update ru2 v2 m2 s1) i).regnum == r)
              = 0 := by
            rw [List.countP_eq_zero]
            intro i hi hp
            refine hpre2 i hi ?_
            rw [← set_update_regnum ru2 v2 m2 s1 i]
            exact beq_iff_eq.mp hp
          have hz2 : post2.countP
              (fun i => (getEntry (set_update ru2 v2 m2 s1) i).regnum == r)
              = 0 := by
            rw [List.countP_eq_zero]
            intro i hi hp
            refine hpost2 i hi ?_
            rw [← set_update_regnum ru2 v2 m2 s1 i]
            exact beq_iff_eq.mp hp
          rw [hz1, List.countP_cons_of_pos, hz2]
          show ((getEntry (set_update ru2 v2 m2 s1) m2).regnum == r) = true
          rw [set_update_regnum, hm2]
          exact beq_self_eq_true r
        · intro b hb
          rw [List.countP_eq_zero]
          intro i hi hp
          have hreq : (getEntry (set_update ru2 v2 m2 s1) i).regnum = r :=
            beq_iff_eq.mp hp
          have hbval := w2.chain_bucket (set_update ru2 v2 m2 s1).table_depth
            b i hi
          rw [hreq] at hbval
          exact hb hbval.symm
      · cases hres

theorem c5_witness :
    ∃ s2, set_register 1 4 9 256 (set_alloc 1 2 3 none init_stack) =
        some (true, s2) ∧
      get_register_count s2 =
        get_register_count (set_alloc 1 2 3 none init_stack) ∧
      s2.free_list = (set_alloc 1 2 3 none init_stack).free_list ∧
      freeOf s2 = freeOf (set_alloc 1 2 3 none init_stack) ∧
      get_register_rule 1 256 s2 = some (some (4, 9)) ∧
      (chainOf s2 s2.table_depth (1 % DWARF_CFA_STACK_BUCKET_COUNT)).countP
        (fun i => (getEntry s2 i).regnum == 1) = 1 ∧
      (∀ b, b ≠ 1 % DWARF_CFA_STACK_BUCKET_COUNT →
        (chainOf s2 s2.table_depth b).countP
          (fun i => (getEntry s2 i).regnum == 1) = 0) :=
  c5_idempotent_update init_stack ⟨256, [], rfl⟩ 1 2 3 4 9
    (set_alloc 1 2 3 none init_stack) (by decide) (by rfl)

/- push_state and pop_state never touch the entry pool or the free list. -/

theorem push_getEntry (s : dwarf_cfa_stack) (i : Nat) :
    getEntry (push_state s).2 i = getEntry s i := by
  unfold push_state
  by_cases hd : s.table_depth + 1 = DWARF_CFA_STACK_MAX_STATES
  · rw [if_pos hd]
  · rw [if_neg hd]
    rfl

theorem push_free_list (s : dwarf_cfa_stack) :
    (push_state s).2.free_list = s.free_list := by
  unfold push_state
  by_cases hd : s.table_depth + 1 = DWARF_CFA_STACK_MAX_STATES
  · rw [if_pos hd]
  · rw [if_neg hd]

theorem pop_getEntry (s : dwarf_cfa_stack) (i : Nat) :
    getEntry (pop_state s).2 i = getEntry s i := by
  unfold pop_state
  by_cases hd : s.table_depth = 0
  · rw [if_pos hd]
  · rw [if_neg hd]
    rfl

theorem pop_free_list (s : dwarf_cfa_stack) :
    (pop_state s).2.free_list = s.free_list := by
  unfold pop_state
  by_cases hd : s.table_depth = 0
  · rw [if_pos hd]
  · rw [if_neg hd]

theorem freeOf_congr {s t : dwarf_cfa_stack}
    (hn : ∀ i, (getEntry t i).next = (getEntry s i).next)
    (hf : t.free_list = s.free_list) : freeOf t = freeOf s := by
  unfold freeOf
  rw [hf, chain_list_congr hn DWARF_CFA_STACK_MAX_REGISTERS s.free_list]

theorem freeOf_push (s : dwarf_cfa_stack) :
    freeOf (push_state s).2 = freeOf s :=
  freeOf_congr (fun i => by rw [push_getEntry]) (push_free_list s)

theorem freeOf_pop (s : dwarf_cfa_stack) :
    freeOf (pop_state s).2 = freeOf s :=
  freeOf_congr (fun i => by rw [pop_getEntry]) (pop_free_list s)

/-- Claim C8: a successful push_state changes only the depth cursor and the
newly exposed level's bucket row and register count — the depth increments,
every entry record and the free list are untouched, every other level's
bucket heads and count are unchanged, and the new level starts empty; and
no public operation other than remove_register ever adds an entry to the
free list (push, pop and set_register only preserve it or consume its
head), so entries left chained at a deeper slot are never reclaimed by
push_state itself. -/
theorem c8_push_frame_effect : ∀ s, Reachable s →
    ((push_state s).1 = true →
      (push_state s).2.table_depth = s.table_depth + 1 ∧
      (push_state s).2.entries = s.entries ∧
      (push_state s).2.free_list = s.free_list ∧
      freeOf (push_state s).2 = freeOf s ∧
      (∀ l b, l ≠ s.table_depth + 1 →
        slot (push_state s).2 l b = slot s l b) ∧
      (∀ l, l ≠ s.table_depth + 1 →
        countAt (push_state s).2 l = countAt s l) ∧
      (∀ b, slot (push_state s).2 (s.table_depth + 1) b =
        DWARF_CFA_STACK_INVALID_ENTRY_IDX) ∧
      countAt (push_state s).2 (s.table_depth + 1) = 0) ∧
    (∀ fuel op t, (∀ r, op ≠ cfa_op.remove r) → step fuel op s = some t →
      ∀ i ∈ freeOf t, i ∈ freeOf s) := by
  intro s hs
  have w := reachable_wf s hs
  constructor
  · intro hp
    by_cases hd : s.table_depth + 1 = DWARF_CFA_STACK_MAX_STATES
    · unfold push_state at hp
      rw [if_pos hd] at hp
      cases hp
    · have ht : (push_state s).2 =
          { s with
            table_depth := s.table_depth + 1
            register_count := lset s.register_count (s.table_depth + 1) 0
            table_stack :=
              lset s.table_stack (s.table_depth + 1)
                (List.replicate DWARF_CFA_STACK_BUCKET_COUNT
                  DWARF_CFA_STACK_INVALID_ENTRY_IDX) } := by
        unfold push_state
        rw [if_neg hd]
      have hdlt : s.table_depth + 1 < DWARF_CFA_STACK_MAX_STATES := by
        have := w.shape.depth_lt
        omega
      refine ⟨by rw [ht], by rw [ht], by rw [ht], freeOf_push s,
        ?_, ?_, ?_, ?_⟩
      · intro l b hl
        rw [ht]
        show lget (lget (lset s.table_stack (s.table_depth + 1) _) l []) b _ =
          slot s l b
        rw [lget_lset_ne _ _ _ _ _ (fun he => hl he.symm)]
        rfl
      · intro l hl
        rw [ht]
        show lget (lset s.register_count (s.table_depth + 1) 0) l 0 =
          countAt s l
        rw [lget_lset_ne _ _ _ _ _ (fun he => hl he.symm)]
        rfl
      · intro b
        rw [ht]
        show lget (lget (lset s.table_stack (s.table_depth + 1) _)
          (s.table_depth + 1) []) b _ = _
        rw [lget_lset_self _ _ _ _ (by rw [w.shape.table_len]; exact hdlt),
          lget_replicate]
        split
        · rfl
        · rfl
      · rw [ht]
        show lget (lset s.register_count (s.table_depth + 1) 0)
          (s.table_depth + 1) 0 = 0
        rw [lget_lset_self _ _ _ _ (by rw [w.shape.count_len]; exact hdlt)]
  · intro fuel op t hne hstep i hi
    cases op with
    | push =>
      cases hstep
      rw [freeOf_push] at hi
      exact hi
    | pop =>
      cases hstep
      rw [freeOf_pop] at hi
      exact hi
    | set r ru v =>
      simp only [step] at hstep
      cases hsr : set_register r ru v fuel s with
      | none => rw [hsr] at hstep; cases hstep
      | some p =>
        rw [hsr] at hstep
        obtain ⟨ok, u⟩ := p
        simp only [Option.map_some'] at hstep
        cases hstep
        rcases set_register_spec r ru v fuel s ok t w hsr with
          ⟨m, pre, post, _, _, _, _, rfl⟩ | ⟨_, _, _, rfl⟩ |
          ⟨par, hno, hf, _, rfl, hpar⟩
        · rw [freeOf_set_update] at hi
          exact hi
        · exact hi
        · have hdrop := (wf_set_alloc r ru v par s w hf hno hpar).2.2.2
          rw [hdrop] at hi
          exact List.drop_subset 1 (freeOf s) hi
    | remove r => exact absurd rfl (hne r)

theorem c8_witness :
    ((push_state init_stack).1 = true →
      (push_state init_stack).2.table_depth = init_stack.table_depth + 1 ∧
      (push_state init_stack).2.entries = init_stack.entries ∧
      (push_state init_stack).2.free_list = init_stack.free_list ∧
      freeOf (push_state init_stack).2 = freeOf init_stack ∧
      (∀ l b, l ≠ init_stack.table_depth + 1 →
        slot (push_state init_stack).2 l b = slot init_stack l b) ∧
      (∀ l, l ≠ init_stack.table_depth + 1 →
        countAt (push_state init_stack).2 l = countAt init_stack l) ∧
      (∀ b, slot (push_state init_stack).2 (init_stack.table_depth + 1) b =
        DWARF_CFA_STACK_INVALID_ENTRY_IDX) ∧
      countAt (push_state init_stack).2 (init_stack.table_depth + 1) = 0) ∧
    (∀ fuel op t, (∀ r, op ≠ cfa_op.remove r) →
      step fuel op init_stack = some t →
      ∀ i ∈ freeOf t, i ∈ freeOf init_stack) :=
  c8_push_frame_effect init_stack ⟨256, [], rfl⟩

/- Frame reasoning for the save/restore round trip: a mutation performed
while the depth cursor stands strictly above level d cannot touch anything
observable at level d. -/

theorem frameEq_refl (d : Nat) (s : dwarf_cfa_stack) : FrameEq d s s :=
  ⟨fun _ => rfl, rfl, fun _ => rfl, fun _ _ _ => rfl⟩

theorem frameEq_chainOf {d : Nat} {s t : dwarf_cfa_stack} (h : FrameEq d s t)
    (b : Nat) : chainOf s d b = chainOf t d b := by
  unfold chainOf
  rw [h.2.2.1 b]

theorem frameEq_trans {d : Nat} {s t u : dwarf_cfa_stack}
    (h1 : FrameEq d s t) (h2 : FrameEq d t u) : FrameEq d s u := by
  refine ⟨fun b => (h1.1 b).trans (h2.1 b), h1.2.1.trans h2.2.1,
    fun b => (h1.2.2.1 b).trans (h2.2.2.1 b), ?_⟩
  intro b i hi
  have hi2 : i ∈ chainOf t d b := by
    rw [← frameEq_chainOf h1 b]
    exact hi
  exact (h1.2.2.2 b i hi).trans (h2.2.2.2 b i hi2)

/-- FrameEq follows from untouched level-d bucket heads, an untouched
level-d count, and untouched entries at every index some level-d chain
reaches. -/
theorem frameEq_of (d : Nat) (s t : dwarf_cfa_stack) (w : WF s)
    (hslot : ∀ b, slot t d b = slot s d b)
    (hcount : countAt t d = countAt s d)
    (hent : ∀ i, (∃ b, i ∈ chainOf s d b) → getEntry t i = getEntry s i) :
    FrameEq d s t := by
  have hchain : ∀ b, chain_list t DWARF_CFA_STACK_MAX_REGISTERS (slot t d b) =
      some (chainOf s d b) := by
    intro b
    rw [hslot b]
    exact chain_list_frame (wf_chain_spec w d b)
      (fun i hi => by rw [hent i ⟨b, hi⟩])
  refine ⟨fun b => (hslot b).symm, hcount.symm, fun b => ?_, fun b i hi => ?_⟩
  · rw [wf_chain_spec w d b, hchain b]
  · exact (hent i ⟨b, hi⟩).symm

theorem frame_push (d : Nat) (s : dwarf_cfa_stack) (w : WF s)
    (hne : d ≠ s.table_depth + 1) : FrameEq d s (push_state s).2 := by
  by_cases hd : s.table_depth + 1 = DWARF_CFA_STACK_MAX_STATES
  · have ht : (push_state s).2 = s := by
      unfold push_state
      rw [if_pos hd]
    rw [ht]
    exact frameEq_refl d s
  · have ht : (push_state s).2 =
        { s with
          table_depth := s.table_depth + 1
          register_count := lset s.register_count (s.table_depth + 1) 0
          table_stack :=
            lset s.table_stack (s.table_depth + 1)
              (List.replicate DWARF_CFA_STACK_BUCKET_COUNT
                DWARF_CFA_STACK_INVALID_ENTRY_IDX) } := by
      unfold push_state
      rw [if_neg hd]
    refine frameEq_of d s (push_state s).2 w ?_ ?_ ?_
    · intro b
      rw [ht]
      show lget (lget (lset s.table_stack (s.table_depth + 1) _) d []) b _ =
        slot s d b
      rw [lget_lset_ne _ _ _ _ _ (fun he => hne he.symm)]
      rfl
    · rw [ht]
      show lget (lset s.register_count (s.table_depth + 1) 0) d 0 =
        countAt s d
      rw [lget_lset_ne _ _ _ _ _ (fun he => hne he.symm)]
      rfl
    · intro i _
      rw [ht]
      rfl

theorem pop_slot (s : dwarf_cfa_stack) (l b : Nat) :
    slot (pop_state s).2 l b = slot s l b := by
  unfold pop_state
  by_cases hd : s.table_depth = 0
  · rw [if_pos hd]
  · rw [if_neg hd]
    rfl

theorem pop_count (s : dwarf_cfa_stack) (l : Nat) :
    countAt (pop_state s).2 l = countAt s l := by
  unfold pop_state
  by_cases hd : s.table_depth = 0
  · rw [if_pos hd]
  · rw [if_neg hd]
    rfl

theorem frame_pop (d : Nat) (s : dwarf_cfa_stack) (w : WF s) :
    FrameEq d s (pop_state s).2 :=
  frameEq_of d s (pop_state s).2 w (fun b => pop_slot s d b) (pop_count s d)
    (fun i _ => pop_getEntry s i)

theorem frame_set_update (d ru : Nat) (v : Int) (m : Nat)
    (s : dwarf_cfa_stack) (w : WF s) (hm : ∀ b, m ∉ chainOf s d b) :
    FrameEq d s (set_update ru v m s) := by
  refine frameEq_of d s _ w (fun b => set_update_slot ru v m s d b)
    (set_update_count ru v m s d) ?_
  rintro i ⟨b, hib⟩
  refine set_update_getEntry_ne ru v m s i ?_
  intro he
  rw [← he] at hib
  exact hm b hib

theorem frame_set_alloc (d r ru : Nat) (v : Int) (par : Option Nat)
    (s : dwarf_cfa_stack) (w : WF s) (hd : d ≠ s.table_depth)
    (hf : s.free_list ≠ DWARF_CFA_STACK_INVALID_ENTRY_IDX)
    (hpar : ∀ p, par = some p →
      p ∈ chainOf s s.table_depth (r % DWARF_CFA_STACK_BUCKET_COUNT)) :
    FrameEq d s (set_alloc r ru v par s) := by
  refine frameEq_of d s _ w ?_ ?_ ?_
  · intro b
    cases par with
    | none =>
      exact set_alloc_slot_ne_none r ru v s d b (Or.inl (fun he => hd he.symm))
    | some p => exact set_alloc_slot_some r ru v p s d b
  · exact set_alloc_count_ne r ru v par s d (fun he => hd he.symm)
  · rintro i ⟨b, hib⟩
    refine set_alloc_getEntry_other r ru v par s i ?_ ?_
    · intro he
      rw [he] at hib
      exact w.free_chain_disj d b s.free_list (free_head_mem s w hf) hib
    · intro p hp he
      rw [he] at hib
      refine w.chain_chain_disj s.table_depth
        (r % DWARF_CFA_STACK_BUCKET_COUNT) d b ?_ p (hpar p hp) hib
      intro hpair
      injection hpair with h1 _
      exact hd h1.symm

theorem frame_remove_step (d r : Nat) (s : dwarf_cfa_stack) (w : WF s)
    (hd : d ≠ s.table_depth) (pre post : List Nat) (m : Nat)
    (hdec : chainOf s s.table_depth (r % DWARF_CFA_STACK_BUCKET_COUNT) =
      pre ++ m :: post) :
    FrameEq d s (remove_step r s pre.getLast? m) := by
  have hmmem : m ∈ chainOf s s.table_depth
      (r % DWARF_CFA_STACK_BUCKET_COUNT) := by
    rw [hdec]
    exact List.mem_append_right _ (List.mem_cons_self _ _)
  have hpmem : ∀ p, pre.getLast? = some p →
      p ∈ chainOf s s.table_depth (r % DWARF_CFA_STACK_BUCKET_COUNT) := by
    intro p hp
    rw [hdec]
    refine List.mem_append_left _ ?_
    have hdl := List.dropLast_append_getLast? p hp
    rw [← hdl]
    exact List.mem_append_right _ (List.mem_singleton.mpr rfl)
  have hnotd : ∀ j b, j ∈ chainOf s s.table_depth
      (r % DWARF_CFA_STACK_BUCKET_COUNT) → j ∉ chainOf s d b := by
    intro j b hj
    refine w.chain_chain_disj s.table_depth
      (r % DWARF_CFA_STACK_BUCKET_COUNT) d b ?_ j hj
    intro hpair
    injection hpair with h1 _
    exact hd h1.symm
  refine frameEq_of d s _ w ?_ ?_ ?_
  · intro b
    cases hpre : pre.getLast? with
    | none =>
      exact remove_step_slot_ne_none r s m d b (Or.inl (fun he => hd he.symm))
    | some p =>
      exact remove_step_slot_some r s p m d b
  · exact remove_step_count_ne r s pre.getLast? m d (fun he => hd he.symm)
  · rintro i ⟨b, hib⟩
    refine remove_step_getEntry_other r s pre.getLast? m i ?_ ?_
    · intro he
      rw [he] at hib
      exact hnotd m b hmmem hib
    · intro p hp he
      rw [he] at hib
      exact hnotd p b (hpmem p hp) hib

/-- One completed step taken while the depth cursor stands strictly above d
leaves everything observable at level d unchanged. -/
theorem frame_step (d fuel : Nat) (op : cfa_op) (s t : dwarf_cfa_stack)
    (w : WF s) (hd : d < s.table_depth) (h : step fuel op s = some t) :
    FrameEq d s t := by
  cases op with
  | push =>
    simp only [step] at h
    cases h
    exact frame_push d s w (by omega)
  | pop =>
    simp only [step] at h
    cases h
    exact frame_pop d s w
  | set r ru v =>
    simp only [step] at h
    cases hsr : set_register r ru v fuel s with
    | none => rw [hsr] at h; cases h
    | some p =>
      rw [hsr] at h
      obtain ⟨ok, u⟩ := p
      simp only [Option.map_some'] at h
      cases h
      rcases set_register_spec r ru v fuel s ok t w hsr with
        ⟨m, pre, post, hcs, _, _, _, rfl⟩ | ⟨_, _, _, rfl⟩ |
        ⟨par, hno, hf, _, rfl, hpar⟩
      · refine frame_set_update d ru v m s w ?_
        intro b hmb
        have hmmem : m ∈ chainOf s s.table_depth
            (r % DWARF_CFA_STACK_BUCKET_COUNT) := by
          rw [hcs]
          exact List.mem_append_right _ (List.mem_cons_self _ _)
        refine w.chain_chain_disj s.table_depth
          (r % DWARF_CFA_STACK_BUCKET_COUNT) d b ?_ m hmmem hmb
        intro hpair
        injection hpair with h1 _
        omega
      · exact frameEq_refl d t
      · refine frame_set_alloc d r ru v par s w (by omega) hf ?_
        intro p hp
        rcases hpar with ⟨_, hpn⟩ | ⟨_, hlast⟩
        · rw [hp] at hpn; cases hpn
        · rw [hp] at hlast
          have hdl := List.dropLast_append_getLast? p hlast
          rw [← hdl]
          exact List.mem_append_right _ (List.mem_singleton.mpr rfl)
  | remove r =>
    simp only [step] at h
    rcases remove_register_spec r fuel s t w h with
      ⟨_, rfl⟩ | ⟨pre, m, post, hdec, _, _, rfl⟩
    · exact frameEq_refl d t
    · exact frame_remove_step d r s w (by omega) pre post m hdec

theorem run_wf (fuel : Nat) : ∀ (ops : List cfa_op) (s t : dwarf_cfa_stack),
    WF s → run fuel ops s = some t → WF t := by
  intro ops
  induction ops with
  | nil =>
    intro s t w h
    simp only [run] at h
    cases h
    exact w
  | cons op rest ih =>
    intro s t w h
    simp only [run] at h
    cases hstep : step fuel op s with
    | none => rw [hstep] at h; cases h
    | some u =>
      rw [hstep] at h
      exact ih u t (wf_step fuel op s u w hstep) h

/-- A completed run whose every intermediate state keeps its depth strictly
above d leaves everything observable at level d unchanged. -/
theorem run_frame (d fuel : Nat) :
    ∀ (ops : List cfa_op) (s t : dwarf_cfa_stack), WF s →
    d < s.table_depth → stays_above d fuel ops s = true →
    run fuel ops s = some t → FrameEq d s t := by
  intro ops
  induction ops with
  | nil =>
    intro s t _ _ _ h
    simp only [run] at h
    cases h
    exact frameEq_refl d s
  | cons op rest ih =>
    intro s t w hd hst hrun
    simp only [run] at hrun
    cases hstep : step fuel op s with
    | none => rw [hstep] at hrun; cases hrun
    | some u =>
      rw [hstep] at hrun
      have hst2 : (decide (d < u.table_depth) &&
          stays_above d fuel rest u) = true := by
        unfold stays_above at hst
        rw [hstep] at hst
        exact hst
      have hparts := (Bool.and_eq_true _ _).mp hst2
      have hdu : d < u.table_depth := of_decide_eq_true hparts.1
      exact frameEq_trans (frame_step d fuel op s u w hd hstep)
        (ih u t (wf_step fuel op s u w hstep) hdu hparts.2 hrun)

theorem push_depth_success (s : dwarf_cfa_stack)
    (h : (push_state s).1 = true) :
    (push_state s).2.table_depth = s.table_depth + 1 := by
  unfold push_state at h ⊢
  by_cases hd : s.table_depth + 1 = DWARF_CFA_STACK_MAX_STATES
  · rw [if_pos hd] at h
    cases h
  · rw [if_neg hd]

/-- Claim C1: save/restore round trip.  From a reachable state, after a
successful push_state, any completed sequence of operations that keeps the
depth strictly above the saved level, followed by the matching pop_state
(the run ends at depth d+1 and the pop returns to d), restores every
observable of the saved level: the pop succeeds and both the register
count and every register's get_register_rule answer are exactly as they
were immediately before the push. -/
theorem c1_save_restore : ∀ s, Reachable s → ∀ fuel ops t2,
    (push_state s).1 = true →
    stays_above s.table_depth fuel ops (push_state s).2 = true →
    run fuel ops (push_state s).2 = some t2 →
    t2.table_depth = s.table_depth + 1 →
    (pop_state t2).1 = true ∧
    get_register_count (pop_state t2).2 = get_register_count s ∧
    (∀ r, get_register_rule r 256 (pop_state t2).2 =
      get_register_rule r 256 s) := by
  intro s hs fuel ops t2 hp hst hrun ht2d
  have w := reachable_wf s hs
  have w1 : WF (push_state s).2 := wf_push s w
  have hd1 : s.table_depth < (push_state s).2.table_depth := by
    rw [push_depth_success s hp]
    omega
  have hfe1 : FrameEq s.table_depth s (push_state s).2 :=
    frame_push s.table_depth s w (by omega)
  have hfe2 : FrameEq s.table_depth (push_state s).2 t2 :=
    run_frame s.table_depth fuel ops (push_state s).2 t2 w1 hd1 hst hrun
  have w2 : WF t2 := run_wf fuel ops (push_state s).2 t2 w1 hrun
  have hfe3 : FrameEq s.table_depth t2 (pop_state t2).2 :=
    frame_pop s.table_depth t2 w2
  have hfe : FrameEq s.table_depth s (pop_state t2).2 :=
    frameEq_trans (frameEq_trans hfe1 hfe2) hfe3
  have w3 : WF (pop_state t2).2 := wf_pop t2 w2
  have ht2ne : t2.table_depth ≠ 0 := by omega
  have hpop : pop_state t2 = (true, { t2 with table_depth :=
      t2.table_depth - 1 }) := by
    unfold pop_state
    rw [if_neg ht2ne]
  have ht3d : (pop_state t2).2.table_depth = s.table_depth := by
    rw [hpop]
    show t2.table_depth - 1 = s.table_depth
    omega
  refine ⟨by rw [hpop], ?_, ?_⟩
  · show countAt (pop_state t2).2 (pop_state t2).2.table_depth =
      countAt s s.table_depth
    rw [ht3d]
    exact hfe.2.1.symm
  · intro r
    show get_find r 256 (pop_state t2).2 (slot (pop_state t2).2
        (pop_state t2).2.table_depth (r % DWARF_CFA_STACK_BUCKET_COUNT)) =
      get_find r 256 s (slot s s.table_depth
        (r % DWARF_CFA_STACK_BUCKET_COUNT))
    rw [ht3d]
    have hseg3 := wf_chain_seg w3 s.table_depth
      (r % DWARF_CFA_STACK_BUCKET_COUNT)
    have hlen3 := chain_list_length_le (wf_chain_spec w3 s.table_depth
      (r % DWARF_CFA_STACK_BUCKET_COUNT))
    have hsegs := wf_chain_seg w s.table_depth
      (r % DWARF_CFA_STACK_BUCKET_COUNT)
    have hlens := chain_list_length_le (wf_chain_spec w s.table_depth
      (r % DWARF_CFA_STACK_BUCKET_COUNT))
    rw [get_find_eq r (chainOf (pop_state t2).2 s.table_depth
        (r % DWARF_CFA_STACK_BUCKET_COUNT)) 256 _ _ hseg3
      (by
        have hb : (chainOf (pop_state t2).2 s.table_depth
          (r % DWARF_CFA_STACK_BUCKET_COUNT)).length ≤ 100 := hlen3
        omega)]
    rw [get_find_eq r (chainOf s s.table_depth
        (r % DWARF_CFA_STACK_BUCKET_COUNT)) 256 _ _ hsegs
      (by
        have hb : (chainOf s s.table_depth
          (r % DWARF_CFA_STACK_BUCKET_COUNT)).length ≤ 100 := hlens
        omega)]
    have hceq : chainOf s s.table_depth (r % DWARF_CFA_STACK_BUCKET_COUNT) =
        chainOf (pop_state t2).2 s.table_depth
          (r % DWARF_CFA_STACK_BUCKET_COUNT) :=
      frameEq_chainOf hfe (r % DWARF_CFA_STACK_BUCKET_COUNT)
    rw [← hceq]
    rw [lookupChain_congr r
      (chainOf s s.table_depth (r % DWARF_CFA_STACK_BUCKET_COUNT))
      (fun i hi =>
        (hfe.2.2.2 (r % DWARF_CFA_STACK_BUCKET_COUNT) i hi).symm)]

theorem c1_witness :
    (pop_state (set_alloc 1 3 7 none (push_state init_stack).2)).1 = true ∧
    get_register_count
        (pop_state (set_alloc 1 3 7 none (push_state init_stack).2)).2 =
      get_register_count init_stack ∧
    (∀ r, get_register_rule r 256
        (pop_state (set_alloc 1 3 7 none (push_state init_stack).2)).2 =
      get_register_rule r 256 init_stack) :=
  c1_save_restore init_stack ⟨256, [], rfl⟩ 256 [cfa_op.set 1 3 7]
    (set_alloc 1 3 7 none (push_state init_stack).2) (by rfl) (by decide)
    (by rfl) (by rfl)

/- Ownership counting for the pool-partition analysis. -/

theorem chainOwn_zero (s : dwarf_cfa_stack) (i : Nat) :
    ∀ L : List (Nat × Nat), (∀ p ∈ L, i ∉ chainOf s p.1 p.2) →
    chainOwn s i L = 0 := by
  intro L
  induction L with
  | nil => intro _; rfl
  | cons p rest ih =>
    intro hno
    show (if i ∈ chainOf s p.1 p.2 then 1 else 0) + chainOwn s i rest = 0
    rw [if_neg (hno p (List.mem_cons_self _ _)),
      ih (fun q hq => hno q (List.mem_cons_of_mem _ hq))]

theorem chainOwn_le_one (s : dwarf_cfa_stack) (i : Nat) :
    ∀ L : List (Nat × Nat), L.Nodup →
    (∀ p ∈ L, ∀ q ∈ L, p ≠ q →
      i ∈ chainOf s p.1 p.2 → i ∉ chainOf s q.1 q.2) →
    chainOwn s i L ≤ 1 := by
  intro L
  induction L with
  | nil =>
    intro _ _
    exact Nat.zero_le 1
  | cons p rest ih =>
    intro hnd hdisj
    have hpnotin : p ∉ rest := (List.nodup_cons.mp hnd).1
    show (if i ∈ chainOf s p.1 p.2 then 1 else 0) + chainOwn s i rest ≤ 1
    by_cases hp : i ∈ chainOf s p.1 p.2
    · rw [if_pos hp]
      have hz : chainOwn s i rest = 0 := by
        refine chainOwn_zero s i rest ?_
        intro q hq
        refine hdisj p (List.mem_cons_self _ _) q
          (List.mem_cons_of_mem _ hq) ?_ hp
        intro he
        rw [he] at hpnotin
        exact hpnotin hq
      omega
    · rw [if_neg hp]
      have hle := ih (List.nodup_cons.mp hnd).2
        (fun a ha b hb hab => hdisj a (List.mem_cons_of_mem _ ha) b
          (List.mem_cons_of_mem _ hb) hab)
      omega

set_option maxRecDepth 8000 in
/-- Claim C3, counterexample: the state reached by push; set 1; pop; push
leaves pool entry 0 with no owner at all — it is neither on the free list
nor reachable from any bucket chain of any level, refuting the claimed
exactly-one-owner partition (the pop abandons the chained entry and the
second push clears the only bucket head that pointed to it). -/
theorem c3_counterexample :
    Reachable leak_state ∧ ownCount leak_state 0 = 0 :=
  ⟨⟨256, leak_ops, by decide⟩, by decide⟩

/-- Claim C3 (amended): every pool index has at most one owner in every
reachable state — the free list and the bucket chains of all levels are
pairwise disjoint — but entries can be orphaned (zero owners), so the
claimed exactly-one partition weakens to at-most-one. -/
theorem c3_at_most_one_owner : ∀ s, Reachable s → ∀ i,
    ownCount s i ≤ 1 := by
  intro s hs i
  have w := reachable_wf s hs
  unfold ownCount
  by_cases hf : i ∈ freeOf s
  · rw [if_pos hf,
      chainOwn_zero s i allLB (fun p _ => w.free_chain_disj p.1 p.2 i hf)]
  · rw [if_neg hf]
    have hnd : allLB.Nodup := by decide
    have hle := chainOwn_le_one s i allLB hnd ?_
    · omega
    · intro p _ q _ hpq hip
      refine w.chain_chain_disj p.1 p.2 q.1 q.2 ?_ i hip
      intro he
      injection he with h1 h2
      exact hpq (Prod.ext_iff.mpr ⟨h1, h2⟩)

theorem c3_witness : ownCount init_stack 0 ≤ 1 :=
  c3_at_most_one_owner init_stack ⟨256, [], rfl⟩ 0

/- General facts about lflat and per-bucket concatenations. -/

theorem mem_lflat {α β : Type} (f : β → List α) :
    ∀ (L : List β) (x : α), x ∈ lflat (L.map f) ↔ ∃ b ∈ L, x ∈ f b := by
  intro L
  induction L with
  | nil =>
    intro x
    constructor
    · intro h; exact absurd h (List.not_mem_nil x)
    · rintro ⟨b, hb, _⟩; exact absurd hb (List.not_mem_nil b)
  | cons b L' ih =>
    intro x
    show x ∈ f b ++ lflat (L'.map f) ↔ _
    rw [List.mem_append, ih x]
    constructor
    · rintro (h | ⟨b', hb', hx⟩)
      · exact ⟨b, List.mem_cons_self _ _, h⟩
      · exact ⟨b', List.mem_cons_of_mem _ hb', hx⟩
    · rintro ⟨b', hb', hx⟩
      rcases List.mem_cons.mp hb' with rfl | hb'
      · exact Or.inl hx
      · exact Or.inr ⟨b', hb', hx⟩

theorem lflat_map_map {α β γ : Type} (g : β → List α) (f : α → γ) :
    ∀ L : List β,
    lflat (L.map (fun b => (g b).map f)) = (lflat (L.map g)).map f := by
  intro L
  induction L with
  | nil => rfl
  | cons b L' ih =>
    show (g b).map f ++ lflat (L'.map (fun b => (g b).map f)) =
      (g b ++ lflat (L'.map g)).map f
    rw [List.map_append, ih]

theorem triplesFrom_eq_map (s : dwarf_cfa_stack) (bs : List Nat) :
    triplesFrom s bs = (catChains s bs).map (entryTriple s) :=
  lflat_map_map (fun b => chainOf s s.table_depth b) (entryTriple s) bs

theorem catChains_nodup (s : dwarf_cfa_stack) (w : WF s) :
    ∀ bs : List Nat, bs.Nodup → (catChains s bs).Nodup := by
  intro bs
  induction bs with
  | nil => intro _; exact List.nodup_nil
  | cons b bs' ih =>
    intro hnd
    show (chainOf s s.table_depth b ++ catChains s bs').Nodup
    refine (w.chain_nodup s.table_depth b).append
      (ih (List.nodup_cons.mp hnd).2) ?_
    intro i hib hibs
    obtain ⟨b', hb', hib'⟩ := (mem_lflat _ bs' i).mp hibs
    refine w.chain_chain_disj s.table_depth b s.table_depth b' ?_ i hib hib'
    intro he
    injection he with _ h2
    rw [h2] at hnd
    exact (List.nodup_cons.mp hnd).1 hb'

theorem catChains_regnum_nodup (s : dwarf_cfa_stack) (w : WF s) :
    ∀ bs : List Nat, bs.Nodup →
    ((catChains s bs).map (fun i => (getEntry s i).regnum)).Nodup := by
  intro bs
  induction bs with
  | nil => intro _; exact List.nodup_nil
  | cons b bs' ih =>
    intro hnd
    show ((chainOf s s.table_depth b ++ catChains s bs').map
      (fun i => (getEntry s i).regnum)).Nodup
    rw [List.map_append]
    refine (w.chain_reg_nodup s.table_depth b).append
      (ih (List.nodup_cons.mp hnd).2) ?_
    intro x hxb hxbs
    obtain ⟨i, hib, hix⟩ := List.mem_map.mp hxb
    obtain ⟨j, hjbs, hjx⟩ := List.mem_map.mp hxbs
    obtain ⟨b', hb', hjb'⟩ := (mem_lflat _ bs' j).mp hjbs
    have h1 : x % DWARF_CFA_STACK_BUCKET_COUNT = b := by
      rw [← hix]
      exact w.chain_bucket s.table_depth b i hib
    have h2 : x % DWARF_CFA_STACK_BUCKET_COUNT = b' := by
      rw [← hjx]
      exact w.chain_bucket s.table_depth b' j hjb'
    rw [h1] at h2
    rw [h2] at hnd
    exact (List.nodup_cons.mp hnd).1 hb'

/- Characterization of lookupChain successes. -/

theorem lookupChain_mem (s : dwarf_cfa_stack) (r : Nat) :
    ∀ (c : List Nat) (p : Nat × Int), lookupChain s r c = some p →
    ∃ i ∈ c, (getEntry s i).regnum = r ∧
      p = ((getEntry s i).rule, (getEntry s i).value) := by
  intro c
  induction c with
  | nil => intro p h; cases h
  | cons x t ih =>
    intro p h
    by_cases hx : (getEntry s x).regnum = r
    · rw [lookupChain, if_pos hx] at h
      injection h with h
      exact ⟨x, List.mem_cons_self _ _, hx, h.symm⟩
    · rw [lookupChain, if_neg hx] at h
      obtain ⟨i, hi, h1, h2⟩ := ih p h
      exact ⟨i, List.mem_cons_of_mem _ hi, h1, h2⟩

theorem lookupChain_of_mem (s : dwarf_cfa_stack) (r : Nat) :
    ∀ (c : List Nat) (i : Nat),
    ((c.map (fun j => (getEntry s j).regnum)).Nodup) → i ∈ c →
    (getEntry s i).regnum = r →
    lookupChain s r c =
      some ((getEntry s i).rule, (getEntry s i).value) := by
  intro c
  induction c with
  | nil => intro i _ hi; exact absurd hi (List.not_mem_nil i)
  | cons x t ih =>
    intro i hnd hi hir
    rw [List.map_cons] at hnd
    by_cases hx : (getEntry s x).regnum = r
    · rw [lookupChain, if_pos hx]
      rcases List.mem_cons.mp hi with rfl | hit
      · rfl
      · exfalso
        refine (List.nodup_cons.mp hnd).1 ?_
        rw [hx, ← hir]
        exact List.mem_map_of_mem _ hit
    · rw [lookupChain, if_neg hx]
      rcases List.mem_cons.mp hi with rfl | hit
      · exact absurd hir hx
      · exact ih i (List.nodup_cons.mp hnd).2 hit hir

/-- The bucket scan (lines 258-263) lands on the first non-empty bucket at
or after b, whose chain head it reports; if every remaining bucket is
empty it stops at the bucket count with no head.  In either case the
triples remaining from bucket b onward decompose accordingly. -/
theorem find_bucket_spec (s : dwarf_cfa_stack) (w : WF s) :
    ∀ (n b : Nat), b + n = DWARF_CFA_STACK_BUCKET_COUNT →
    (find_bucket s b = (DWARF_CFA_STACK_BUCKET_COUNT, none) ∧
      triplesFrom s (List.range' b n) = []) ∨
    (∃ b2 cs, b ≤ b2 ∧ b2 < DWARF_CFA_STACK_BUCKET_COUNT ∧
      find_bucket s b = (b2, some (slot s s.table_depth b2)) ∧
      chainOf s s.table_depth b2 = slot s s.table_depth b2 :: cs ∧
      triplesFrom s (List.range' b n) =
        entryTriple s (slot s s.table_depth b2) ::
          (cs.map (entryTriple s) ++
            triplesFrom s (List.range' (b2 + 1)
              (DWARF_CFA_STACK_BUCKET_COUNT - (b2 + 1))))) := by
  intro n
  induction n with
  | zero =>
    intro b hb
    have hb14 : b = DWARF_CFA_STACK_BUCKET_COUNT := by omega
    subst hb14
    left
    constructor
    · rw [find_bucket, dif_neg (by omega)]
    · rfl
  | succ n ih =>
    intro b hb
    have hblt : b < DWARF_CFA_STACK_BUCKET_COUNT := by omega
    by_cases hsl : slot s s.table_depth b = DWARF_CFA_STACK_INVALID_ENTRY_IDX
    · have hchain : chainOf s s.table_depth b = [] := by
        unfold chainOf
        rw [hsl, chain_list_invalid]
        rfl
      have hfb : find_bucket s b = find_bucket s (b + 1) := by
        rw [find_bucket, dif_pos hblt, if_neg (not_not_intro hsl)]
      have htr : triplesFrom s (List.range' b (n + 1)) =
          triplesFrom s (List.range' (b + 1) n) := by
        rw [List.range'_succ]
        show (chainOf s s.table_depth b).map (entryTriple s) ++
          triplesFrom s (List.range' (b + 1) n) = _
        rw [hchain]
        rfl
      rcases ih (b + 1) (by omega) with ⟨h1, h2⟩ |
        ⟨b2, cs, hle, hlt, h1, h2, h3⟩
      · left
        exact ⟨by rw [hfb]; exact h1, by rw [htr]; exact h2⟩
      · right
        exact ⟨b2, cs, by omega, hlt, by rw [hfb]; exact h1, h2,
          by rw [htr]; exact h3⟩
    · right
      have hseg := wf_chain_seg w s.table_depth b
      cases hch : chainOf s s.table_depth b with
      | nil =>
        rw [hch] at hseg
        exact absurd hseg hsl
      | cons x cs =>
        rw [hch] at hseg
        obtain ⟨hx, hxne, hseg2⟩ := hseg
        refine ⟨b, cs, Nat.le_refl b, hblt, ?_, ?_, ?_⟩
        · rw [find_bucket, dif_pos hblt, if_pos hsl]
        · rw [hch, hx]
        · rw [List.range'_succ]
          show (chainOf s s.table_depth b).map (entryTriple s) ++
            triplesFrom s (List.range' (b + 1) n) = _
          have hn : DWARF_CFA_STACK_BUCKET_COUNT - (b + 1) = n := by omega
          rw [hch, hx, hn]
          rfl

/- Reduction lemmas for one iterator step (lines 243-276). -/

theorem iter_next_walk (s : dwarf_cfa_stack) (b i : Nat)
    (hi : i ≠ DWARF_CFA_STACK_INVALID_ENTRY_IDX)
    (hn : (getEntry s i).next ≠ DWARF_CFA_STACK_INVALID_ENTRY_IDX) :
    iter_next s ⟨b, i⟩ =
      (some (entryTriple s (getEntry s i).next),
        ⟨b, (getEntry s i).next⟩) := by
  unfold iter_next
  simp only [hi, hn, ite_false, ite_true, if_neg, if_pos, ne_eq,
    not_false_eq_true, entryTriple]

theorem iter_next_endchain (s : dwarf_cfa_stack) (b i : Nat)
    (hi : i ≠ DWARF_CFA_STACK_INVALID_ENTRY_IDX)
    (hn : (getEntry s i).next = DWARF_CFA_STACK_INVALID_ENTRY_IDX) :
    iter_next s ⟨b, i⟩ =
      match find_bucket s (b + 1) with
      | (b2, none) => (none, ⟨b2, DWARF_CFA_STACK_INVALID_ENTRY_IDX⟩)
      | (b2, some hd) => (some (entryTriple s hd), ⟨b2, hd⟩) := by
  unfold iter_next
  simp only [hi, hn, ite_false, ite_true, if_neg, if_pos, ne_eq,
    not_false_eq_true, entryTriple]

theorem iter_next_scan (s : dwarf_cfa_stack) (b : Nat) :
    iter_next s ⟨b, DWARF_CFA_STACK_INVALID_ENTRY_IDX⟩ =
      match find_bucket s b with
      | (b2, none) => (none, ⟨b2, DWARF_CFA_STACK_INVALID_ENTRY_IDX⟩)
      | (b2, some hd) => (some (entryTriple s hd), ⟨b2, hd⟩) := by
  unfold iter_next
  simp only [ite_false, ite_true, if_neg, if_pos, ne_eq, not_true_eq_false,
    not_false_eq_true, entryTriple]

theorem iter_next_exhausted (s : dwarf_cfa_stack) :
    iter_next s ⟨DWARF_CFA_STACK_BUCKET_COUNT,
        DWARF_CFA_STACK_INVALID_ENTRY_IDX⟩ =
      (none, ⟨DWARF_CFA_STACK_BUCKET_COUNT,
        DWARF_CFA_STACK_INVALID_ENTRY_IDX⟩) := by
  rw [iter_next_scan, find_bucket, dif_neg (by omega)]

/-- Driving the iterator from a position standing on entry i of bucket b
(everything up to and including i already emitted) yields the rest of i's
chain and then every remaining bucket, ending exhausted. -/
theorem iter_run_pos (s : dwarf_cfa_stack) (w : WF s) :
    ∀ (fuel : Nat) (cs : List Nat) (b i : Nat),
    b < DWARF_CFA_STACK_BUCKET_COUNT →
    i ≠ DWARF_CFA_STACK_INVALID_ENTRY_IDX →
    chain_seg s (getEntry s i).next DWARF_CFA_STACK_INVALID_ENTRY_IDX cs →
    cs.length + (triplesFrom s (List.range' (b + 1)
      (DWARF_CFA_STACK_BUCKET_COUNT - (b + 1)))).length < fuel →
    iter_run s fuel ⟨b, i⟩ =
      (cs.map (entryTriple s) ++ triplesFrom s (List.range' (b + 1)
          (DWARF_CFA_STACK_BUCKET_COUNT - (b + 1))),
        ⟨DWARF_CFA_STACK_BUCKET_COUNT,
          DWARF_CFA_STACK_INVALID_ENTRY_IDX⟩) := by
  intro fuel
  induction fuel with
  | zero =>
    intro cs b i _ _ _ hlen
    omega
  | succ f ih =>
    intro cs b i hb hi hseg hlen
    cases cs with
    | cons c cs' =>
      obtain ⟨hc, hcne, hseg2⟩ := hseg
      have hnext : iter_next s ⟨b, i⟩ = (some (entryTriple s c), ⟨b, c⟩) := by
        rw [iter_next_walk s b i hi (by rw [hc]; exact hcne), hc]
      rw [iter_run, hnext]
      show (entryTriple s c :: (iter_run s f ⟨b, c⟩).1,
        (iter_run s f ⟨b, c⟩).2) = _
      rw [ih cs' b c hb hcne hseg2
        (by
          have hl := hlen
          rw [List.length_cons] at hl
          omega)]
      rfl
    | nil =>
      have hninv : (getEntry s i).next =
          DWARF_CFA_STACK_INVALID_ENTRY_IDX := hseg
      rcases find_bucket_spec s w (DWARF_CFA_STACK_BUCKET_COUNT - (b + 1))
          (b + 1) (by omega) with
        ⟨hfb, htr⟩ | ⟨b2, cs2, hle, hlt, hfb, hch, htr⟩
      · have hnext : iter_next s ⟨b, i⟩ =
            (none, ⟨DWARF_CFA_STACK_BUCKET_COUNT,
              DWARF_CFA_STACK_INVALID_ENTRY_IDX⟩) := by
          rw [iter_next_endchain s b i hi hninv, hfb]
        rw [iter_run, hnext, htr]
        rfl
      · have hsegb2 := wf_chain_seg w s.table_depth b2
        rw [hch] at hsegb2
        obtain ⟨_, hxne, hseg2⟩ := hsegb2
        have hnext : iter_next s ⟨b, i⟩ =
            (some (entryTriple s (slot s s.table_depth b2)),
              ⟨b2, slot s s.table_depth b2⟩) := by
          rw [iter_next_endchain s b i hi hninv, hfb]
        rw [iter_run, hnext]
        show (entryTriple s (slot s s.table_depth b2) ::
            (iter_run s f ⟨b2, slot s s.table_depth b2⟩).1,
          (iter_run s f ⟨b2, slot s s.table_depth b2⟩).2) = _
        rw [ih cs2 b2 (slot s s.table_depth b2) hlt hxne hseg2
          (by
            have hl := hlen
            rw [htr, List.length_cons, List.length_append,
              List.length_map] at hl
            omega)]
        rw [htr]
        rfl

/-- A freshly constructed iterator, driven with enough fuel, emits exactly
the level's triples in bucket order and ends exhausted. -/
theorem iter_run_init (s : dwarf_cfa_stack) (w : WF s) (fuel : Nat)
    (hfuel : (allTriples s).length < fuel) :
    iter_run s fuel iter_init =
      (allTriples s, ⟨DWARF_CFA_STACK_BUCKET_COUNT,
        DWARF_CFA_STACK_INVALID_ENTRY_IDX⟩) := by
  have hall : allTriples s =
      triplesFrom s (List.range' 0 DWARF_CFA_STACK_BUCKET_COUNT) := by
    unfold allTriples triplesFrom
    rw [List.range_eq_range']
  cases fuel with
  | zero => omega
  | succ f =>
    rcases find_bucket_spec s w DWARF_CFA_STACK_BUCKET_COUNT 0 (by omega) with
      ⟨hfb, htr⟩ | ⟨b2, cs2, _, hlt, hfb, hch, htr⟩
    · have hnext : iter_next s iter_init =
          (none, ⟨DWARF_CFA_STACK_BUCKET_COUNT,
            DWARF_CFA_STACK_INVALID_ENTRY_IDX⟩) := by
        rw [show iter_init = (⟨0, DWARF_CFA_STACK_INVALID_ENTRY_IDX⟩ :
          dwarf_cfa_stack_iterator) from rfl, iter_next_scan, hfb]
      rw [iter_run, hnext, hall, htr]
    · have hsegb2 := wf_chain_seg w s.table_depth b2
      rw [hch] at hsegb2
      obtain ⟨_, hxne, hseg2⟩ := hsegb2
      have hnext : iter_next s iter_init =
          (some (entryTriple s (slot s s.table_depth b2)),
            ⟨b2, slot s s.table_depth b2⟩) := by
        rw [show iter_init = (⟨0, DWARF_CFA_STACK_INVALID_ENTRY_IDX⟩ :
          dwarf_cfa_stack_iterator) from rfl, iter_next_scan, hfb]
      rw [iter_run, hnext]
      show (entryTriple s (slot s s.table_depth b2) ::
          (iter_run s f ⟨b2, slot s s.table_depth b2⟩).1,
        (iter_run s f ⟨b2, slot s s.table_depth b2⟩).2) = _
      rw [iter_run_pos s w f cs2 b2 (slot s s.table_depth b2) hlt hxne hseg2
        (by
          have hl := hfuel
          rw [hall, htr, List.length_cons, List.length_append,
            List.length_map] at hl
          omega)]
      rw [hall, htr]

theorem allTriples_eq_map (s : dwarf_cfa_stack) :
    allTriples s = (catChains s
      (List.range DWARF_CFA_STACK_BUCKET_COUNT)).map (entryTriple s) :=
  triplesFrom_eq_map s (List.range DWARF_CFA_STACK_BUCKET_COUNT)

theorem get_register_rule_eq (s : dwarf_cfa_stack) (w : WF s) (r : Nat) :
    get_register_rule r 256 s =
      some (lookupChain s r (chainOf s s.table_depth
        (r % DWARF_CFA_STACK_BUCKET_COUNT))) := by
  show get_find r 256 s
    (slot s s.table_depth (r % DWARF_CFA_STACK_BUCKET_COUNT)) = _
  refine get_find_eq r _ 256 _ s
    (wf_chain_seg w s.table_depth (r % DWARF_CFA_STACK_BUCKET_COUNT)) ?_
  have hl := chain_list_length_le (wf_chain_spec w s.table_depth
    (r % DWARF_CFA_STACK_BUCKET_COUNT))
  have hl2 : (chainOf s s.table_depth
    (r % DWARF_CFA_STACK_BUCKET_COUNT)).length ≤ 100 := hl
  omega

/-- Claim C6: on every reachable state, a fresh iterator driven without
interleaved mutation emits, with the standard fuel, exactly the level's
(regnum, rule, value) triples in ascending bucket order and chain order
within a bucket; a triple is emitted exactly when get_register_rule
succeeds for its register, each register appears exactly once, and once
exhaustion is reported the iterator keeps reporting it from the same
state. -/
theorem c6_iterator_completeness : ∀ s, Reachable s →
    (iter_run s 256 iter_init).1 = allTriples s ∧
    (∀ r ru v, ((r, ru, v) ∈ allTriples s ↔
      get_register_rule r 256 s = some (some (ru, v)))) ∧
    ((allTriples s).map (fun tr => tr.1)).Nodup ∧
    iter_next s (iter_run s 256 iter_init).2 =
      (none, (iter_run s 256 iter_init).2) := by
  intro s hs
  have w := reachable_wf s hs
  have hnodup_cat : (catChains s
      (List.range DWARF_CFA_STACK_BUCKET_COUNT)).Nodup :=
    catChains_nodup s w _ (List.nodup_range DWARF_CFA_STACK_BUCKET_COUNT)
  have hlt_cat : ∀ i ∈ catChains s (List.range DWARF_CFA_STACK_BUCKET_COUNT),
      i < DWARF_CFA_STACK_MAX_REGISTERS := by
    intro i hi
    obtain ⟨b, _, hib⟩ := (mem_lflat _ _ i).mp hi
    exact w.chain_lt s.table_depth b i hib
  have hlen_all : (allTriples s).length ≤ 100 := by
    rw [allTriples_eq_map, List.length_map]
    exact nodup_lt_length_le hnodup_cat hlt_cat
  have hrun := iter_run_init s w 256 (by omega)
  refine ⟨by rw [hrun], ?_, ?_, by rw [hrun]; exact iter_next_exhausted s⟩
  · intro r ru v
    constructor
    · intro hmem
      rw [allTriples_eq_map] at hmem
      obtain ⟨i, hi, htrip⟩ := List.mem_map.mp hmem
      obtain ⟨b, _, hib⟩ := (mem_lflat _ _ i).mp hi
      unfold entryTriple at htrip
      injection htrip with h1 h23
      injection h23 with h2 h3
      have hbeq : b = r % DWARF_CFA_STACK_BUCKET_COUNT := by
        have := w.chain_bucket s.table_depth b i hib
        rw [h1] at this
        omega
      rw [hbeq] at hib
      rw [get_register_rule_eq s w r,
        lookupChain_of_mem s r _ i
          (w.chain_reg_nodup s.table_depth (r % DWARF_CFA_STACK_BUCKET_COUNT))
          hib h1, h2, h3]
    · intro hget
      rw [get_register_rule_eq s w r] at hget
      injection hget with hget
      obtain ⟨i, hi, hir, hp⟩ := lookupChain_mem s r _ _ hget
      injection hp with hp1 hp2
      rw [allTriples_eq_map]
      refine List.mem_map.mpr ⟨i, ?_, ?_⟩
      · refine (mem_lflat _ _ i).mpr
          ⟨r % DWARF_CFA_STACK_BUCKET_COUNT, ?_, hi⟩
        exact List.mem_range.mpr (Nat.mod_lt _ (by decide))
      · unfold entryTriple
        rw [hir, ← hp1, ← hp2]
  · rw [allTriples_eq_map, List.map_map]
    exact catChains_regnum_nodup s w _
      (List.nodup_range DWARF_CFA_STACK_BUCKET_COUNT)

theorem c6_witness :
    (iter_run init_stack 256 iter_init).1 = allTriples init_stack ∧
    (∀ r ru v, ((r, ru, v) ∈ allTriples init_stack ↔
      get_register_rule r 256 init_stack = some (some (ru, v)))) ∧
    ((allTriples init_stack).map (fun tr => tr.1)).Nodup ∧
    iter_next init_stack (iter_run init_stack 256 iter_init).2 =
      (none, (iter_run init_stack 256 iter_init).2) :=
  c6_iterator_completeness init_stack ⟨256, [], rfl⟩
